import Mathlib

/-!
# dnsproxy: the domain cache (`src/domain_cache.c`)

A shallow embedding of the answer cache of the DNS proxy and the proofs of its
specified properties.

Conventions of the embedding.

* A C string (`char*` up to its terminating NUL) is the list of its bytes before
  the NUL, `List Nat`; a pointer `p + k` into a string is `List.drop k`.
* `int` values are `Int`; `unsigned int` counters are `Nat` reduced modulo `2^32`
  where the code increments or decrements them; `time_t` is a 64-bit signed
  integer, modelled by `Int`, and the cast `(int)` of a `time_t` difference keeps
  its low 32 bits.
* The global `g_cache` is passed explicitly: every operation takes the store and
  returns the new one.
* `calloc` is taken to succeed; `time()` is an explicit argument `now`.
* `rbtree.c` and `dnsproxy.h` are not part of the sources. The ordered index is
  modelled as a binary search tree driven by the callbacks of `domain_cache.c`.
  Insertion and removal leave the tree unbalanced; the red-black recolouring and
  rotations, which keep the in-order sequence, appear as a step of their own in the
  reachable states. `MAX_TTL` and the C library function `inet_addr` are
  parameters.
-/

namespace DomainCache

/-! ## C library helpers -/

/-- The C library `strcmp` on two NUL-terminated strings: negative, zero or positive
as the first differing byte orders them (the C standard fixes only the sign). -/
def strcmp : List Nat → List Nat → Int
  | [], [] => 0
  | [], _ :: _ => -1
  | _ :: _, [] => 1
  | a :: s, b :: t => if a < b then -1 else if b < a then 1 else strcmp s t

/-- The C library `strncmp`: as `strcmp`, over at most `n` bytes. -/
def strncmp : List Nat → List Nat → Nat → Int
  | _, _, 0 => 0
  | [], [], _ + 1 => 0
  | [], _ :: _, _ + 1 => -1
  | _ :: _, [], _ + 1 => 1
  | a :: s, b :: t, n + 1 => if a < b then -1 else if b < a then 1 else strncmp s t n

/-- The C library `tolower` in the C locale, on a byte. -/
def tolower (c : Nat) : Nat := if 65 ≤ c ∧ c ≤ 90 then c + 32 else c

/-- The cast `(int)` applied to a 64-bit value: the low 32 bits, read as signed. -/
def to_int (x : Int) : Int := (x + 2147483648) % 4294967296 - 2147483648

/-- The bytes of a 16-bit value in network order (`htons` followed by a store). -/
def htons (x : Nat) : List Nat := [x / 256 % 256, x % 256]

/-- The bytes of a 32-bit value in network order (`htonl` followed by a store). -/
def htonl (x : Nat) : List Nat := [x / 16777216 % 256, x / 65536 % 256, x / 256 % 256, x % 256]

/-- The constant `INADDR_NONE` of the C library. -/
def INADDR_NONE : Nat := 4294967295

/-- The constant `INADDR_ANY` of the C library. -/
def INADDR_ANY : Nat := 0

/-! ## Data model -/

/-- Modelled from the spec: the entry of §3, for the structure `DOMAIN_CACHE` whose
declaration (`dnsproxy.h`) is missing, with the fields that `domain_cache.c` reads
and writes under the names it uses; `prefix_` is the field `prefix`. A freshly
allocated entry is zero-filled by `calloc`. -/
structure DOMAIN_CACHE where
  timestamp : Int
  expire : Int
  an_count : Nat
  an_length : Nat
  d_length : Int
  p_length : Int
  prefix_ : List Nat
  domain : List Nat
  answer : List Nat
deriving DecidableEq

/-- Modelled from the spec: the node structure of the ordered index (`rbtree.c` is
not in the sources). A tree is `RBNODE_NULL` or a node with two subtrees; the entry
that embeds the node stands for the node. -/
inductive rbnode where
  | RBNODE_NULL : rbnode
  | node (left : rbnode) (entry : DOMAIN_CACHE) (right : rbnode) : rbnode
deriving DecidableEq

/-- The lookup context `SEARCH_CONTEXT`. -/
structure SEARCH_CONTEXT where
  domain : List Nat
  length : Int
  candidate : Option DOMAIN_CACHE
deriving DecidableEq

/-- The store `g_cache`: two counters and the roots of the three indexes. -/
structure g_cache where
  count : Nat
  wcount : Nat
  rb_name : rbnode
  rb_wname : rbnode
  rb_expire : rbnode
deriving DecidableEq

/-- The zero-initialised static `g_cache` at program start. -/
def g_cache_zero : g_cache :=
  { count := 0, wcount := 0, rb_name := rbnode.RBNODE_NULL, rb_wname := rbnode.RBNODE_NULL,
    rb_expire := rbnode.RBNODE_NULL }

/-! ## Callbacks of the three indexes -/

/-- The callback `name_search`: the query against the name of a node. -/
def name_search (ctx : SEARCH_CONTEXT) (right : DOMAIN_CACHE) : Int × SEARCH_CONTEXT :=
  (strcmp ctx.domain right.domain, ctx)

/-- The callback `name_compare`. -/
def name_compare (left right : DOMAIN_CACHE) : Int :=
  strcmp left.domain right.domain

/-- The callback `wname_search`: the result steers the descent, and the context
comes back with `candidate` updated. -/
def wname_search (ctx : SEARCH_CONTEXT) (right : DOMAIN_CACHE) : Int × SEARCH_CONTEXT :=
  let pos := ctx.length - right.d_length
  if pos < 0 then (-1, ctx)
  else
    let ret := strcmp (ctx.domain.drop pos.toNat) right.domain
    if ret = 0 then
      if pos = 0 then (0, ctx)
      else if right.p_length = 0 then (1, { ctx with candidate := some right })
      else
        let ret2 := strncmp ctx.domain right.prefix_ right.p_length.toNat
        if ret2 = 0 then
          (if pos > right.p_length then 1 else ret2, { ctx with candidate := some right })
        else (ret2, ctx)
    else (ret, ctx)

/-- The callback `wname_compare`. -/
def wname_compare (left right : DOMAIN_CACHE) : Int :=
  let pos := left.d_length - right.d_length
  if pos < 0 then -1
  else
    let ret := strcmp (left.domain.drop pos.toNat) right.domain
    if ret = 0 then strcmp left.prefix_ right.prefix_ else ret

/-- The callback `expire_compare`. -/
def expire_compare (left right : DOMAIN_CACHE) : Int :=
  to_int (left.expire - right.expire)

/-! ## The ordered index -/

/-- Modelled from the spec: `rbtree_search` of the missing `rbtree.c`, the descent
of §4.2 and §4.3: the callback is asked at each node, zero ends the search at that
node, a negative result goes left and a positive one right. -/
def rbtree_search (search : SEARCH_CONTEXT → DOMAIN_CACHE → Int × SEARCH_CONTEXT) :
    rbnode → SEARCH_CONTEXT → Option DOMAIN_CACHE × SEARCH_CONTEXT
  | rbnode.RBNODE_NULL, ctx => (none, ctx)
  | rbnode.node l e r, ctx =>
    if (search ctx e).1 = 0 then (some e, (search ctx e).2)
    else if (search ctx e).1 < 0 then rbtree_search search l (search ctx e).2
    else rbtree_search search r (search ctx e).2

/-- Modelled from the spec: `rbtree_insert_broken` of the missing `rbtree.c`, the
insert of §4.2: the new node is compared with the nodes on its way down; a node
that compares equal is returned and the tree is left as it is, otherwise the new
node becomes a leaf and nothing is returned. -/
def rbtree_insert_broken (compare : DOMAIN_CACHE → DOMAIN_CACHE → Int) :
    rbnode → DOMAIN_CACHE → Option DOMAIN_CACHE × rbnode
  | rbnode.RBNODE_NULL, n => (none, rbnode.node rbnode.RBNODE_NULL n rbnode.RBNODE_NULL)
  | rbnode.node l e r, n =>
    if compare n e = 0 then (some e, rbnode.node l e r)
    else if compare n e < 0 then
      ((rbtree_insert_broken compare l n).1, rbnode.node (rbtree_insert_broken compare l n).2 e r)
    else
      ((rbtree_insert_broken compare r n).1, rbnode.node l e (rbtree_insert_broken compare r n).2)

/-- Modelled from the spec: `rbtree_insert` of the missing `rbtree.c`, the insert
of §4.4: the new node always becomes a leaf, equal keys going right. -/
def rbtree_insert (compare : DOMAIN_CACHE → DOMAIN_CACHE → Int) :
    rbnode → DOMAIN_CACHE → rbnode
  | rbnode.RBNODE_NULL, n => rbnode.node rbnode.RBNODE_NULL n rbnode.RBNODE_NULL
  | rbnode.node l e r, n =>
    if compare n e < 0 then rbnode.node (rbtree_insert compare l n) e r
    else rbnode.node l e (rbtree_insert compare r n)

/-- Modelled from the spec: `rbtree_first` of the missing `rbtree.c`, the
`peek_earliest` of §4.4: the leftmost node, none for an empty tree
(`rbtree_empty`). -/
def rbtree_first : rbnode → Option DOMAIN_CACHE
  | rbnode.RBNODE_NULL => none
  | rbnode.node rbnode.RBNODE_NULL e _ => some e
  | rbnode.node (rbnode.node a b c) _ _ => rbtree_first (rbnode.node a b c)

/-- Modelled from the spec: the tree without its leftmost node, the `pop_earliest`
of §4.4 (part of the removal below). -/
def rbtree_drop_first : rbnode → rbnode
  | rbnode.RBNODE_NULL => rbnode.RBNODE_NULL
  | rbnode.node rbnode.RBNODE_NULL _ r => r
  | rbnode.node (rbnode.node a b c) e r => rbnode.node (rbtree_drop_first (rbnode.node a b c)) e r

/-- Modelled from the spec: the two subtrees of a removed node joined, for the
`remove` of §4.2; the successor (the first node of the right subtree) takes the
place of the removed node. -/
def rbtree_join (l r : rbnode) : rbnode :=
  match rbtree_first r with
  | none => l
  | some m => rbnode.node l m (rbtree_drop_first r)

/-- Modelled from the spec: the `remove` of §4.2 on a tree that holds the node.
The node is found by its entry, the first equal one in order, since the entry
stands for its node. -/
def rbtree_remove : rbnode → DOMAIN_CACHE → Option rbnode
  | rbnode.RBNODE_NULL, _ => none
  | rbnode.node l e r, n =>
    match rbtree_remove l n with
    | some l2 => some (rbnode.node l2 e r)
    | none =>
      if e = n then some (rbtree_join l r)
      else
        match rbtree_remove r n with
        | some r2 => some (rbnode.node l e r2)
        | none => none

/-- Modelled from the spec: `rbtree_delete` of the missing `rbtree.c`, the `remove`
of §4.2 and §4.4: removal of a node of the tree (a tree that does not hold the node
is left as it is). -/
def rbtree_delete (t : rbnode) (n : DOMAIN_CACHE) : rbnode :=
  (rbtree_remove t n).getD t

/-- The nodes of a tree in order. -/
def rbnode.toList : rbnode → List DOMAIN_CACHE
  | rbnode.RBNODE_NULL => []
  | rbnode.node l e r => l.toList ++ e :: r.toList

/-- The number of nodes of a tree. -/
def rbnode.size : rbnode → Nat
  | rbnode.RBNODE_NULL => 0
  | rbnode.node l _ r => l.size + 1 + r.size

/-! ## Insertion, lookup and sweep -/

/-- The entry that `name_append` allocates and fills in: the first `d_length` bytes
of the name and the first `an_length` bytes of the answer, one record, no expiry. -/
def name_entry (now : Int) (domain : List Nat) (d_length : Int) (an_length : Nat)
    (answer : List Nat) : DOMAIN_CACHE :=
  { timestamp := now, expire := 0, an_count := 1, an_length := an_length,
    d_length := d_length, p_length := 0, prefix_ := [],
    domain := domain.take d_length.toNat, answer := answer.take an_length }

/-- The function `name_append`: a static exact entry, freed when
`rbtree_insert_broken` returns a node, counted otherwise. -/
def name_append (now : Int) (g : g_cache) (domain : List Nat) (d_length : Int)
    (an_length : Nat) (answer : List Nat) : g_cache :=
  let cache := name_entry now domain d_length an_length answer
  let node := rbtree_insert_broken name_compare g.rb_name cache
  if node.1.isSome then g
  else { g with count := (g.count + 1) % 4294967296, rb_name := node.2 }

/-- The entry that `wname_append` allocates and fills in; the clock is not read. -/
def wname_entry (prefix_ : List Nat) (p_length : Int) (domain : List Nat) (d_length : Int)
    (an_length : Nat) (answer : List Nat) : DOMAIN_CACHE :=
  { timestamp := 0, expire := 0, an_count := 1, an_length := an_length,
    d_length := d_length, p_length := p_length,
    prefix_ := if p_length > 0 then prefix_.take p_length.toNat else [],
    domain := if d_length > 0 then domain.take d_length.toNat else [],
    answer := answer.take an_length }

/-- The function `wname_append`: a static wildcard entry, freed when
`rbtree_insert_broken` returns a node, counted otherwise. -/
def wname_append (g : g_cache) (prefix_ : List Nat) (p_length : Int) (domain : List Nat)
    (d_length : Int) (an_length : Nat) (answer : List Nat) : g_cache :=
  let cache := wname_entry prefix_ p_length domain d_length an_length answer
  let node := rbtree_insert_broken wname_compare g.rb_wname cache
  if node.1.isSome then g
  else { g with wcount := (g.wcount + 1) % 4294967296, rb_wname := node.2 }

/-- The function `domain_cache_search`. -/
def domain_cache_search (g : g_cache) (domain : List Nat) : Option DOMAIN_CACHE :=
  let ctx : SEARCH_CONTEXT := { domain := domain, length := domain.length, candidate := none }
  match rbtree_search name_search g.rb_name ctx with
  | (some e, _) => some e
  | (none, ctx1) =>
    if g.wcount < 1 then none
    else
      match rbtree_search wname_search g.rb_wname ctx1 with
      | (some e, _) => some e
      | (none, ctx2) => ctx2.candidate

/-- The entry that `domain_cache_append` allocates and fills in: it expires at
`now + ttl`. -/
def dynamic_entry (now : Int) (domain : List Nat) (d_length : Int) (ttl : Nat)
    (an_count : Nat) (an_length : Nat) (answer : List Nat) : DOMAIN_CACHE :=
  { timestamp := now, expire := now + ttl, an_count := an_count, an_length := an_length,
    d_length := d_length, p_length := 0, prefix_ := [],
    domain := domain.take d_length.toNat, answer := answer.take an_length }

/-- The function `domain_cache_append`: a dynamic entry, freed when
`rbtree_insert_broken` returns a node, counted and put into the Expiration Index
otherwise. -/
def domain_cache_append (now : Int) (g : g_cache) (domain : List Nat) (d_length : Int)
    (ttl : Nat) (an_count : Nat) (an_length : Nat) (answer : List Nat) : g_cache :=
  let cache := dynamic_entry now domain d_length ttl an_count an_length answer
  let node := rbtree_insert_broken name_compare g.rb_name cache
  if node.1.isSome then g
  else
    { g with count := (g.count + 1) % 4294967296, rb_name := node.2,
             rb_expire := rbtree_insert expire_compare g.rb_expire cache }

/-- The loop of `domain_cache_clean`, at most `fuel` rounds. -/
def domain_cache_clean_loop : Nat → Int → g_cache → g_cache
  | 0, _, g => g
  | fuel + 1, current, g =>
    match rbtree_first g.rb_expire with
    | none => g
    | some cache =>
      if cache.expire > current then g
      else
        domain_cache_clean_loop fuel current
          { g with count := (g.count + 4294967295) % 4294967296,
                   rb_name := rbtree_delete g.rb_name cache,
                   rb_expire := rbtree_delete g.rb_expire cache }

/-- The function `domain_cache_clean`: every round removes a node of the Expiration
Index, so its size bounds the number of rounds. -/
def domain_cache_clean (current : Int) (g : g_cache) : g_cache :=
  domain_cache_clean_loop g.rb_expire.size current g

/-! ## The loader -/

/-- The function `is_space`. -/
def is_space (c : Nat) : Bool := c = 9 || c = 32 || c = 10 || c = 13

/-- The byte a pointer into a string points at: the terminating NUL at its end. -/
def deref (p : List Nat) : Nat := p.headD 0

/-- The function `skip_space`. -/
def skip_space : List Nat → List Nat
  | [] => []
  | c :: p => if is_space c then skip_space p else c :: p

/-- The function `skip_to_space`. -/
def skip_to_space : List Nat → List Nat
  | [] => []
  | c :: p => if !is_space c then skip_to_space p else c :: p

/-- The C library `strchr` for a byte other than NUL: the string from the first
occurrence of the byte on. -/
def strchr : List Nat → Nat → Option (List Nat)
  | [], _ => none
  | a :: s, c => if a = c then some (a :: s) else strchr s c

/-- The answer that `domain_cache_init` builds for the address of a hosts line:
a compression pointer, type, class, `MAX_TTL`, the length of the address and the
address, which `inet_addr` gave in network order. -/
def hosts_answer (MAX_TTL addr : Nat) : List Nat :=
  [192, 12] ++ htons 1 ++ htons 1 ++ htonl MAX_TTL ++ htons 4 ++ htonl addr

/-- The inner loop of `domain_cache_init` over the domains of a hosts line, at most
`fuel` rounds. `rear` is the rest of the line from the pointer `rear` on, so that
`rear + 1 < rlimit` reads `1 < rear.length`; the bytes between `domain` and the new
`rear` are the domain, lower-cased in place before it is split at `*`. -/
def hosts_domains : Nat → Int → Nat → List Nat → List Nat → g_cache → g_cache
  | 0, _, _, _, _, g => g
  | fuel + 1, now, an_length, answer, rear, g =>
    if 1 < rear.length then
      let domain := skip_space (rear.drop 1)
      if is_space (deref domain) then g
      else
        let rear2 := skip_to_space domain
        let name := (domain.take (domain.length - rear2.length)).map tolower
        match strchr name 42 with
        | some w =>
          let wildcard := w.drop 1
          hosts_domains fuel now an_length answer rear2
            (wname_append g (name.take (name.length - w.length))
              ((name.length : Int) - wildcard.length - 1) wildcard wildcard.length
              an_length answer)
        | none =>
          hosts_domains fuel now an_length answer rear2
            (name_append now g name ((name.length % 65536 : Nat) : Int) an_length answer)
    else g

/-- The body of the `fgets` loop of `domain_cache_init` on one line of the hosts
file. `inet_addr` gives the address as the number whose network-order bytes are the
bytes of `s_addr`. -/
def hosts_line (MAX_TTL : Nat) (inet_addr : List Nat → Nat) (now : Int) (g : g_cache)
    (line : List Nat) : g_cache :=
  let ip := skip_space line
  if is_space (deref ip) || deref ip = 35 then g
  else
    let rear := skip_to_space ip
    if !is_space (deref rear) then g
    else
      let addr := inet_addr (ip.take (ip.length - rear.length))
      if addr = INADDR_NONE || addr = INADDR_ANY then g
      else
        let answer := hosts_answer MAX_TTL addr
        hosts_domains rear.length now (answer.length % 65536) answer rear g

/-- The function `domain_cache_init`. `hosts_file` is none for a null path or a
file that cannot be opened, and otherwise the lines that `fgets` returns. The
counter `wcount` keeps its value, which is zero at program start. -/
def domain_cache_init (MAX_TTL : Nat) (inet_addr : List Nat → Nat) (now : Int) (g : g_cache)
    (hosts_file : Option (List (List Nat))) : g_cache :=
  let g0 : g_cache :=
    { g with count := 0, rb_name := rbnode.RBNODE_NULL, rb_wname := rbnode.RBNODE_NULL,
             rb_expire := rbnode.RBNODE_NULL }
  match hosts_file with
  | none => g0
  | some lines => lines.foldl (hosts_line MAX_TTL inet_addr now) g0

/-- The bytes of a text. -/
def bytes (s : String) : List Nat := s.toList.map Char.toNat

/-! ## Invariants and reachable states -/

/-- The Exact-Name Index is a search tree for `name_compare`: in order, its names
strictly increase. -/
def name_ordered (t : rbnode) : Prop :=
  t.toList.Pairwise (fun a b => strcmp a.domain b.domain < 0)

/-- The store states the program can be in: the state after `domain_cache_init`,
and every state that `name_append`, `wname_append`, `domain_cache_append` and
`domain_cache_clean` lead to from one of them. The last rule stands for the
recolouring and the rotations of the missing `rbtree.c`, which are not modelled:
they may reshape each index in any way that keeps its in-order sequence. -/
inductive Reachable : g_cache → Prop
  | init (MAX_TTL : Nat) (inet_addr : List Nat → Nat) (now : Int)
      (hosts_file : Option (List (List Nat))) :
      Reachable (domain_cache_init MAX_TTL inet_addr now g_cache_zero hosts_file)
  | name_append (now : Int) (g : g_cache) (domain : List Nat) (d_length : Int)
      (an_length : Nat) (answer : List Nat) :
      Reachable g → Reachable (name_append now g domain d_length an_length answer)
  | wname_append (g : g_cache) (p : List Nat) (p_length : Int) (domain : List Nat)
      (d_length : Int) (an_length : Nat) (answer : List Nat) :
      Reachable g → Reachable (wname_append g p p_length domain d_length an_length answer)
  | domain_cache_append (now : Int) (g : g_cache) (domain : List Nat) (d_length : Int)
      (ttl : Nat) (an_count : Nat) (an_length : Nat) (answer : List Nat) :
      Reachable g →
      Reachable (domain_cache_append now g domain d_length ttl an_count an_length answer)
  | domain_cache_clean (current : Int) (g : g_cache) :
      Reachable g → Reachable (domain_cache_clean current g)
  | rebalance (g : g_cache) (rb_name rb_wname rb_expire : rbnode) :
      Reachable g → rb_name.toList = g.rb_name.toList →
      rb_wname.toList = g.rb_wname.toList → rb_expire.toList = g.rb_expire.toList →
      Reachable { g with rb_name := rb_name, rb_wname := rb_wname, rb_expire := rb_expire }

/-! ## The matching rule of the specification -/

/-- The matching rule of §4.3 in the spec's words, for a query `Q` and a wildcard
entry with prefix `P` and suffix `S`: `Q` is at least as long as `S` (rule 1), the
bytes of `Q` from `lead = len Q - len S` on are `S` (rule 2), and `lead` is zero
(rule 3), or `P` is empty (rule 4), or the first `len P` bytes of `Q` are `P`
(rule 5). -/
def spec_wildcard_match (P S Q : List Nat) : Prop :=
  S.length ≤ Q.length ∧ Q.drop (Q.length - S.length) = S ∧
    (Q.length - S.length = 0 ∨ P.length = 0 ∨ Q.take P.length = P)

/-- The matching rule is decidable. -/
instance spec_wildcard_match_decidable (P S Q : List Nat) :
    Decidable (spec_wildcard_match P S Q) := by
  unfold spec_wildcard_match
  infer_instance

/-! ## Concrete stores -/

/-- The store after `domain_cache_init` without a hosts file. -/
def store_empty : g_cache := domain_cache_init 0 (fun _ => INADDR_NONE) 0 g_cache_zero none

/-- The store that has learned the name `a` at time 0 for 60 seconds, answer byte 7. -/
def store_a : g_cache := domain_cache_append 0 store_empty (bytes "a") 1 60 1 1 [7]

/-- The store that has learned `b` with a TTL of 3000000000 seconds and then `a`
with a TTL of one second, both at time 0. -/
def store_long_ttl : g_cache :=
  domain_cache_append 0 (domain_cache_append 0 store_empty (bytes "b") 1 3000000000 1 2 [1, 2])
    (bytes "a") 1 1 1 2 [3, 4]

/-- An `inet_addr` that knows the one address `10.0.0.1`, 167772161 as a number. -/
def inet_addr_example (s : List Nat) : Nat :=
  if s = bytes "10.0.0.1" then 167772161 else INADDR_NONE

/-- The store after the hosts line `10.0.0.1 *.example.com` has been loaded and the
name `foo.example.com` has been learned with answer byte 7. -/
def store_wild_exact : g_cache :=
  domain_cache_append 50
    (domain_cache_init 604800 inet_addr_example 0 g_cache_zero
      (some [bytes "10.0.0.1 *.example.com\n"]))
    (bytes "foo.example.com") 15 60 1 1 [7]

/-- The store after the hosts line `10.0.0.1 b*.a *.a`: the wildcard `b*.a` is
appended before the wildcard `*.a`. -/
def store_prefixed_first : g_cache :=
  domain_cache_init 604800 inet_addr_example 0 g_cache_zero (some [bytes "10.0.0.1 b*.a *.a\n"])

/-- The store after the hosts line `10.0.0.1 *.a b*.a`: the wildcard `*.a` is
appended before the wildcard `b*.a`. -/
def store_unrestricted_first : g_cache :=
  domain_cache_init 604800 inet_addr_example 0 g_cache_zero (some [bytes "10.0.0.1 *.a b*.a\n"])

/-- The store that has learned the name `foo.example.com`. -/
def store_foo : g_cache :=
  domain_cache_append 0 store_empty (bytes "foo.example.com") 15 60 1 1 [7]

/-! ## Further concrete stores -/

/-- The store after the hosts line `10.0.0.1`, a blank and a newline: an address
followed only by whitespace. -/
def store_blank_tail : g_cache :=
  domain_cache_init 604800 inet_addr_example 1000 g_cache_zero (some [bytes "10.0.0.1 \n"])

/-- The store after the hosts line `10.0.0.1 *.example.com`. -/
def store_example_com : g_cache :=
  domain_cache_init 604800 inet_addr_example 1000 g_cache_zero
    (some [bytes "10.0.0.1 *.example.com\n"])

/-- The store that has learned the name `dev1.example.com` with answer byte 9 and
holds no wildcard entry. -/
def store_dev1_exact : g_cache :=
  domain_cache_append 50 store_empty (bytes "dev1.example.com") 16 60 1 1 [9]

/-- The store that has learned the name `dev1x.example.com` with answer byte 9 and
holds no wildcard entry. -/
def store_dev1x_exact : g_cache :=
  domain_cache_append 50 store_empty (bytes "dev1x.example.com") 17 60 1 1 [9]

/-! ## Further invariants -/

/-- The counters agree with the indexes: `count` is the number of entries of the
Exact-Name Index and `wcount` the number of entries of the Wildcard-Name Index, both
as unsigned 32-bit numbers. -/
def counters_agree (g : g_cache) : Prop :=
  g.count = g.rb_name.size % 4294967296 ∧ g.wcount = g.rb_wname.size % 4294967296

/-- Every entry of the Expiration Index is an entry of the Exact-Name Index, as
often as it occurs. -/
def expire_in_name (g : g_cache) : Prop :=
  g.rb_expire.toList.Subperm g.rb_name.toList

/-- The entry is dynamic: `domain_cache_append` has set its `expire`, which
`name_append` and `wname_append` leave at the zero of `calloc`. -/
def is_dynamic (e : DOMAIN_CACHE) : Bool := decide (e.expire ≠ 0)

/-- The Expiration Index holds the dynamic entries of the Exact-Name Index, each
once. -/
def expire_is_dynamic (g : g_cache) : Prop :=
  g.rb_expire.toList.Perm (g.rb_name.toList.filter is_dynamic)

/-- The reachable store states when every reading of `time()` is positive, as it is
after 1970-01-01: the entries of `name_append` and `domain_cache_append` then carry
a positive `timestamp`, the entries of `wname_append` none, and a dynamic entry
expires at `timestamp + ttl`, which is not zero. -/
inductive ReachableClock : g_cache → Prop
  | init (MAX_TTL : Nat) (inet_addr : List Nat → Nat) (now : Int)
      (hosts_file : Option (List (List Nat))) : 0 < now →
      ReachableClock (domain_cache_init MAX_TTL inet_addr now g_cache_zero hosts_file)
  | name_append (now : Int) (g : g_cache) (domain : List Nat) (d_length : Int)
      (an_length : Nat) (answer : List Nat) : 0 < now →
      ReachableClock g → ReachableClock (name_append now g domain d_length an_length answer)
  | wname_append (g : g_cache) (p : List Nat) (p_length : Int) (domain : List Nat)
      (d_length : Int) (an_length : Nat) (answer : List Nat) :
      ReachableClock g →
      ReachableClock (wname_append g p p_length domain d_length an_length answer)
  | domain_cache_append (now : Int) (g : g_cache) (domain : List Nat) (d_length : Int)
      (ttl : Nat) (an_count : Nat) (an_length : Nat) (answer : List Nat) : 0 < now →
      ReachableClock g →
      ReachableClock (domain_cache_append now g domain d_length ttl an_count an_length answer)
  | domain_cache_clean (current : Int) (g : g_cache) :
      ReachableClock g → ReachableClock (domain_cache_clean current g)
  | rebalance (g : g_cache) (rb_name rb_wname rb_expire : rbnode) :
      ReachableClock g → rb_name.toList = g.rb_name.toList →
      rb_wname.toList = g.rb_wname.toList → rb_expire.toList = g.rb_expire.toList →
      ReachableClock { g with rb_name := rb_name, rb_wname := rb_wname, rb_expire := rb_expire }

/-- A name for the `k`-th of many entries: the decimal digits of `k + 1`. -/
def decimal_name (k : Nat) : List Nat := (Nat.digits 10 (k + 1)).map (fun c => c + 48)

/-- The store that has learned `n` names, one after the other, at time 1700000000
for 60 seconds each. -/
def store_many (n : Nat) : g_cache :=
  (List.range n).foldl
    (fun g k =>
      domain_cache_append 1700000000 g (decimal_name k) (decimal_name k).length 60 1 0 [])
    store_empty

/-- The store after the hosts line `10.0.0.1 host.local *.wild.local`, loaded at
time 1000, has learned `foo.example.com` at time 2000 for 60 seconds and `bar` at
time 2010 for 5 seconds. -/
def store_mixed : g_cache :=
  domain_cache_append 2010
    (domain_cache_append 2000
      (domain_cache_init 604800 inet_addr_example 1000 g_cache_zero
        (some [bytes "10.0.0.1 host.local *.wild.local\n"]))
      (bytes "foo.example.com") 15 60 1 1 [7])
    (bytes "bar") 3 5 1 1 [8]

/-! ## The tokens of a hosts line, in the words of the specification -/

/-- The whitespace-separated tokens of a text, at most `fuel` of them: blanks are
skipped, the bytes up to the next blank are a token, and so on. -/
def spec_tokens_fuel : Nat → List Nat → List (List Nat)
  | 0, _ => []
  | fuel + 1, s =>
    if s.dropWhile (fun c => is_space c) = [] then []
    else
      (s.dropWhile (fun c => is_space c)).takeWhile (fun c => !is_space c) ::
        spec_tokens_fuel fuel
          ((s.dropWhile (fun c => is_space c)).dropWhile (fun c => !is_space c))

/-- The whitespace-separated tokens of a text. -/
def spec_tokens (s : List Nat) : List (List Nat) := spec_tokens_fuel s.length s

/-- What §4.8 has the loader do with one domain token: lower-case it; with a `*` in
it, `wname_append` of the bytes before the first `*` and of the bytes after it,
with their lengths; without one, `name_append` of the whole lower-cased token with
its length. -/
def spec_token_append (now : Int) (an_length : Nat) (answer : List Nat) (g : g_cache)
    (t : List Nat) : g_cache :=
  if 42 ∈ t.map tolower then
    wname_append g ((t.map tolower).takeWhile (fun c => c ≠ 42))
      (((t.map tolower).takeWhile (fun c => c ≠ 42)).length : Nat)
      (((t.map tolower).dropWhile (fun c => c ≠ 42)).drop 1)
      ((((t.map tolower).dropWhile (fun c => c ≠ 42)).drop 1).length : Nat)
      an_length answer
  else
    name_append now g (t.map tolower) ((t.map tolower).length : Nat) an_length answer

/-- The number of blanks that a text ends with. -/
def spec_trailing_blanks (s : List Nat) : Nat :=
  (s.reverse.takeWhile (fun c => is_space c)).length

/-! ## The C library helpers: order of strings -/

theorem strcmp_self (a : List Nat) : strcmp a a = 0 := by
  induction a with
  | nil => rfl
  | cons x s ih => simp [strcmp, ih]

theorem strcmp_eq_zero {a b : List Nat} : strcmp a b = 0 ↔ a = b := by
  induction a generalizing b with
  | nil => cases b <;> simp [strcmp]
  | cons x s ih =>
    cases b with
    | nil => simp [strcmp]
    | cons y t =>
      simp only [strcmp]
      split_ifs with h1 h2
      · simp; omega
      · simp; omega
      · have : x = y := by omega
        simp [ih, this]

theorem strcmp_neg_iff {a b : List Nat} : strcmp a b < 0 ↔ 0 < strcmp b a := by
  induction a generalizing b with
  | nil => cases b <;> simp [strcmp]
  | cons x s ih =>
    cases b with
    | nil => simp [strcmp]
    | cons y t =>
      simp only [strcmp]
      split_ifs <;> first | omega | simp_all

theorem strcmp_trans {a b c : List Nat} (h1 : strcmp a b < 0) (h2 : strcmp b c < 0) :
    strcmp a c < 0 := by
  induction a generalizing b c with
  | nil =>
    cases c with
    | nil => cases b <;> simp [strcmp] at h1 h2
    | cons z u => simp [strcmp]
  | cons x s ih =>
    cases b with
    | nil => simp [strcmp] at h1
    | cons y t =>
      cases c with
      | nil => simp [strcmp] at h2
      | cons z u =>
        simp only [strcmp] at h1 h2 ⊢
        split_ifs at h1 h2 ⊢ <;> first | omega | exact ih h1 h2

/-! ## The ordered index: in-order contents -/

theorem rbtree_first_toList (t : rbnode) : rbtree_first t = t.toList.head? := by
  induction t with
  | RBNODE_NULL => rfl
  | node l e r ihl _ =>
    cases l with
    | RBNODE_NULL => simp [rbtree_first, rbnode.toList]
    | node a b c =>
      rw [rbtree_first, ihl]
      simp [rbnode.toList, List.head?_append]

theorem rbtree_drop_first_toList (t : rbnode) : (rbtree_drop_first t).toList = t.toList.tail := by
  induction t with
  | RBNODE_NULL => rfl
  | node l e r ihl _ =>
    cases l with
    | RBNODE_NULL => simp [rbtree_drop_first, rbnode.toList]
    | node a b c =>
      have hne : (rbnode.node a b c).toList ≠ [] := by simp [rbnode.toList]
      have h : (rbnode.node (rbnode.node a b c) e r).toList =
          (rbnode.node a b c).toList ++ e :: r.toList := rfl
      rw [rbtree_drop_first, rbnode.toList, ihl, h]
      cases hL : (rbnode.node a b c).toList with
      | nil => exact absurd hL hne
      | cons x xs => simp

theorem rbtree_join_toList (l r : rbnode) : (rbtree_join l r).toList = l.toList ++ r.toList := by
  unfold rbtree_join
  have h1 := rbtree_first_toList r
  have h2 := rbtree_drop_first_toList r
  cases hr : r.toList with
  | nil => simp [hr] at h1; simp [h1]
  | cons m rest => simp [hr] at h1 h2; simp [h1, h2, rbnode.toList]

theorem rbtree_remove_toList (t : rbnode) (n : DOMAIN_CACHE) :
    (n ∉ t.toList ∧ rbtree_remove t n = none) ∨
    (n ∈ t.toList ∧ ∃ t2, rbtree_remove t n = some t2 ∧ t2.toList = t.toList.erase n) := by
  induction t with
  | RBNODE_NULL => left; simp [rbtree_remove, rbnode.toList]
  | node l e r ihl ihr =>
    rcases ihl with ⟨hl, hl2⟩ | ⟨hl, l2, hl2, hl3⟩
    · by_cases he : e = n
      · right
        subst he
        refine ⟨by simp [rbnode.toList], rbtree_join l r, by simp [rbtree_remove, hl2], ?_⟩
        rw [rbtree_join_toList, rbnode.toList, List.erase_append_right _ hl]
        simp
      · rcases ihr with ⟨hr, hr2⟩ | ⟨hr, r2, hr2, hr3⟩
        · left
          refine ⟨by simp [rbnode.toList, hl, hr, Ne.symm he], by simp [rbtree_remove, hl2, he, hr2]⟩
        · right
          refine ⟨by simp [rbnode.toList, hr], rbnode.node l e r2, by simp [rbtree_remove, hl2, he, hr2], ?_⟩
          rw [rbnode.toList, rbnode.toList, List.erase_append_right _ hl, hr3]
          simp [List.erase_cons, he]
    · right
      refine ⟨by simp [rbnode.toList, hl], rbnode.node l2 e r, by simp [rbtree_remove, hl2], ?_⟩
      rw [rbnode.toList, rbnode.toList, hl3, List.erase_append_left _ hl]

theorem rbtree_delete_toList (t : rbnode) (n : DOMAIN_CACHE) :
    (rbtree_delete t n).toList = t.toList.erase n := by
  unfold rbtree_delete
  rcases rbtree_remove_toList t n with ⟨h1, h2⟩ | ⟨_, t2, h2, h3⟩
  · simp [h2, List.erase_of_not_mem h1]
  · simp [h2, h3]

theorem rbnode_size_toList (t : rbnode) : t.size = t.toList.length := by
  induction t with
  | RBNODE_NULL => rfl
  | node l e r ihl ihr => simp [rbnode.size, rbnode.toList, ihl, ihr]; omega

/-! ## The Exact-Name Index as a search tree -/

theorem name_ordered_node {l r : rbnode} {e : DOMAIN_CACHE} :
    name_ordered (rbnode.node l e r) ↔
      name_ordered l ∧ name_ordered r ∧
      (∀ a ∈ l.toList, strcmp a.domain e.domain < 0) ∧
      (∀ b ∈ r.toList, strcmp e.domain b.domain < 0) := by
  unfold name_ordered
  rw [rbnode.toList, List.pairwise_append, List.pairwise_cons]
  constructor
  · rintro ⟨h1, ⟨h2, h3⟩, h4⟩
    exact ⟨h1, h3, fun a ha => h4 a ha e (List.mem_cons_self _ _), h2⟩
  · rintro ⟨h1, h2, h3, h4⟩
    refine ⟨h1, ⟨h4, h2⟩, ?_⟩
    intro a ha b hb
    rcases List.mem_cons.1 hb with rfl | hb
    · exact h3 a ha
    · exact strcmp_trans (h3 a ha) (h4 b hb)

theorem name_search_ctx (t : rbnode) (ctx : SEARCH_CONTEXT) :
    (rbtree_search name_search t ctx).2 = ctx := by
  induction t with
  | RBNODE_NULL => rfl
  | node l e r ihl ihr =>
    simp only [rbtree_search, name_search]
    split_ifs
    · rfl
    · exact ihl
    · exact ihr

theorem name_search_some {t : rbnode} {ctx : SEARCH_CONTEXT} {e : DOMAIN_CACHE}
    (h : (rbtree_search name_search t ctx).1 = some e) :
    e ∈ t.toList ∧ e.domain = ctx.domain := by
  induction t with
  | RBNODE_NULL => simp [rbtree_search] at h
  | node l x r ihl ihr =>
    simp only [rbtree_search, name_search] at h
    split_ifs at h with h1 h2
    · simp at h
      subst h
      exact ⟨by simp [rbnode.toList], (strcmp_eq_zero.1 h1).symm⟩
    · have := ihl h
      exact ⟨by simp [rbnode.toList, this.1], this.2⟩
    · have := ihr h
      exact ⟨by simp [rbnode.toList, this.1], this.2⟩

theorem name_search_found {t : rbnode} {ctx : SEARCH_CONTEXT} {e : DOMAIN_CACHE}
    (ht : name_ordered t) (he : e ∈ t.toList) (hd : ctx.domain = e.domain) :
    rbtree_search name_search t ctx = (some e, ctx) := by
  induction t with
  | RBNODE_NULL => simp [rbnode.toList] at he
  | node l x r ihl ihr =>
    obtain ⟨hl, hr, hlx, hxr⟩ := name_ordered_node.1 ht
    simp only [rbnode.toList, List.mem_append, List.mem_cons] at he
    simp only [rbtree_search, name_search, hd]
    rcases he with he | rfl | he
    · have h := hlx e he
      rw [if_neg (by omega), if_pos h]
      exact ihl hl he
    · simp [strcmp_self]
    · have h := strcmp_neg_iff.1 (hxr e he)
      rw [if_neg (by omega), if_neg (by omega)]
      exact ihr hr he

theorem name_search_none {t : rbnode} {ctx : SEARCH_CONTEXT}
    (h : ∀ x ∈ t.toList, x.domain ≠ ctx.domain) :
    rbtree_search name_search t ctx = (none, ctx) := by
  have h2 := name_search_ctx t ctx
  cases h1 : (rbtree_search name_search t ctx).1 with
  | none => exact Prod.ext h1 h2
  | some e => exact absurd (name_search_some h1).2 (h e (name_search_some h1).1)

/-! ## Insertion into an index -/

theorem rbtree_insert_broken_some {cmp : DOMAIN_CACHE → DOMAIN_CACHE → Int} {t : rbnode}
    {n e : DOMAIN_CACHE} (h : (rbtree_insert_broken cmp t n).1 = some e) :
    (rbtree_insert_broken cmp t n).2 = t ∧ e ∈ t.toList ∧ cmp n e = 0 := by
  induction t with
  | RBNODE_NULL => simp [rbtree_insert_broken] at h
  | node l x r ihl ihr =>
    simp only [rbtree_insert_broken] at h ⊢
    split_ifs at h ⊢ with h1 h2
    · simp at h
      subst h
      exact ⟨rfl, by simp [rbnode.toList], h1⟩
    · obtain ⟨a, b, c⟩ := ihl h
      exact ⟨by simp [a], by simp [rbnode.toList, b], c⟩
    · obtain ⟨a, b, c⟩ := ihr h
      exact ⟨by simp [a], by simp [rbnode.toList, b], c⟩

theorem rbtree_insert_broken_none {cmp : DOMAIN_CACHE → DOMAIN_CACHE → Int} {t : rbnode}
    {n : DOMAIN_CACHE} (h : (rbtree_insert_broken cmp t n).1 = none) :
    (rbtree_insert_broken cmp t n).2.toList.Perm (n :: t.toList) := by
  induction t with
  | RBNODE_NULL => simp [rbtree_insert_broken, rbnode.toList]
  | node l x r ihl ihr =>
    simp only [rbtree_insert_broken] at h ⊢
    by_cases h1 : cmp n x = 0
    · simp [h1] at h
    · by_cases h2 : cmp n x < 0
      · simp only [h1, h2, if_true, if_false] at h ⊢
        simp only [rbnode.toList]
        exact (List.Perm.append_right _ (ihl h)).trans (by simp)
      · simp only [h1, h2, if_false] at h ⊢
        simp only [rbnode.toList]
        refine (List.Perm.append_left _
          ((List.Perm.cons x (ihr h)).trans (List.Perm.swap _ _ _))).trans ?_
        exact List.perm_middle

theorem rbtree_insert_broken_mem {cmp : DOMAIN_CACHE → DOMAIN_CACHE → Int} {t : rbnode}
    {n : DOMAIN_CACHE} (h : (rbtree_insert_broken cmp t n).1 = none) (x : DOMAIN_CACHE) :
    x ∈ (rbtree_insert_broken cmp t n).2.toList ↔ x = n ∨ x ∈ t.toList := by
  rw [(rbtree_insert_broken_none h).mem_iff, List.mem_cons]

theorem name_insert_found {t : rbnode} {n e : DOMAIN_CACHE}
    (ht : name_ordered t) (he : e ∈ t.toList) (hd : n.domain = e.domain) :
    rbtree_insert_broken name_compare t n = (some e, t) := by
  induction t with
  | RBNODE_NULL => simp [rbnode.toList] at he
  | node l x r ihl ihr =>
    obtain ⟨hl, hr, hlx, hxr⟩ := name_ordered_node.1 ht
    simp only [rbnode.toList, List.mem_append, List.mem_cons] at he
    simp only [rbtree_insert_broken, name_compare, hd]
    rcases he with he | rfl | he
    · have h := hlx e he
      rw [if_neg (by omega), if_pos h]
      have := ihl hl he
      simp only [name_compare, hd] at this
      simp [this]
    · simp [strcmp_self]
    · have h := strcmp_neg_iff.1 (hxr e he)
      rw [if_neg (by omega), if_neg (by omega)]
      have := ihr hr he
      simp only [name_compare, hd] at this
      simp [this]

theorem name_insert_fresh {t : rbnode} {n : DOMAIN_CACHE}
    (h : ∀ x ∈ t.toList, x.domain ≠ n.domain) :
    (rbtree_insert_broken name_compare t n).1 = none := by
  cases h1 : (rbtree_insert_broken name_compare t n).1 with
  | none => rfl
  | some e =>
    obtain ⟨_, h2, h3⟩ := rbtree_insert_broken_some h1
    exact absurd (strcmp_eq_zero.1 h3).symm (h e h2)

theorem name_insert_ordered {t : rbnode} {n : DOMAIN_CACHE} (ht : name_ordered t) :
    name_ordered (rbtree_insert_broken name_compare t n).2 := by
  induction t with
  | RBNODE_NULL => simp [rbtree_insert_broken, name_ordered, rbnode.toList]
  | node l x r ihl ihr =>
    obtain ⟨hl, hr, hlx, hxr⟩ := name_ordered_node.1 ht
    simp only [rbtree_insert_broken]
    split_ifs with h1 h2
    · exact ht
    · refine name_ordered_node.2 ⟨ihl hl, hr, ?_, hxr⟩
      intro a ha
      cases h3 : (rbtree_insert_broken name_compare l n).1 with
      | none =>
        rcases (rbtree_insert_broken_mem h3 a).1 ha with rfl | ha
        · exact h2
        · exact hlx a ha
      | some e =>
        rw [(rbtree_insert_broken_some h3).1] at ha
        exact hlx a ha
    · refine name_ordered_node.2 ⟨hl, ihr hr, hlx, ?_⟩
      intro a ha
      cases h3 : (rbtree_insert_broken name_compare r n).1 with
      | none =>
        rcases (rbtree_insert_broken_mem h3 a).1 ha with rfl | ha
        · have : 0 < name_compare a x := by omega
          exact strcmp_neg_iff.2 this
        · exact hxr a ha
      | some e =>
        rw [(rbtree_insert_broken_some h3).1] at ha
        exact hxr a ha

theorem name_delete_ordered {t : rbnode} (n : DOMAIN_CACHE) (ht : name_ordered t) :
    name_ordered (rbtree_delete t n) := by
  unfold name_ordered
  rw [rbtree_delete_toList]
  exact List.Pairwise.sublist (List.erase_sublist n _) ht

/-! ## The operations keep the Exact-Name Index a search tree -/

theorem name_append_ordered (now : Int) (g : g_cache) (domain : List Nat) (d_length : Int)
    (an_length : Nat) (answer : List Nat) (h : name_ordered g.rb_name) :
    name_ordered (name_append now g domain d_length an_length answer).rb_name := by
  unfold name_append
  dsimp only
  split_ifs
  · exact h
  · exact name_insert_ordered h

theorem wname_append_rb_name (g : g_cache) (p : List Nat) (p_length : Int) (domain : List Nat)
    (d_length : Int) (an_length : Nat) (answer : List Nat) :
    (wname_append g p p_length domain d_length an_length answer).rb_name = g.rb_name := by
  unfold wname_append
  dsimp only
  split_ifs <;> rfl

theorem domain_cache_append_ordered (now : Int) (g : g_cache) (domain : List Nat)
    (d_length : Int) (ttl an_count an_length : Nat) (answer : List Nat)
    (h : name_ordered g.rb_name) :
    name_ordered
      (domain_cache_append now g domain d_length ttl an_count an_length answer).rb_name := by
  unfold domain_cache_append
  dsimp only
  split_ifs
  · exact h
  · exact name_insert_ordered h

theorem clean_loop_ordered (fuel : Nat) (current : Int) (g : g_cache)
    (h : name_ordered g.rb_name) :
    name_ordered (domain_cache_clean_loop fuel current g).rb_name := by
  induction fuel generalizing g with
  | zero => exact h
  | succ k ih =>
    unfold domain_cache_clean_loop
    split
    · exact h
    · split_ifs
      · exact h
      · exact ih _ (name_delete_ordered _ h)

theorem hosts_domains_ordered (fuel : Nat) (now : Int) (an_length : Nat)
    (answer rear : List Nat) (g : g_cache) (h : name_ordered g.rb_name) :
    name_ordered (hosts_domains fuel now an_length answer rear g).rb_name := by
  induction fuel generalizing rear g with
  | zero => exact h
  | succ k ih =>
    unfold hosts_domains
    dsimp only
    split_ifs
    · exact h
    · split
      · exact ih _ _ (by rw [wname_append_rb_name]; exact h)
      · exact ih _ _ (name_append_ordered _ _ _ _ _ _ h)
    · exact h

theorem hosts_line_ordered (MAX_TTL : Nat) (inet_addr : List Nat → Nat) (now : Int)
    (g : g_cache) (line : List Nat) (h : name_ordered g.rb_name) :
    name_ordered (hosts_line MAX_TTL inet_addr now g line).rb_name := by
  unfold hosts_line
  dsimp only
  split_ifs
  · exact h
  · exact h
  · exact h
  · exact hosts_domains_ordered _ _ _ _ _ _ h

theorem hosts_lines_ordered (MAX_TTL : Nat) (inet_addr : List Nat → Nat) (now : Int)
    (lines : List (List Nat)) (g : g_cache) (h : name_ordered g.rb_name) :
    name_ordered (lines.foldl (hosts_line MAX_TTL inet_addr now) g).rb_name := by
  induction lines generalizing g with
  | nil => exact h
  | cons l ls ih => exact ih _ (hosts_line_ordered _ _ _ _ _ h)

theorem reachable_name_ordered {g : g_cache} (h : Reachable g) : name_ordered g.rb_name := by
  induction h with
  | init MAX_TTL inet_addr now hosts_file =>
    unfold domain_cache_init
    cases hosts_file with
    | none => simp [name_ordered, rbnode.toList]
    | some lines => exact hosts_lines_ordered _ _ _ _ _ (by simp [name_ordered, rbnode.toList])
  | name_append now g domain d_length an_length answer _ ih =>
    exact name_append_ordered _ _ _ _ _ _ ih
  | wname_append g p p_length domain d_length an_length answer _ ih =>
    rw [wname_append_rb_name]; exact ih
  | domain_cache_append now g domain d_length ttl an_count an_length answer _ ih =>
    exact domain_cache_append_ordered _ _ _ _ _ _ _ _ ih
  | domain_cache_clean current g _ ih =>
    exact clean_loop_ordered _ _ _ ih
  | rebalance g rb_name rb_wname rb_expire _ h1 _ _ ih =>
    unfold name_ordered at ih ⊢
    rw [h1]
    exact ih

/-! ## Lookup of an exact name -/

theorem search_exact {g : g_cache} {e : DOMAIN_CACHE} (ht : name_ordered g.rb_name)
    (he : e ∈ g.rb_name.toList) : domain_cache_search g e.domain = some e := by
  unfold domain_cache_search
  simp only [@name_search_found g.rb_name ⟨e.domain, e.domain.length, none⟩ e ht he rfl]

theorem clean_loop_keeps (fuel : Nat) (current : Int) (g : g_cache) (e : DOMAIN_CACHE)
    (he : e ∈ g.rb_name.toList) (hx : current < e.expire) :
    e ∈ (domain_cache_clean_loop fuel current g).rb_name.toList := by
  induction fuel generalizing g with
  | zero => exact he
  | succ k ih =>
    unfold domain_cache_clean_loop
    split
    · exact he
    · next cache _ =>
      split_ifs with h1
      · exact he
      · refine ih _ ?_
        dsimp only
        rw [rbtree_delete_toList]
        refine (List.mem_erase_of_ne ?_).2 he
        rintro rfl
        omega

/-! ## The bounded loops run to their end -/

theorem skip_space_length (p : List Nat) : (skip_space p).length ≤ p.length := by
  induction p with
  | nil => simp [skip_space]
  | cons c p ih =>
    simp only [skip_space]
    split_ifs
    · simp only [List.length_cons]; omega
    · exact Nat.le_refl _

theorem skip_to_space_length (p : List Nat) : (skip_to_space p).length ≤ p.length := by
  induction p with
  | nil => simp [skip_to_space]
  | cons c p ih =>
    simp only [skip_to_space]
    split_ifs
    · simp only [List.length_cons]; omega
    · exact Nat.le_refl _

/-- The loop over the domains of a line ends before its fuel does: with the length
of the rest of the line as fuel, more fuel changes nothing. -/
theorem hosts_domains_fuel (fuel : Nat) (now : Int) (al : Nat) (ans rear : List Nat)
    (g : g_cache) (h : rear.length ≤ fuel) :
    hosts_domains fuel now al ans rear g = hosts_domains rear.length now al ans rear g := by
  induction fuel using Nat.strong_induction_on generalizing rear g with
  | _ fuel ih =>
    have step : ∀ (k : Nat) (rear : List Nat) (g : g_cache), rear.length ≤ k + 1 →
        (∀ m, m < k + 1 → ∀ (r : List Nat) (g2 : g_cache), r.length ≤ m →
          hosts_domains m now al ans r g2 = hosts_domains r.length now al ans r g2) →
        ∀ j, rear.length ≤ j + 1 → j ≤ k →
        hosts_domains (k + 1) now al ans rear g = hosts_domains (j + 1) now al ans rear g := by
      intro k rear g _ hih j hj hjk
      unfold hosts_domains
      dsimp only
      split_ifs with h1 h2
      · rfl
      · have hlen : (skip_to_space (skip_space (rear.drop 1))).length ≤ j := by
          have a := skip_to_space_length (skip_space (rear.drop 1))
          have b := skip_space_length (rear.drop 1)
          have c : (rear.drop 1).length = rear.length - 1 := by simp
          omega
        split
        · rw [hih k (by omega) _ _ (by omega)]
          rcases Nat.lt_or_ge j (k + 1) with hlt | hge
          · rw [hih j hlt _ _ hlen]
          · omega
        · rw [hih k (by omega) _ _ (by omega)]
          rcases Nat.lt_or_ge j (k + 1) with hlt | hge
          · rw [hih j hlt _ _ hlen]
          · omega
      · rfl
    cases fuel with
    | zero =>
      have : rear.length = 0 := by omega
      rw [this]
    | succ k =>
      cases hr : rear.length with
      | zero =>
        have : rear = [] := List.length_eq_zero.1 hr
        subst this
        simp [hosts_domains]
      | succ j =>
        exact step k rear g h (fun m hm r g2 hr2 => ih m hm r g2 hr2) j (by omega) (by omega)

/-- The loop of `domain_cache_clean` ends before its fuel does: after the call the
Expiration Index is empty or its first entry expires after `current`. -/
theorem clean_loop_done (fuel : Nat) (current : Int) (g : g_cache)
    (h : g.rb_expire.size ≤ fuel) :
    rbtree_first (domain_cache_clean_loop fuel current g).rb_expire = none ∨
    ∃ c, rbtree_first (domain_cache_clean_loop fuel current g).rb_expire = some c ∧
      current < c.expire := by
  induction fuel generalizing g with
  | zero =>
    left
    have h0 : g.rb_expire.toList.length = 0 := by rw [← rbnode_size_toList]; omega
    rw [domain_cache_clean_loop, rbtree_first_toList, List.length_eq_zero.1 h0]
    rfl
  | succ k ih =>
    unfold domain_cache_clean_loop
    split
    · next h1 => exact Or.inl h1
    · next cache h1 =>
      split_ifs with h2
      · exact Or.inr ⟨cache, h1, by omega⟩
      · refine ih _ ?_
        dsimp only
        have hm : cache ∈ g.rb_expire.toList := by
          rw [rbtree_first_toList] at h1
          exact List.mem_of_mem_head? h1
        rw [rbnode_size_toList, rbtree_delete_toList, List.length_erase_of_mem hm]
        rw [rbnode_size_toList] at h
        omega

theorem domain_cache_clean_done (current : Int) (g : g_cache) :
    rbtree_first (domain_cache_clean current g).rb_expire = none ∨
    ∃ c, rbtree_first (domain_cache_clean current g).rb_expire = some c ∧
      current < c.expire :=
  clean_loop_done _ _ _ (Nat.le_refl _)

/-! ## The Wildcard-Name Index -/

theorem strncmp_eq_zero {a b : List Nat} {n : Nat} :
    strncmp a b n = 0 ↔ a.take n = b.take n := by
  induction n generalizing a b with
  | zero => simp [strncmp]
  | succ k ih =>
    cases a with
    | nil => cases b <;> simp [strncmp]
    | cons x s =>
      cases b with
      | nil => simp [strncmp]
      | cons y t =>
        simp only [strncmp, List.take_succ_cons, List.cons.injEq]
        split_ifs with h1 h2
        · simp; omega
        · simp; omega
        · have : x = y := by omega
          simp [ih, this]

theorem strncmp_take_eq_zero {Q P : List Nat} :
    strncmp Q P P.length = 0 ↔ Q.take P.length = P := by
  rw [strncmp_eq_zero, List.take_length]

/-- The result of `wname_search` on an entry whose length fields are the lengths of
its prefix and suffix. -/
theorem wname_search_consistent (ctx : SEARCH_CONTEXT) (e : DOMAIN_CACHE)
    (hl : ctx.length = ctx.domain.length) (hd : e.d_length = e.domain.length)
    (hp : e.p_length = e.prefix_.length) :
    (spec_wildcard_match e.prefix_ e.domain ctx.domain →
      ((wname_search ctx e).1 = 0 ∨
        (0 < (wname_search ctx e).1 ∧ (wname_search ctx e).2 = { ctx with candidate := some e }))) ∧
    (¬ spec_wildcard_match e.prefix_ e.domain ctx.domain →
      (wname_search ctx e).1 ≠ 0 ∧ (wname_search ctx e).2 = ctx) := by
  unfold spec_wildcard_match wname_search
  simp only [hl, hd, hp]
  by_cases h1 : (ctx.domain.length : Int) - e.domain.length < 0
  · simp only [h1, if_true]
    constructor
    · intro h; omega
    · intro _; simp
  · simp only [h1, if_false]
    have hle : e.domain.length ≤ ctx.domain.length := by omega
    have hpos : ((ctx.domain.length : Int) - e.domain.length).toNat =
        ctx.domain.length - e.domain.length := by omega
    rw [hpos]
    by_cases h2 : strcmp (ctx.domain.drop (ctx.domain.length - e.domain.length)) e.domain = 0
    · have h2e := strcmp_eq_zero.1 h2
      simp only [h2, if_true]
      by_cases h3 : (ctx.domain.length : Int) - e.domain.length = 0
      · simp only [h3, if_true]
        constructor
        · intro _; left; trivial
        · intro h; exfalso; apply h; exact ⟨hle, h2e, Or.inl (by omega)⟩
      · simp only [h3, if_false]
        by_cases h4 : (e.prefix_.length : Int) = 0
        · simp only [h4, if_true]
          constructor
          · intro _; right; exact ⟨by decide, trivial⟩
          · intro h; exfalso; apply h; exact ⟨hle, h2e, Or.inr (Or.inl (by omega))⟩
        · simp only [h4, if_false, Int.toNat_ofNat]
          by_cases h5 : strncmp ctx.domain e.prefix_ e.prefix_.length = 0
          · simp only [h5, if_true]
            constructor
            · intro _
              split_ifs
              · right; exact ⟨by decide, trivial⟩
              · left; trivial
            · intro h; exfalso; apply h
              exact ⟨hle, h2e, Or.inr (Or.inr (strncmp_take_eq_zero.1 h5))⟩
          · simp only [h5, if_false]
            constructor
            · rintro ⟨_, _, h | h | h⟩
              · omega
              · omega
              · exact absurd (strncmp_take_eq_zero.2 h) h5
            · intro _; exact ⟨h5, trivial⟩
    · simp only [h2, if_false]
      constructor
      · rintro ⟨_, h, _⟩
        exact absurd (strcmp_eq_zero.2 h) h2
      · intro _; exact ⟨h2, trivial⟩

theorem wname_entry_pfx (P S : List Nat) (al : Nat) (ans : List Nat) :
    (wname_entry P P.length S S.length al ans).prefix_ = P := by
  cases P <;> simp [wname_entry]

theorem wname_entry_domain (P S : List Nat) (al : Nat) (ans : List Nat) :
    (wname_entry P P.length S S.length al ans).domain = S := by
  cases S <;> simp [wname_entry]

theorem wname_entry_d_length (P S : List Nat) (al : Nat) (ans : List Nat) :
    (wname_entry P P.length S S.length al ans).d_length =
      (wname_entry P P.length S S.length al ans).domain.length := by
  rw [wname_entry_domain]; rfl

theorem wname_entry_p_length (P S : List Nat) (al : Nat) (ans : List Nat) :
    (wname_entry P P.length S S.length al ans).p_length =
      (wname_entry P P.length S S.length al ans).prefix_.length := by
  rw [wname_entry_pfx]; rfl

/-- The lookup in a store whose Exact-Name Index has no entry named `Q` goes on to
the Wildcard-Name Index. -/
theorem search_wildcard_only {g : g_cache} {Q : List Nat}
    (hq : ∀ x ∈ g.rb_name.toList, x.domain ≠ Q) (hc : ¬ g.wcount < 1) :
    domain_cache_search g Q =
      match rbtree_search wname_search g.rb_wname ⟨Q, Q.length, none⟩ with
      | (some e, _) => some e
      | (none, ctx2) => ctx2.candidate := by
  unfold domain_cache_search
  simp only [@name_search_none g.rb_name ⟨Q, Q.length, none⟩ hq, hc, if_false]

theorem wname_append_first (g : g_cache) (P : List Nat) (pl : Int) (S : List Nat) (dl : Int)
    (al : Nat) (ans : List Nat) (hw : g.rb_wname = rbnode.RBNODE_NULL) :
    wname_append g P pl S dl al ans =
      { g with wcount := (g.wcount + 1) % 4294967296,
               rb_wname := rbnode.node rbnode.RBNODE_NULL (wname_entry P pl S dl al ans)
                 rbnode.RBNODE_NULL } := by
  unfold wname_append
  simp [hw, rbtree_insert_broken]

/-- On an entry that `Q` matches with bytes to spare before the suffix, and more of
them than a non-empty prefix takes, `wname_search` records the entry as candidate
and sends the descent to the right. -/
theorem wname_search_descend (ctx : SEARCH_CONTEXT) (e : DOMAIN_CACHE)
    (hl : ctx.length = ctx.domain.length) (hd : e.d_length = e.domain.length)
    (hp : e.p_length = e.prefix_.length) (hlead : e.domain.length < ctx.domain.length)
    (hs : ctx.domain.drop (ctx.domain.length - e.domain.length) = e.domain)
    (hpre : e.prefix_.length = 0 ∨
      (ctx.domain.take e.prefix_.length = e.prefix_ ∧
        e.prefix_.length < ctx.domain.length - e.domain.length)) :
    wname_search ctx e = (1, { ctx with candidate := some e }) := by
  unfold wname_search
  simp only [hl, hd, hp]
  have h1 : ¬ (ctx.domain.length : Int) - e.domain.length < 0 := by omega
  have hpos : ((ctx.domain.length : Int) - e.domain.length).toNat =
      ctx.domain.length - e.domain.length := by omega
  have h3 : ¬ (ctx.domain.length : Int) - e.domain.length = 0 := by omega
  simp only [h1, if_false, hpos, hs, strcmp_self, if_true, h3]
  rcases hpre with h | ⟨h, h2⟩
  · have : (e.prefix_.length : Int) = 0 := by omega
    simp only [this, if_true]
  · by_cases h4 : (e.prefix_.length : Int) = 0
    · simp only [h4, if_true]
    · have h5 : (ctx.domain.length : Int) - e.domain.length > e.prefix_.length := by omega
      simp only [h4, if_false, Int.toNat_ofNat, strncmp_take_eq_zero.2 h, if_true, h5]

theorem wname_compare_same_suffix (P1 P2 S : List Nat) (al1 al2 : Nat) (a1 a2 : List Nat) :
    wname_compare (wname_entry P1 P1.length S S.length al1 a1)
      (wname_entry P2 P2.length S S.length al2 a2) = strcmp P1 P2 := by
  unfold wname_compare
  simp only [wname_entry_domain, wname_entry_pfx]
  simp [wname_entry, strcmp_self]

/-- Two wildcard entries of one suffix whose prefixes `P1` and `P2` are in order,
appended to a store without wildcard entries: whichever comes first, the
Wildcard-Name Index holds both, `P1` before `P2`. -/
theorem wname_append_two (g : g_cache) (P1 P2 S : List Nat) (al1 al2 : Nat) (a1 a2 : List Nat)
    (hw : g.rb_wname = rbnode.RBNODE_NULL) (hc : g.wcount = 0) (hlt : strcmp P1 P2 < 0) :
    wname_append (wname_append g P1 P1.length S S.length al1 a1) P2 P2.length S S.length al2 a2
      = { g with wcount := 2,
                 rb_wname := rbnode.node rbnode.RBNODE_NULL
                   (wname_entry P1 P1.length S S.length al1 a1)
                   (rbnode.node rbnode.RBNODE_NULL (wname_entry P2 P2.length S S.length al2 a2)
                     rbnode.RBNODE_NULL) } ∧
    wname_append (wname_append g P2 P2.length S S.length al2 a2) P1 P1.length S S.length al1 a1
      = { g with wcount := 2,
                 rb_wname := rbnode.node
                   (rbnode.node rbnode.RBNODE_NULL (wname_entry P1 P1.length S S.length al1 a1)
                     rbnode.RBNODE_NULL)
                   (wname_entry P2 P2.length S S.length al2 a2) rbnode.RBNODE_NULL } := by
  have hgt : 0 < strcmp P2 P1 := strcmp_neg_iff.1 hlt
  constructor
  · rw [wname_append_first _ _ _ _ _ _ _ hw]
    unfold wname_append
    have h1 : ¬ strcmp P2 P1 = 0 := by omega
    have h2 : ¬ strcmp P2 P1 < 0 := by omega
    simp [rbtree_insert_broken, wname_compare_same_suffix, h1, h2, hc]
  · rw [wname_append_first _ _ _ _ _ _ _ hw]
    unfold wname_append
    have h1 : ¬ strcmp P1 P2 = 0 := by omega
    simp [rbtree_insert_broken, wname_compare_same_suffix, h1, hlt, hc]

/-- What the descent of the Wildcard-Name Index returns, as node or as candidate,
is an entry of that index (or the candidate it started with). -/
theorem wname_search_mem (t : rbnode) (ctx : SEARCH_CONTEXT) :
    (∀ x, (rbtree_search wname_search t ctx).1 = some x → x ∈ t.toList) ∧
    ((rbtree_search wname_search t ctx).2.candidate = ctx.candidate ∨
      ∃ x ∈ t.toList, (rbtree_search wname_search t ctx).2.candidate = some x) := by
  induction t generalizing ctx with
  | RBNODE_NULL => simp [rbtree_search, rbnode.toList]
  | node l e r ihl ihr =>
    have hc : (wname_search ctx e).2.candidate = ctx.candidate ∨
        (wname_search ctx e).2.candidate = some e := by
      unfold wname_search
      dsimp only
      split_ifs <;> simp
    simp only [rbtree_search]
    split_ifs with h1 h2
    · refine ⟨fun x hx => by simp at hx; simp [rbnode.toList, hx], ?_⟩
      rcases hc with h | h
      · exact Or.inl h
      · exact Or.inr ⟨e, by simp [rbnode.toList], h⟩
    · obtain ⟨a, b⟩ := ihl (wname_search ctx e).2
      refine ⟨fun x hx => by simp [rbnode.toList, a x hx], ?_⟩
      rcases b with b | ⟨x, hx, b⟩
      · rcases hc with h | h
        · exact Or.inl (b.trans h)
        · exact Or.inr ⟨e, by simp [rbnode.toList], b.trans h⟩
      · exact Or.inr ⟨x, by simp [rbnode.toList, hx], b⟩
    · obtain ⟨a, b⟩ := ihr (wname_search ctx e).2
      refine ⟨fun x hx => by simp [rbnode.toList, a x hx], ?_⟩
      rcases b with b | ⟨x, hx, b⟩
      · rcases hc with h | h
        · exact Or.inl (b.trans h)
        · exact Or.inr ⟨e, by simp [rbnode.toList], b.trans h⟩
      · exact Or.inr ⟨x, by simp [rbnode.toList, hx], b⟩

/-- An entry that `domain_cache_search` returns is an entry of the Exact-Name Index
with the name asked for, or an entry of the Wildcard-Name Index. -/
theorem search_result_mem {g : g_cache} {Q : List Nat} {r : DOMAIN_CACHE}
    (h : domain_cache_search g Q = some r) :
    (r ∈ g.rb_name.toList ∧ r.domain = Q) ∨ r ∈ g.rb_wname.toList := by
  unfold domain_cache_search at h
  dsimp only at h
  cases h1 : (rbtree_search name_search g.rb_name ⟨Q, Q.length, none⟩).1 with
  | some e =>
    have h2 := name_search_some h1
    rw [show rbtree_search name_search g.rb_name ⟨Q, Q.length, none⟩ =
      (some e, (rbtree_search name_search g.rb_name ⟨Q, Q.length, none⟩).2) from
      Prod.ext h1 rfl] at h
    simp at h
    subst h
    exact Or.inl h2
  | none =>
    rw [show rbtree_search name_search g.rb_name ⟨Q, Q.length, none⟩ =
      (none, ⟨Q, Q.length, none⟩) from Prod.ext h1 (name_search_ctx _ _)] at h
    dsimp only at h
    split_ifs at h
    obtain ⟨a, b⟩ := wname_search_mem g.rb_wname ⟨Q, Q.length, none⟩
    right
    cases h2 : (rbtree_search wname_search g.rb_wname ⟨Q, Q.length, none⟩).1 with
    | some e =>
      rw [show rbtree_search wname_search g.rb_wname ⟨Q, Q.length, none⟩ =
        (some e, (rbtree_search wname_search g.rb_wname ⟨Q, Q.length, none⟩).2) from
        Prod.ext h2 rfl] at h
      simp at h
      subst h
      exact a _ h2
    | none =>
      rw [show rbtree_search wname_search g.rb_wname ⟨Q, Q.length, none⟩ =
        (none, (rbtree_search wname_search g.rb_wname ⟨Q, Q.length, none⟩).2) from
        Prod.ext h2 rfl] at h
      dsimp only at h
      rcases b with b | ⟨x, hx, b⟩
      · rw [b] at h; simp at h
      · rw [b] at h
        simp at h
        subst h
        exact hx

/-! ## The loader -/

theorem name_append_mem {now : Int} {g : g_cache} {d : List Nat} {dl : Int} {al : Nat}
    {ans : List Nat} {x : DOMAIN_CACHE}
    (h : x ∈ (name_append now g d dl al ans).rb_name.toList) :
    x ∈ g.rb_name.toList ∨ x = name_entry now d dl al ans := by
  unfold name_append at h
  dsimp only at h
  split_ifs at h with h1
  · exact Or.inl h
  · have h2 : (rbtree_insert_broken name_compare g.rb_name (name_entry now d dl al ans)).1 = none := by
      cases h3 : (rbtree_insert_broken name_compare g.rb_name (name_entry now d dl al ans)).1 with
      | none => rfl
      | some v => simp [h3] at h1
    exact ((rbtree_insert_broken_mem h2 x).1 h).symm

theorem name_append_rb_wname (now : Int) (g : g_cache) (d : List Nat) (dl : Int) (al : Nat)
    (ans : List Nat) : (name_append now g d dl al ans).rb_wname = g.rb_wname := by
  unfold name_append
  dsimp only
  split_ifs <;> rfl

theorem wname_append_mem {g : g_cache} {p : List Nat} {pl : Int} {d : List Nat} {dl : Int}
    {al : Nat} {ans : List Nat} {x : DOMAIN_CACHE}
    (h : x ∈ (wname_append g p pl d dl al ans).rb_wname.toList) :
    x ∈ g.rb_wname.toList ∨ x = wname_entry p pl d dl al ans := by
  unfold wname_append at h
  dsimp only at h
  split_ifs at h with h1
  · exact Or.inl h
  · have h2 : (rbtree_insert_broken wname_compare g.rb_wname
        (wname_entry p pl d dl al ans)).1 = none := by
      cases h3 : (rbtree_insert_broken wname_compare g.rb_wname
          (wname_entry p pl d dl al ans)).1 with
      | none => rfl
      | some v => simp [h3] at h1
    exact ((rbtree_insert_broken_mem h2 x).1 h).symm

/-- Every entry that the loop over the domains of a line adds to an index carries
one record and the first `al` bytes of the answer of the line. -/
theorem hosts_domains_layout (fuel : Nat) (now : Int) (al : Nat) (ans rear : List Nat)
    (g : g_cache) (x : DOMAIN_CACHE)
    (h : x ∈ (hosts_domains fuel now al ans rear g).rb_name.toList ∨
      x ∈ (hosts_domains fuel now al ans rear g).rb_wname.toList) :
    (x ∈ g.rb_name.toList ∨ x ∈ g.rb_wname.toList) ∨
      (x.an_count = 1 ∧ x.an_length = al ∧ x.answer = ans.take al) := by
  induction fuel generalizing rear g with
  | zero => exact Or.inl h
  | succ k ih =>
    unfold hosts_domains at h
    dsimp only at h
    split_ifs at h
    · exact Or.inl h
    · split at h
      · rcases ih _ _ h with (h1 | h1) | h1
        · rw [wname_append_rb_name] at h1
          exact Or.inl (Or.inl h1)
        · rcases wname_append_mem h1 with h2 | h2
          · exact Or.inl (Or.inr h2)
          · subst h2
            exact Or.inr ⟨rfl, rfl, rfl⟩
        · exact Or.inr h1
      · rcases ih _ _ h with (h1 | h1) | h1
        · rcases name_append_mem h1 with h2 | h2
          · exact Or.inl (Or.inl h2)
          · subst h2
            exact Or.inr ⟨rfl, rfl, rfl⟩
        · rw [name_append_rb_wname] at h1
          exact Or.inl (Or.inr h1)
        · exact Or.inr h1
    · exact Or.inl h

/-! ## Concrete stores and auxiliary facts -/

theorem reachable_store_empty : Reachable store_empty := Reachable.init _ _ _ _

theorem reachable_store_a : Reachable store_a :=
  Reachable.domain_cache_append _ _ _ _ _ _ _ _ reachable_store_empty

theorem reachable_store_dev1_exact : Reachable store_dev1_exact :=
  Reachable.domain_cache_append _ _ _ _ _ _ _ _ reachable_store_empty

theorem reachable_store_dev1x_exact : Reachable store_dev1x_exact :=
  Reachable.domain_cache_append _ _ _ _ _ _ _ _ reachable_store_empty

theorem domain_cache_append_fresh {g : g_cache} {d : List Nat}
    (hfresh : ∀ x ∈ g.rb_name.toList, x.domain ≠ d) (now : Int) (ttl an_count an_length : Nat)
    (answer : List Nat) :
    dynamic_entry now d d.length ttl an_count an_length answer ∈
      (domain_cache_append now g d d.length ttl an_count an_length answer).rb_name.toList := by
  have hdom : (dynamic_entry now d d.length ttl an_count an_length answer).domain = d := by
    simp [dynamic_entry]
  have h1 : (rbtree_insert_broken name_compare g.rb_name
      (dynamic_entry now d d.length ttl an_count an_length answer)).1 = none :=
    name_insert_fresh (by rw [hdom]; exact hfresh)
  unfold domain_cache_append
  simp only [h1, Option.isSome_none, Bool.false_eq_true, if_false]
  exact (rbtree_insert_broken_mem h1 _).2 (Or.inl rfl)

theorem cleans_keep (times : List Int) (g : g_cache) (e : DOMAIN_CACHE)
    (ht : name_ordered g.rb_name) (he : e ∈ g.rb_name.toList)
    (hx : ∀ c ∈ times, c < e.expire) :
    name_ordered (times.foldl (fun s c => domain_cache_clean c s) g).rb_name ∧
      e ∈ (times.foldl (fun s c => domain_cache_clean c s) g).rb_name.toList := by
  induction times generalizing g with
  | nil => exact ⟨ht, he⟩
  | cons c cs ih =>
    refine ih _ (clean_loop_ordered _ _ _ ht) (clean_loop_keeps _ _ _ _ he ?_) ?_
    · exact hx c (List.mem_cons_self _ _)
    · exact fun c2 h2 => hx c2 (List.mem_cons_of_mem _ h2)

theorem reachable_store_wild_exact : Reachable store_wild_exact :=
  Reachable.domain_cache_append _ _ _ _ _ _ _ _ (Reachable.init _ _ _ _)

theorem reachable_store_foo : Reachable store_foo :=
  Reachable.domain_cache_append _ _ _ _ _ _ _ _ reachable_store_empty

theorem reachable_store_long_ttl : Reachable store_long_ttl :=
  Reachable.domain_cache_append _ _ _ _ _ _ _ _
    (Reachable.domain_cache_append _ _ _ _ _ _ _ _ reachable_store_empty)

theorem reachable_store_prefixed_first : Reachable store_prefixed_first :=
  Reachable.init _ _ _ _

/-- The store after the one hosts line `10.0.0.1 host.local *.wild.local`, with or
without its newline. -/
theorem hosts_line_scenario (MAX_TTL : Nat) (inet_addr : List Nat → Nat) (now : Int)
    (eol : List Nat) (heol : eol = [] ∨ eol = [10])
    (h : inet_addr (bytes "10.0.0.1") = 167772161) :
    domain_cache_init MAX_TTL inet_addr now g_cache_zero
        (some [bytes "10.0.0.1 host.local *.wild.local" ++ eol]) =
      { count := 1, wcount := 1,
        rb_name := rbnode.node rbnode.RBNODE_NULL
          (name_entry now (bytes "host.local") 10 16 (hosts_answer MAX_TTL 167772161))
          rbnode.RBNODE_NULL,
        rb_wname := rbnode.node rbnode.RBNODE_NULL
          (wname_entry [] 0 (bytes ".wild.local") 11 16 (hosts_answer MAX_TTL 167772161))
          rbnode.RBNODE_NULL,
        rb_expire := rbnode.RBNODE_NULL } := by
  have key : ∀ a : Nat, a = 167772161 →
      (if a = INADDR_NONE || a = INADDR_ANY then
          ({ g_cache_zero with count := 0 } : g_cache)
        else hosts_domains (bytes " host.local *.wild.local" ++ eol).length now
          ((hosts_answer MAX_TTL a).length % 65536) (hosts_answer MAX_TTL a)
          (bytes " host.local *.wild.local" ++ eol) { g_cache_zero with count := 0 }) =
      { count := 1, wcount := 1,
        rb_name := rbnode.node rbnode.RBNODE_NULL
          (name_entry now (bytes "host.local") 10 16 (hosts_answer MAX_TTL 167772161))
          rbnode.RBNODE_NULL,
        rb_wname := rbnode.node rbnode.RBNODE_NULL
          (wname_entry [] 0 (bytes ".wild.local") 11 16 (hosts_answer MAX_TTL 167772161))
          rbnode.RBNODE_NULL,
        rb_expire := rbnode.RBNODE_NULL } := by
    intro a ha
    subst ha
    rcases heol with rfl | rfl <;> rfl
  rw [← key _ h]
  rcases heol with rfl | rfl <;> rfl

/-! ## Soundness of the wildcard descent -/

/-- One step of the wildcard descent on an entry whose prefix is no longer than its
`p_length`: the query stays, a result of zero means that the entry matches, and a
new candidate is an entry that matches. -/
theorem wname_search_sound (ctx : SEARCH_CONTEXT) (e : DOMAIN_CACHE)
    (hl : ctx.length = ctx.domain.length) (hp : e.prefix_.length ≤ e.p_length.toNat) :
    (wname_search ctx e).2.domain = ctx.domain ∧
    (wname_search ctx e).2.length = ctx.length ∧
    ((wname_search ctx e).1 = 0 → spec_wildcard_match e.prefix_ e.domain ctx.domain) ∧
    ((wname_search ctx e).2.candidate = ctx.candidate ∨
      ((wname_search ctx e).2.candidate = some e ∧
        spec_wildcard_match e.prefix_ e.domain ctx.domain)) := by
  unfold wname_search
  dsimp only
  by_cases h1 : ctx.length - e.d_length < 0
  · simp [h1]
  · simp only [h1, if_false]
    by_cases h2 : strcmp (ctx.domain.drop (ctx.length - e.d_length).toNat) e.domain = 0
    · have hs := strcmp_eq_zero.1 h2
      have hlen : e.domain.length = ctx.domain.length - (ctx.length - e.d_length).toNat := by
        rw [← hs, List.length_drop]
      have hsuf : e.domain.length ≤ ctx.domain.length ∧
          ctx.domain.drop (ctx.domain.length - e.domain.length) = e.domain := by
        refine ⟨by omega, ?_⟩
        by_cases hk : (ctx.length - e.d_length).toNat ≤ ctx.domain.length
        · have : ctx.domain.length - e.domain.length = (ctx.length - e.d_length).toNat := by
            omega
          rw [this, hs]
        · have h0 : e.domain.length = 0 := by omega
          have he : e.domain = [] := List.length_eq_zero.1 h0
          rw [he]
          simp
      simp only [h2, if_true]
      by_cases h3 : ctx.length - e.d_length = 0
      · simp only [h3, if_true]
        refine ⟨by first | rfl | trivial, by first | rfl | trivial, fun _ => ⟨hsuf.1, hsuf.2, Or.inl ?_⟩, Or.inl (by first | rfl | trivial)⟩
        have : (ctx.length - e.d_length).toNat = 0 := by omega
        omega
      · simp only [h3, if_false]
        by_cases h4 : e.p_length = 0
        · simp only [h4, if_true]
          refine ⟨by first | rfl | trivial, by first | rfl | trivial, fun h => by simp at h, Or.inr ⟨by first | rfl | trivial, hsuf.1, hsuf.2, Or.inr (Or.inl ?_)⟩⟩
          have : e.p_length.toNat = 0 := by omega
          omega
        · simp only [h4, if_false]
          by_cases h5 : strncmp ctx.domain e.prefix_ e.p_length.toNat = 0
          · have ht := strncmp_eq_zero.1 h5
            have hP : ctx.domain.take e.prefix_.length = e.prefix_ := by
              have h6 : e.prefix_.take e.p_length.toNat = e.prefix_ :=
                List.take_of_length_le hp
              rw [h6] at ht
              have h7 := congrArg (List.take e.prefix_.length) ht
              rw [List.take_take, Nat.min_eq_left hp, List.take_length] at h7
              exact h7
            have hm : spec_wildcard_match e.prefix_ e.domain ctx.domain :=
              ⟨hsuf.1, hsuf.2, Or.inr (Or.inr hP)⟩
            simp only [h5, if_true]
            exact ⟨by first | rfl | trivial, by first | rfl | trivial, fun _ => hm, Or.inr ⟨by first | rfl | trivial, hm⟩⟩
          · simp only [h5, if_false]
            exact ⟨by first | rfl | trivial, by first | rfl | trivial, fun h => by first | exact absurd h h5 | exact h.elim, Or.inl (by first | rfl | trivial)⟩
    · simp only [h2, if_false]
      exact ⟨by first | rfl | trivial, by first | rfl | trivial, fun h => by first | exact absurd h h2 | exact h.elim, Or.inl (by first | rfl | trivial)⟩

/-- The descent of a Wildcard-Name Index of any shape whose entries have a prefix no
longer than their `p_length`: the node it ends at and a candidate it records are
entries of the index that match the query. -/
theorem wname_descent_sound (t : rbnode) (ctx : SEARCH_CONTEXT)
    (hl : ctx.length = ctx.domain.length)
    (hwf : ∀ x ∈ t.toList, x.prefix_.length ≤ x.p_length.toNat) :
    (∀ x, (rbtree_search wname_search t ctx).1 = some x →
      x ∈ t.toList ∧ spec_wildcard_match x.prefix_ x.domain ctx.domain) ∧
    ((rbtree_search wname_search t ctx).2.candidate = ctx.candidate ∨
      ∃ x ∈ t.toList, (rbtree_search wname_search t ctx).2.candidate = some x ∧
        spec_wildcard_match x.prefix_ x.domain ctx.domain) := by
  induction t generalizing ctx with
  | RBNODE_NULL => simp [rbtree_search, rbnode.toList]
  | node l e r ihl ihr =>
    have he : e ∈ (rbnode.node l e r).toList := by simp [rbnode.toList]
    have hwl : ∀ x ∈ l.toList, x.prefix_.length ≤ x.p_length.toNat :=
      fun x hx => hwf x (by simp [rbnode.toList, hx])
    have hwr : ∀ x ∈ r.toList, x.prefix_.length ≤ x.p_length.toNat :=
      fun x hx => hwf x (by simp [rbnode.toList, hx])
    obtain ⟨s1, s2, s3, s4⟩ := wname_search_sound ctx e hl (hwf e he)
    have hl2 : (wname_search ctx e).2.length = (wname_search ctx e).2.domain.length := by
      rw [s1, s2, hl]
    have sub : ∀ (c : rbnode), (∀ x ∈ c.toList, x ∈ (rbnode.node l e r).toList) →
        ((∀ x, (rbtree_search wname_search c (wname_search ctx e).2).1 = some x →
          x ∈ c.toList ∧ spec_wildcard_match x.prefix_ x.domain (wname_search ctx e).2.domain) ∧
        ((rbtree_search wname_search c (wname_search ctx e).2).2.candidate =
            (wname_search ctx e).2.candidate ∨
          ∃ x ∈ c.toList, (rbtree_search wname_search c (wname_search ctx e).2).2.candidate =
              some x ∧
            spec_wildcard_match x.prefix_ x.domain (wname_search ctx e).2.domain)) →
        (∀ x, (rbtree_search wname_search c (wname_search ctx e).2).1 = some x →
          x ∈ (rbnode.node l e r).toList ∧ spec_wildcard_match x.prefix_ x.domain ctx.domain) ∧
        ((rbtree_search wname_search c (wname_search ctx e).2).2.candidate = ctx.candidate ∨
          ∃ x ∈ (rbnode.node l e r).toList,
            (rbtree_search wname_search c (wname_search ctx e).2).2.candidate = some x ∧
            spec_wildcard_match x.prefix_ x.domain ctx.domain) := by
      intro c hc ⟨a, b⟩
      rw [s1] at a b
      refine ⟨fun x hx => ⟨hc x (a x hx).1, (a x hx).2⟩, ?_⟩
      rcases b with b | ⟨x, hx, b1, b2⟩
      · rcases s4 with h | ⟨h, hm⟩
        · exact Or.inl (b.trans h)
        · exact Or.inr ⟨e, he, b.trans h, hm⟩
      · exact Or.inr ⟨x, hc x hx, b1, b2⟩
    simp only [rbtree_search]
    split_ifs with h1 h2
    · refine ⟨fun x hx => ?_, ?_⟩
      · simp at hx
        subst hx
        exact ⟨he, s3 h1⟩
      · rcases s4 with h | ⟨h, hm⟩
        · exact Or.inl h
        · exact Or.inr ⟨e, he, h, hm⟩
    · exact sub l (fun x hx => by simp [rbnode.toList, hx]) (ihl _ hl2 hwl)
    · exact sub r (fun x hx => by simp [rbnode.toList, hx]) (ihr _ hl2 hwr)

/-! ## Properties of all entries of a reachable store -/

/-- A property of the entries that `name_append` and `wname_append` build holds for
every entry that the loop over the domains of a line leaves in the two indexes. -/
theorem hosts_domains_entries (N W : DOMAIN_CACHE → Prop) (now : Int)
    (hN : ∀ d dl al ans, N (name_entry now d dl al ans))
    (hW : ∀ p pl d dl al ans, W (wname_entry p pl d dl al ans))
    (fuel : Nat) (al : Nat) (ans rear : List Nat) (g : g_cache)
    (h1 : ∀ x ∈ g.rb_name.toList, N x) (h2 : ∀ x ∈ g.rb_wname.toList, W x) :
    (∀ x ∈ (hosts_domains fuel now al ans rear g).rb_name.toList, N x) ∧
    (∀ x ∈ (hosts_domains fuel now al ans rear g).rb_wname.toList, W x) := by
  induction fuel generalizing rear g with
  | zero => exact ⟨h1, h2⟩
  | succ k ih =>
    unfold hosts_domains
    dsimp only
    split_ifs
    · exact ⟨h1, h2⟩
    · split
      · refine ih _ _ ?_ ?_
        · rw [wname_append_rb_name]; exact h1
        · intro x hx
          rcases wname_append_mem hx with h | h
          · exact h2 x h
          · rw [h]; exact hW _ _ _ _ _ _
      · refine ih _ _ ?_ ?_
        · intro x hx
          rcases name_append_mem hx with h | h
          · exact h1 x h
          · rw [h]; exact hN _ _ _ _
        · rw [name_append_rb_wname]; exact h2
    · exact ⟨h1, h2⟩

theorem hosts_line_entries (N W : DOMAIN_CACHE → Prop) (now : Int)
    (hN : ∀ d dl al ans, N (name_entry now d dl al ans))
    (hW : ∀ p pl d dl al ans, W (wname_entry p pl d dl al ans))
    (MAX_TTL : Nat) (inet_addr : List Nat → Nat) (g : g_cache) (line : List Nat)
    (h1 : ∀ x ∈ g.rb_name.toList, N x) (h2 : ∀ x ∈ g.rb_wname.toList, W x) :
    (∀ x ∈ (hosts_line MAX_TTL inet_addr now g line).rb_name.toList, N x) ∧
    (∀ x ∈ (hosts_line MAX_TTL inet_addr now g line).rb_wname.toList, W x) := by
  unfold hosts_line
  dsimp only
  split_ifs
  · exact ⟨h1, h2⟩
  · exact ⟨h1, h2⟩
  · exact ⟨h1, h2⟩
  · exact hosts_domains_entries N W now hN hW _ _ _ _ _ h1 h2

theorem domain_cache_init_entries (N W : DOMAIN_CACHE → Prop) (now : Int)
    (hN : ∀ d dl al ans, N (name_entry now d dl al ans))
    (hW : ∀ p pl d dl al ans, W (wname_entry p pl d dl al ans))
    (MAX_TTL : Nat) (inet_addr : List Nat → Nat) (g : g_cache)
    (hosts_file : Option (List (List Nat))) :
    (∀ x ∈ (domain_cache_init MAX_TTL inet_addr now g hosts_file).rb_name.toList, N x) ∧
    (∀ x ∈ (domain_cache_init MAX_TTL inet_addr now g hosts_file).rb_wname.toList, W x) := by
  unfold domain_cache_init
  cases hosts_file with
  | none => simp [rbnode.toList]
  | some lines =>
    dsimp only
    have key : ∀ (ls : List (List Nat)) (s : g_cache), (∀ x ∈ s.rb_name.toList, N x) →
        (∀ x ∈ s.rb_wname.toList, W x) →
        (∀ x ∈ (ls.foldl (hosts_line MAX_TTL inet_addr now) s).rb_name.toList, N x) ∧
        (∀ x ∈ (ls.foldl (hosts_line MAX_TTL inet_addr now) s).rb_wname.toList, W x) := by
      intro ls
      induction ls with
      | nil => intro s a b; exact ⟨a, b⟩
      | cons l ls ih =>
        intro s a b
        obtain ⟨c, d⟩ := hosts_line_entries N W now hN hW MAX_TTL inet_addr s l a b
        exact ih _ c d
    exact key lines _ (by simp [rbnode.toList]) (by simp [rbnode.toList])

theorem domain_cache_append_mem {now : Int} {g : g_cache} {d : List Nat} {dl : Int}
    {ttl ac al : Nat} {ans : List Nat} {x : DOMAIN_CACHE}
    (h : x ∈ (domain_cache_append now g d dl ttl ac al ans).rb_name.toList) :
    x ∈ g.rb_name.toList ∨ x = dynamic_entry now d dl ttl ac al ans := by
  unfold domain_cache_append at h
  dsimp only at h
  split_ifs at h with h1
  · exact Or.inl h
  · have h2 : (rbtree_insert_broken name_compare g.rb_name
        (dynamic_entry now d dl ttl ac al ans)).1 = none := by
      cases h3 : (rbtree_insert_broken name_compare g.rb_name
          (dynamic_entry now d dl ttl ac al ans)).1 with
      | none => rfl
      | some v => simp [h3] at h1
    exact ((rbtree_insert_broken_mem h2 x).1 h).symm

theorem domain_cache_append_rb_wname (now : Int) (g : g_cache) (d : List Nat) (dl : Int)
    (ttl ac al : Nat) (ans : List Nat) :
    (domain_cache_append now g d dl ttl ac al ans).rb_wname = g.rb_wname ∧
    (domain_cache_append now g d dl ttl ac al ans).wcount = g.wcount := by
  unfold domain_cache_append
  dsimp only
  split_ifs <;> exact ⟨rfl, rfl⟩

/-- The sweep touches neither the Wildcard-Name Index nor its counter, and what it
leaves in the Exact-Name Index and in the Expiration Index was there before, in the
same order. -/
theorem clean_loop_frame (fuel : Nat) (current : Int) (g : g_cache) :
    (domain_cache_clean_loop fuel current g).rb_wname = g.rb_wname ∧
    (domain_cache_clean_loop fuel current g).wcount = g.wcount ∧
    (domain_cache_clean_loop fuel current g).rb_name.toList.Sublist g.rb_name.toList ∧
    (domain_cache_clean_loop fuel current g).rb_expire.toList.Sublist g.rb_expire.toList := by
  induction fuel generalizing g with
  | zero => exact ⟨rfl, rfl, List.Sublist.refl _, List.Sublist.refl _⟩
  | succ k ih =>
    unfold domain_cache_clean_loop
    split
    · exact ⟨rfl, rfl, List.Sublist.refl _, List.Sublist.refl _⟩
    · split_ifs
      · exact ⟨rfl, rfl, List.Sublist.refl _, List.Sublist.refl _⟩
      · obtain ⟨a, b, c, d⟩ := ih
          { g with count := (g.count + 4294967295) % 4294967296,
                   rb_name := rbtree_delete g.rb_name _,
                   rb_expire := rbtree_delete g.rb_expire _ }
        refine ⟨a, b, c.trans ?_, d.trans ?_⟩
        · dsimp only; rw [rbtree_delete_toList]; exact List.erase_sublist _ _
        · dsimp only; rw [rbtree_delete_toList]; exact List.erase_sublist _ _

/-- In every reachable store the entries of the Wildcard-Name Index are entries that
`wname_append` built. -/
theorem reachable_wname_entries (W : DOMAIN_CACHE → Prop)
    (hW : ∀ p pl d dl al ans, W (wname_entry p pl d dl al ans)) {g : g_cache}
    (h : Reachable g) : ∀ x ∈ g.rb_wname.toList, W x := by
  induction h with
  | init MAX_TTL inet_addr now hosts_file =>
    exact (domain_cache_init_entries (fun _ => True) W now (fun _ _ _ _ => trivial) hW
      MAX_TTL inet_addr g_cache_zero hosts_file).2
  | name_append now g domain d_length an_length answer _ ih =>
    rw [name_append_rb_wname]; exact ih
  | wname_append g p p_length domain d_length an_length answer _ ih =>
    intro x hx
    rcases wname_append_mem hx with h | h
    · exact ih x h
    · rw [h]; exact hW _ _ _ _ _ _
  | domain_cache_append now g domain d_length ttl an_count an_length answer _ ih =>
    rw [(domain_cache_append_rb_wname _ _ _ _ _ _ _ _).1]; exact ih
  | domain_cache_clean current g _ ih =>
    unfold domain_cache_clean
    rw [(clean_loop_frame _ _ _).1]; exact ih
  | rebalance g rb_name rb_wname rb_expire _ _ h2 _ ih =>
    dsimp only
    rw [h2]; exact ih

theorem wname_entry_wf (p : List Nat) (pl : Int) (d : List Nat) (dl : Int) (al : Nat)
    (ans : List Nat) :
    (wname_entry p pl d dl al ans).prefix_.length ≤ (wname_entry p pl d dl al ans).p_length.toNat := by
  unfold wname_entry
  dsimp only
  split_ifs
  · rw [List.length_take]; exact Nat.min_le_left _ _
  · simp

/-- In every reachable store the prefix of a wildcard entry is no longer than its
`p_length`. -/
theorem reachable_wname_wf {g : g_cache} (h : Reachable g) :
    ∀ x ∈ g.rb_wname.toList, x.prefix_.length ≤ x.p_length.toNat :=
  reachable_wname_entries _ wname_entry_wf h

/-! ## Two prefixes of one suffix -/

theorem strcmp_append_neg (P y : List Nat) (hy : y ≠ []) : strcmp P (P ++ y) < 0 := by
  induction P with
  | nil => cases y <;> simp [strcmp] at hy ⊢
  | cons a P ih => simp [strcmp, ih]

/-- On an entry that `Q` matches with no more bytes before the suffix than the
non-empty prefix takes, `wname_search` records the entry as candidate and ends the
descent at it. -/
theorem wname_search_hit (ctx : SEARCH_CONTEXT) (e : DOMAIN_CACHE)
    (hl : ctx.length = ctx.domain.length) (hd : e.d_length = e.domain.length)
    (hp : e.p_length = e.prefix_.length) (hlead : e.domain.length < ctx.domain.length)
    (hs : ctx.domain.drop (ctx.domain.length - e.domain.length) = e.domain)
    (hne : 0 < e.prefix_.length) (ht : ctx.domain.take e.prefix_.length = e.prefix_)
    (hle : ctx.domain.length - e.domain.length ≤ e.prefix_.length) :
    wname_search ctx e = (0, { ctx with candidate := some e }) := by
  unfold wname_search
  simp only [hl, hd, hp]
  have h1 : ¬ (ctx.domain.length : Int) - e.domain.length < 0 := by omega
  have hpos : ((ctx.domain.length : Int) - e.domain.length).toNat =
      ctx.domain.length - e.domain.length := by omega
  have h3 : ¬ (ctx.domain.length : Int) - e.domain.length = 0 := by omega
  have h4 : ¬ (e.prefix_.length : Int) = 0 := by omega
  have h5 : ¬ (ctx.domain.length : Int) - e.domain.length > e.prefix_.length := by omega
  simp only [h1, if_false, hpos, hs, strcmp_self, if_true, h3, h4, Int.toNat_ofNat,
    strncmp_take_eq_zero.2 ht, h5]

/-! ## Invariants of the loader -/

theorem hosts_domains_preserves (I : g_cache → Prop) (now : Int)
    (hn : ∀ g d dl al ans, I g → I (name_append now g d dl al ans))
    (hw : ∀ g p pl d dl al ans, I g → I (wname_append g p pl d dl al ans))
    (fuel : Nat) (al : Nat) (ans rear : List Nat) (g : g_cache) (h : I g) :
    I (hosts_domains fuel now al ans rear g) := by
  induction fuel generalizing rear g with
  | zero => exact h
  | succ k ih =>
    unfold hosts_domains
    dsimp only
    split_ifs
    · exact h
    · split
      · exact ih _ _ (hw _ _ _ _ _ _ _ h)
      · exact ih _ _ (hn _ _ _ _ _ h)
    · exact h

theorem hosts_line_preserves (I : g_cache → Prop) (now : Int)
    (hn : ∀ g d dl al ans, I g → I (name_append now g d dl al ans))
    (hw : ∀ g p pl d dl al ans, I g → I (wname_append g p pl d dl al ans))
    (MAX_TTL : Nat) (inet_addr : List Nat → Nat) (g : g_cache) (line : List Nat) (h : I g) :
    I (hosts_line MAX_TTL inet_addr now g line) := by
  unfold hosts_line
  dsimp only
  split_ifs
  · exact h
  · exact h
  · exact h
  · exact hosts_domains_preserves I now hn hw _ _ _ _ _ h

/-- A property of the empty store that `name_append` and `wname_append` keep holds
after `domain_cache_init`. -/
theorem domain_cache_init_preserves (I : g_cache → Prop) (now : Int)
    (hn : ∀ g d dl al ans, I g → I (name_append now g d dl al ans))
    (hw : ∀ g p pl d dl al ans, I g → I (wname_append g p pl d dl al ans))
    (MAX_TTL : Nat) (inet_addr : List Nat → Nat) (hosts_file : Option (List (List Nat)))
    (h : I g_cache_zero) :
    I (domain_cache_init MAX_TTL inet_addr now g_cache_zero hosts_file) := by
  unfold domain_cache_init
  cases hosts_file with
  | none => exact h
  | some lines =>
    dsimp only
    have key : ∀ (ls : List (List Nat)) (s : g_cache), I s →
        I (ls.foldl (hosts_line MAX_TTL inet_addr now) s) := by
      intro ls
      induction ls with
      | nil => intro s a; exact a
      | cons l ls ih =>
        intro s a
        exact ih _ (hosts_line_preserves I now hn hw MAX_TTL inet_addr s l a)
    exact key lines _ h

/-! ## The counters -/

theorem rbtree_insert_perm (cmp : DOMAIN_CACHE → DOMAIN_CACHE → Int) (t : rbnode)
    (n : DOMAIN_CACHE) : (rbtree_insert cmp t n).toList.Perm (n :: t.toList) := by
  induction t with
  | RBNODE_NULL => simp [rbtree_insert, rbnode.toList]
  | node l x r ihl ihr =>
    simp only [rbtree_insert]
    split_ifs
    · simp only [rbnode.toList]
      exact (List.Perm.append_right _ ihl).trans (by simp)
    · simp only [rbnode.toList]
      refine (List.Perm.append_left _
        ((List.Perm.cons x ihr).trans (List.Perm.swap _ _ _))).trans ?_
      exact List.perm_middle

theorem insert_broken_isSome_false {cmp : DOMAIN_CACHE → DOMAIN_CACHE → Int} {t : rbnode}
    {n : DOMAIN_CACHE} (h : ¬ (rbtree_insert_broken cmp t n).1.isSome = true) :
    (rbtree_insert_broken cmp t n).1 = none := by
  cases h3 : (rbtree_insert_broken cmp t n).1 with
  | none => rfl
  | some v => simp [h3] at h

theorem insert_broken_size {cmp : DOMAIN_CACHE → DOMAIN_CACHE → Int} {t : rbnode}
    {n : DOMAIN_CACHE} (h : (rbtree_insert_broken cmp t n).1 = none) :
    (rbtree_insert_broken cmp t n).2.size = t.size + 1 := by
  rw [rbnode_size_toList, rbnode_size_toList, (rbtree_insert_broken_none h).length_eq]
  rfl

theorem name_append_counts (now : Int) (g : g_cache) (d : List Nat) (dl : Int) (al : Nat)
    (ans : List Nat) (h : counters_agree g ∧ expire_in_name g) :
    counters_agree (name_append now g d dl al ans) ∧
      expire_in_name (name_append now g d dl al ans) := by
  obtain ⟨⟨h1, h2⟩, h3⟩ := h
  unfold name_append
  dsimp only
  split_ifs with hs
  · exact ⟨⟨h1, h2⟩, h3⟩
  · have hn := insert_broken_isSome_false hs
    refine ⟨⟨?_, h2⟩, ?_⟩
    · dsimp only
      rw [insert_broken_size hn, h1]
      omega
    · unfold expire_in_name at h3 ⊢
      dsimp only
      exact ((List.Subperm.cons_right _ h3)).trans (rbtree_insert_broken_none hn).symm.subperm

theorem wname_append_counts (g : g_cache) (p : List Nat) (pl : Int) (d : List Nat) (dl : Int)
    (al : Nat) (ans : List Nat) (h : counters_agree g ∧ expire_in_name g) :
    counters_agree (wname_append g p pl d dl al ans) ∧
      expire_in_name (wname_append g p pl d dl al ans) := by
  obtain ⟨⟨h1, h2⟩, h3⟩ := h
  unfold wname_append
  dsimp only
  split_ifs with hs
  · exact ⟨⟨h1, h2⟩, h3⟩
  · have hn := insert_broken_isSome_false hs
    refine ⟨⟨h1, ?_⟩, h3⟩
    dsimp only
    rw [insert_broken_size hn, h2]
    omega

theorem domain_cache_append_counts (now : Int) (g : g_cache) (d : List Nat) (dl : Int)
    (ttl ac al : Nat) (ans : List Nat) (h : counters_agree g ∧ expire_in_name g) :
    counters_agree (domain_cache_append now g d dl ttl ac al ans) ∧
      expire_in_name (domain_cache_append now g d dl ttl ac al ans) := by
  obtain ⟨⟨h1, h2⟩, h3⟩ := h
  unfold domain_cache_append
  dsimp only
  split_ifs with hs
  · exact ⟨⟨h1, h2⟩, h3⟩
  · have hn := insert_broken_isSome_false hs
    refine ⟨⟨?_, h2⟩, ?_⟩
    · dsimp only
      rw [insert_broken_size hn, h1]
      omega
    · unfold expire_in_name at h3 ⊢
      dsimp only
      exact ((rbtree_insert_perm _ _ _).subperm.trans ((List.subperm_cons _).2 h3)).trans
        (rbtree_insert_broken_none hn).symm.subperm

/-- The sweep keeps the counters in agreement with the indexes, and it takes as many
entries out of the Exact-Name Index as out of the Expiration Index. -/
theorem clean_loop_counts (fuel : Nat) (current : Int) (g : g_cache)
    (h : counters_agree g ∧ expire_in_name g) :
    (counters_agree (domain_cache_clean_loop fuel current g) ∧
      expire_in_name (domain_cache_clean_loop fuel current g)) ∧
    (domain_cache_clean_loop fuel current g).rb_name.size +
        (g.rb_expire.size - (domain_cache_clean_loop fuel current g).rb_expire.size) =
      g.rb_name.size ∧
    (domain_cache_clean_loop fuel current g).rb_expire.size ≤ g.rb_expire.size := by
  induction fuel generalizing g with
  | zero => exact ⟨h, by simp [domain_cache_clean_loop], Nat.le_refl _⟩
  | succ k ih =>
    unfold domain_cache_clean_loop
    split
    · exact ⟨h, by simp, Nat.le_refl _⟩
    · next cache hf =>
      split_ifs
      · exact ⟨h, by simp, Nat.le_refl _⟩
      · obtain ⟨⟨h1, h2⟩, h3⟩ := h
        have hm : cache ∈ g.rb_expire.toList := by
          rw [rbtree_first_toList] at hf
          exact List.mem_of_mem_head? hf
        have hn : cache ∈ g.rb_name.toList := h3.subset hm
        have se : (rbtree_delete g.rb_expire cache).size + 1 = g.rb_expire.size := by
          rw [rbnode_size_toList, rbnode_size_toList, rbtree_delete_toList,
            List.length_erase_of_mem hm]
          have := List.length_pos_of_mem hm
          omega
        have sn : (rbtree_delete g.rb_name cache).size + 1 = g.rb_name.size := by
          rw [rbnode_size_toList, rbnode_size_toList, rbtree_delete_toList,
            List.length_erase_of_mem hn]
          have := List.length_pos_of_mem hn
          omega
        obtain ⟨a, b, c⟩ := ih
          { g with count := (g.count + 4294967295) % 4294967296,
                   rb_name := rbtree_delete g.rb_name cache,
                   rb_expire := rbtree_delete g.rb_expire cache }
          ⟨⟨by dsimp only; omega, h2⟩, by
            unfold expire_in_name at h3 ⊢
            dsimp only
            rw [rbtree_delete_toList, rbtree_delete_toList]
            exact h3.erase _⟩
        dsimp only at b c
        exact ⟨a, by omega, by omega⟩

theorem counters_agree_zero : counters_agree g_cache_zero ∧ expire_in_name g_cache_zero :=
  ⟨⟨rfl, rfl⟩, List.Subperm.refl _⟩

/-- In every reachable store the counters agree with the indexes, as unsigned 32-bit
numbers, and the Expiration Index is part of the Exact-Name Index. -/
theorem reachable_counts {g : g_cache} (h : Reachable g) :
    counters_agree g ∧ expire_in_name g := by
  induction h with
  | init MAX_TTL inet_addr now hosts_file =>
    exact domain_cache_init_preserves (fun s => counters_agree s ∧ expire_in_name s) now
      (fun g d dl al ans => name_append_counts now g d dl al ans)
      (fun g p pl d dl al ans => wname_append_counts g p pl d dl al ans)
      MAX_TTL inet_addr hosts_file counters_agree_zero
  | name_append now g domain d_length an_length answer _ ih =>
    exact name_append_counts _ _ _ _ _ _ ih
  | wname_append g p p_length domain d_length an_length answer _ ih =>
    exact wname_append_counts _ _ _ _ _ _ _ ih
  | domain_cache_append now g domain d_length ttl an_count an_length answer _ ih =>
    exact domain_cache_append_counts _ _ _ _ _ _ _ _ ih
  | domain_cache_clean current g _ ih =>
    exact (clean_loop_counts _ _ _ ih).1
  | rebalance g rb_name rb_wname rb_expire _ h1 h2 h3 ih =>
    obtain ⟨⟨a, b⟩, c⟩ := ih
    refine ⟨⟨?_, ?_⟩, ?_⟩
    · show g.count = rb_name.size % 4294967296
      rw [rbnode_size_toList, h1, ← rbnode_size_toList]; exact a
    · show g.wcount = rb_wname.size % 4294967296
      rw [rbnode_size_toList, h2, ← rbnode_size_toList]; exact b
    · show rb_expire.toList.Subperm rb_name.toList
      rw [h1, h3]; exact c

/-! ## Kinds of entries -/

theorem reachable_of_clock {g : g_cache} (h : ReachableClock g) : Reachable g := by
  induction h with
  | init MAX_TTL inet_addr now hosts_file _ => exact Reachable.init _ _ _ _
  | name_append now g domain d_length an_length answer _ _ ih =>
    exact Reachable.name_append _ _ _ _ _ _ ih
  | wname_append g p p_length domain d_length an_length answer _ ih =>
    exact Reachable.wname_append _ _ _ _ _ _ _ ih
  | domain_cache_append now g domain d_length ttl an_count an_length answer _ _ ih =>
    exact Reachable.domain_cache_append _ _ _ _ _ _ _ _ ih
  | domain_cache_clean current g _ ih => exact Reachable.domain_cache_clean _ _ ih
  | rebalance g rb_name rb_wname rb_expire _ h1 h2 h3 ih =>
    exact Reachable.rebalance _ _ _ _ ih h1 h2 h3

/-- With a positive clock, a property of the entries that `name_append` and
`domain_cache_append` build holds for every entry of the Exact-Name Index, and a
property of the entries that `wname_append` builds for every entry of the
Wildcard-Name Index. -/
theorem clock_entries (N W : DOMAIN_CACHE → Prop)
    (hN : ∀ now : Int, 0 < now → ∀ d dl al ans, N (name_entry now d dl al ans))
    (hD : ∀ now : Int, 0 < now → ∀ d dl ttl ac al ans, N (dynamic_entry now d dl ttl ac al ans))
    (hW : ∀ p pl d dl al ans, W (wname_entry p pl d dl al ans)) {g : g_cache}
    (h : ReachableClock g) :
    (∀ x ∈ g.rb_name.toList, N x) ∧ (∀ x ∈ g.rb_wname.toList, W x) := by
  induction h with
  | init MAX_TTL inet_addr now hosts_file hnow =>
    exact domain_cache_init_entries N W now (hN now hnow) hW MAX_TTL inet_addr g_cache_zero
      hosts_file
  | name_append now g domain d_length an_length answer hnow _ ih =>
    refine ⟨fun x hx => ?_, by rw [name_append_rb_wname]; exact ih.2⟩
    rcases name_append_mem hx with h | h
    · exact ih.1 x h
    · rw [h]; exact hN now hnow _ _ _ _
  | wname_append g p p_length domain d_length an_length answer _ ih =>
    refine ⟨by rw [wname_append_rb_name]; exact ih.1, fun x hx => ?_⟩
    rcases wname_append_mem hx with h | h
    · exact ih.2 x h
    · rw [h]; exact hW _ _ _ _ _ _
  | domain_cache_append now g domain d_length ttl an_count an_length answer hnow _ ih =>
    refine ⟨fun x hx => ?_, by
      rw [(domain_cache_append_rb_wname _ _ _ _ _ _ _ _).1]; exact ih.2⟩
    rcases domain_cache_append_mem hx with h | h
    · exact ih.1 x h
    · rw [h]; exact hD now hnow _ _ _ _ _ _
  | domain_cache_clean current g _ ih =>
    unfold domain_cache_clean
    refine ⟨fun x hx => ih.1 x ((clean_loop_frame _ _ _).2.2.1.subset hx), ?_⟩
    rw [(clean_loop_frame _ _ _).1]; exact ih.2
  | rebalance g rb_name rb_wname rb_expire _ h1 h2 _ ih =>
    dsimp only
    rw [h1, h2]; exact ih

theorem name_append_dynamic (now : Int) (g : g_cache) (d : List Nat) (dl : Int) (al : Nat)
    (ans : List Nat) (h : expire_is_dynamic g) :
    expire_is_dynamic (name_append now g d dl al ans) := by
  unfold name_append
  dsimp only
  split_ifs with hs
  · exact h
  · have hn := insert_broken_isSome_false hs
    unfold expire_is_dynamic at h ⊢
    dsimp only
    refine h.trans (List.Perm.symm ?_)
    refine ((rbtree_insert_broken_none hn).filter is_dynamic).trans ?_
    rw [List.filter_cons_of_neg (by simp [is_dynamic, name_entry])]

theorem wname_append_dynamic (g : g_cache) (p : List Nat) (pl : Int) (d : List Nat) (dl : Int)
    (al : Nat) (ans : List Nat) (h : expire_is_dynamic g) :
    expire_is_dynamic (wname_append g p pl d dl al ans) := by
  unfold wname_append
  dsimp only
  split_ifs
  · exact h
  · exact h

theorem domain_cache_append_dynamic (now : Int) (hnow : 0 < now) (g : g_cache) (d : List Nat)
    (dl : Int) (ttl ac al : Nat) (ans : List Nat) (h : expire_is_dynamic g) :
    expire_is_dynamic (domain_cache_append now g d dl ttl ac al ans) := by
  unfold domain_cache_append
  dsimp only
  split_ifs with hs
  · exact h
  · have hn := insert_broken_isSome_false hs
    unfold expire_is_dynamic at h ⊢
    dsimp only
    refine (rbtree_insert_perm _ _ _).trans (List.Perm.symm ?_)
    refine ((rbtree_insert_broken_none hn).filter is_dynamic).trans ?_
    rw [List.filter_cons_of_pos (by
      simp only [is_dynamic, dynamic_entry, decide_eq_true_eq]
      omega)]
    exact List.Perm.cons _ h.symm

theorem clean_loop_dynamic (fuel : Nat) (current : Int) (g : g_cache)
    (h : expire_is_dynamic g) :
    expire_is_dynamic (domain_cache_clean_loop fuel current g) := by
  induction fuel generalizing g with
  | zero => exact h
  | succ k ih =>
    unfold domain_cache_clean_loop
    split
    · exact h
    · next cache _ =>
      split_ifs
      · exact h
      · refine ih _ ?_
        unfold expire_is_dynamic at h ⊢
        dsimp only
        rw [rbtree_delete_toList, rbtree_delete_toList, ← List.erase_filter]
        exact h.erase _

/-- With a positive clock the Expiration Index holds the dynamic entries of the
Exact-Name Index, each once. -/
theorem clock_expire_is_dynamic {g : g_cache} (h : ReachableClock g) :
    expire_is_dynamic g := by
  induction h with
  | init MAX_TTL inet_addr now hosts_file _ =>
    exact domain_cache_init_preserves expire_is_dynamic now
      (fun g d dl al ans => name_append_dynamic now g d dl al ans)
      (fun g p pl d dl al ans => wname_append_dynamic g p pl d dl al ans)
      MAX_TTL inet_addr hosts_file (by simp [expire_is_dynamic, g_cache_zero, rbnode.toList])
  | name_append now g domain d_length an_length answer _ _ ih =>
    exact name_append_dynamic _ _ _ _ _ _ ih
  | wname_append g p p_length domain d_length an_length answer _ ih =>
    exact wname_append_dynamic _ _ _ _ _ _ _ ih
  | domain_cache_append now g domain d_length ttl an_count an_length answer hnow _ ih =>
    exact domain_cache_append_dynamic _ hnow _ _ _ _ _ _ _ ih
  | domain_cache_clean current g _ ih =>
    exact clean_loop_dynamic _ _ _ ih
  | rebalance g rb_name rb_wname rb_expire _ h1 _ h3 ih =>
    unfold expire_is_dynamic at ih ⊢
    dsimp only
    rw [h1, h3]; exact ih

/-- What the sweep leaves in place: an entry of the Exact-Name Index that is not in
the Expiration Index. -/
theorem clean_loop_keeps_static (fuel : Nat) (current : Int) (g : g_cache) (e : DOMAIN_CACHE)
    (he : e ∈ g.rb_name.toList) (hx : e ∉ g.rb_expire.toList) :
    e ∈ (domain_cache_clean_loop fuel current g).rb_name.toList := by
  induction fuel generalizing g with
  | zero => exact he
  | succ k ih =>
    unfold domain_cache_clean_loop
    split
    · exact he
    · next cache hf =>
      split_ifs with h1
      · exact he
      · have hm : cache ∈ g.rb_expire.toList := by
          rw [rbtree_first_toList] at hf
          exact List.mem_of_mem_head? hf
        refine ih _ ?_ ?_
        · dsimp only
          rw [rbtree_delete_toList]
          refine (List.mem_erase_of_ne ?_).2 he
          rintro rfl
          exact hx hm
        · dsimp only
          rw [rbtree_delete_toList]
          exact fun h => hx (List.mem_of_mem_erase h)

/-- A lookup gives the same entry in a second store with the same Wildcard-Name
Index and counter whose Exact-Name Index is a part of the first that still holds
the entry, when the entry is an exact one. -/
theorem search_in_part {g g2 : g_cache} {Q : List Nat} {e : DOMAIN_CACHE}
    (ho : name_ordered g.rb_name) (ho2 : name_ordered g2.rb_name)
    (hw : g2.rb_wname = g.rb_wname) (hc : g2.wcount = g.wcount)
    (hsub : ∀ x ∈ g2.rb_name.toList, x ∈ g.rb_name.toList)
    (hkeep : e ∈ g.rb_name.toList → e ∈ g2.rb_name.toList)
    (h : domain_cache_search g Q = some e) : domain_cache_search g2 Q = some e := by
  cases h1 : (rbtree_search name_search g.rb_name ⟨Q, Q.length, none⟩).1 with
  | some r =>
    have h2 := name_search_some h1
    unfold domain_cache_search at h
    dsimp only at h
    rw [show rbtree_search name_search g.rb_name ⟨Q, Q.length, none⟩ =
      (some r, (rbtree_search name_search g.rb_name ⟨Q, Q.length, none⟩).2) from
      Prod.ext h1 rfl] at h
    simp at h
    subst h
    have := search_exact ho2 (hkeep h2.1)
    rw [h2.2] at this
    exact this
  | none =>
    have hq : ∀ x ∈ g.rb_name.toList, x.domain ≠ Q := by
      intro x hx hd
      have := @name_search_found g.rb_name ⟨Q, Q.length, none⟩ x ho hx hd.symm
      rw [this] at h1
      simp at h1
    have hq2 : ∀ x ∈ g2.rb_name.toList, x.domain ≠ Q := fun x hx => hq x (hsub x hx)
    by_cases hcc : g.wcount < 1
    · unfold domain_cache_search at h
      simp [@name_search_none g.rb_name ⟨Q, Q.length, none⟩ hq, hcc] at h
    · rw [search_wildcard_only (by exact hq) hcc] at h
      rw [search_wildcard_only (by exact hq2) (by rw [hc]; exact hcc), hw]
      exact h

/-! ## Further concrete stores -/

theorem clock_store_mixed : ReachableClock store_mixed :=
  ReachableClock.domain_cache_append _ _ _ _ _ _ _ _ (by decide)
    (ReachableClock.domain_cache_append _ _ _ _ _ _ _ _ (by decide)
      (ReachableClock.init _ _ _ _ (by decide)))

theorem decimal_name_injective {j k : Nat} (h : decimal_name j = decimal_name k) : j = k := by
  unfold decimal_name at h
  have h1 : Nat.digits 10 (j + 1) = Nat.digits 10 (k + 1) :=
    List.map_injective_iff.2 (fun a b hab => by simpa using hab) h
  have h2 := Nat.digits.injective 10 h1
  omega

theorem store_many_succ (n : Nat) :
    store_many (n + 1) =
      domain_cache_append 1700000000 (store_many n) (decimal_name n) (decimal_name n).length 60
        1 0 [] := by
  unfold store_many
  rw [List.range_succ, List.foldl_append]
  rfl

/-- The store that has learned `n` names is reachable and holds `n` entries, one for
each name. -/
theorem store_many_size (n : Nat) :
    Reachable (store_many n) ∧ (store_many n).rb_name.size = n ∧
    ∀ e ∈ (store_many n).rb_name.toList, ∃ k, k < n ∧ e.domain = decimal_name k := by
  induction n with
  | zero =>
    refine ⟨reachable_store_empty, rfl, ?_⟩
    intro e he
    simp [store_many, store_empty, domain_cache_init, rbnode.toList] at he
  | succ n ih =>
    obtain ⟨h1, h2, h3⟩ := ih
    rw [store_many_succ]
    have hdom : (dynamic_entry 1700000000 (decimal_name n) (decimal_name n).length 60 1 0
        []).domain = decimal_name n := by
      simp [dynamic_entry]
    have hfresh : (rbtree_insert_broken name_compare (store_many n).rb_name
        (dynamic_entry 1700000000 (decimal_name n) (decimal_name n).length 60 1 0 [])).1 =
        none := by
      apply name_insert_fresh
      intro x hx hd
      obtain ⟨k, hk, hkn⟩ := h3 x hx
      rw [hdom, hkn] at hd
      have := decimal_name_injective hd
      omega
    refine ⟨Reachable.domain_cache_append _ _ _ _ _ _ _ _ h1, ?_, ?_⟩
    · unfold domain_cache_append
      simp only [hfresh, Option.isSome_none, Bool.false_eq_true, if_false]
      rw [insert_broken_size hfresh, h2]
    · intro e he
      rcases domain_cache_append_mem he with h | h
      · obtain ⟨k, hk, hkn⟩ := h3 e h
        exact ⟨k, by omega, hkn⟩
      · exact ⟨n, by omega, by rw [h, hdom]⟩

/-! ## The loop over the domains of a line as a walk over its tokens -/

theorem skip_space_eq (s : List Nat) : skip_space s = s.dropWhile (fun c => is_space c) := by
  induction s with
  | nil => rfl
  | cons c s ih =>
    simp only [skip_space, List.dropWhile_cons]
    split_ifs <;> simp_all

theorem skip_to_space_eq (s : List Nat) :
    skip_to_space s = s.dropWhile (fun c => !is_space c) := by
  induction s with
  | nil => rfl
  | cons c s ih =>
    simp only [skip_to_space, List.dropWhile_cons]
    split_ifs <;> simp_all

theorem take_length_sub_dropWhile (p : Nat → Bool) (s : List Nat) :
    s.take (s.length - (s.dropWhile p).length) = s.takeWhile p := by
  have h := List.takeWhile_append_dropWhile p s
  have hl : s.length = (s.takeWhile p).length + (s.dropWhile p).length := by
    rw [← List.length_append, h]
  have : s.length - (s.dropWhile p).length = (s.takeWhile p).length := by omega
  rw [this]
  have e : (s.takeWhile p ++ s.dropWhile p).take (s.takeWhile p).length = s.takeWhile p :=
    List.take_left _ _
  rw [h] at e
  exact e

theorem strchr_none {n : List Nat} {c : Nat} : strchr n c = none ↔ c ∉ n := by
  induction n with
  | nil => simp [strchr]
  | cons a s ih =>
    simp only [strchr]
    split_ifs with h
    · simp [h]
    · simp [ih, Ne.symm h]

theorem strchr_some {n w : List Nat} {c : Nat} (h : strchr n c = some w) :
    c ∈ n ∧ w = n.dropWhile (fun x => x ≠ c) := by
  induction n with
  | nil => simp [strchr] at h
  | cons a s ih =>
    simp only [strchr] at h
    split_ifs at h with h1
    · simp at h
      subst h
      simp [h1]
    · obtain ⟨h2, h3⟩ := ih h
      refine ⟨List.mem_cons_of_mem _ h2, ?_⟩
      rw [h3, List.dropWhile_cons]
      simp [h1]

theorem deref_dropWhile_space (s : List Nat) :
    is_space (deref (s.dropWhile (fun c => is_space c))) = false := by
  induction s with
  | nil => decide
  | cons c s ih =>
    rw [List.dropWhile_cons]
    split_ifs with h
    · exact ih
    · simpa [deref] using h

theorem dropWhile_nonspace_head (s : List Nat) :
    s.dropWhile (fun c => !is_space c) = [] ∨
      ∃ c r, s.dropWhile (fun c => !is_space c) = c :: r ∧ is_space c = true := by
  induction s with
  | nil => exact Or.inl rfl
  | cons c s ih =>
    rw [List.dropWhile_cons]
    split_ifs with h
    · exact ih
    · exact Or.inr ⟨c, s, rfl, by simpa using h⟩

theorem dropWhile_space_head {s : List Nat} (h : s.dropWhile (fun c => is_space c) ≠ []) :
    ∃ c r, s.dropWhile (fun c => is_space c) = c :: r ∧ is_space c = false := by
  induction s with
  | nil => exact absurd rfl h
  | cons c s ih =>
    rw [List.dropWhile_cons] at h ⊢
    split_ifs at h ⊢ with h1
    · exact ih h
    · exact ⟨c, s, rfl, by simpa using h1⟩

theorem length_dropWhile_le (p : Nat → Bool) (s : List Nat) :
    (s.dropWhile p).length ≤ s.length :=
  (List.dropWhile_suffix p).length_le

theorem length_takeWhile_le (p : Nat → Bool) (s : List Nat) :
    (s.takeWhile p).length ≤ s.length :=
  (List.takeWhile_prefix p).length_le

theorem spec_tokens_fuel_nil (n : Nat) : spec_tokens_fuel n [] = [] := by
  cases n <;> simp [spec_tokens_fuel]

theorem spec_tokens_rest_length {s : List Nat} (h : s.dropWhile (fun c => is_space c) ≠ []) :
    ((s.dropWhile (fun c => is_space c)).dropWhile (fun c => !is_space c)).length < s.length := by
  obtain ⟨c, r, h1, h2⟩ := dropWhile_space_head h
  have h3 := length_dropWhile_le (fun c => is_space c) s
  rw [h1] at h3 ⊢
  rw [List.dropWhile_cons]
  simp only [h2, Bool.not_false, if_true]
  have h4 := length_dropWhile_le (fun c => !is_space c) r
  simp only [List.length_cons] at h3
  omega

theorem spec_tokens_fuel_enough (n m : Nat) (s : List Nat) (hn : s.length ≤ n)
    (hm : s.length ≤ m) : spec_tokens_fuel n s = spec_tokens_fuel m s := by
  induction n generalizing m s with
  | zero =>
    have : s = [] := List.length_eq_zero.mp (by omega)
    subst this
    rw [spec_tokens_fuel_nil, spec_tokens_fuel_nil]
  | succ n ih =>
    cases m with
    | zero =>
      have : s = [] := List.length_eq_zero.mp (by omega)
      subst this
      rw [spec_tokens_fuel_nil, spec_tokens_fuel_nil]
    | succ m =>
      simp only [spec_tokens_fuel]
      split_ifs with h
      · rfl
      · have hl := spec_tokens_rest_length h
        rw [ih m _ (by omega) (by omega)]

theorem spec_tokens_none {s : List Nat} (h : s.dropWhile (fun c => is_space c) = []) :
    spec_tokens s = [] := by
  unfold spec_tokens
  cases hs : s.length with
  | zero => rfl
  | succ n => simp [spec_tokens_fuel, h]

theorem spec_tokens_step {s : List Nat} (h : s.dropWhile (fun c => is_space c) ≠ []) :
    spec_tokens s =
      (s.dropWhile (fun c => is_space c)).takeWhile (fun c => !is_space c) ::
        spec_tokens
          ((s.dropWhile (fun c => is_space c)).dropWhile (fun c => !is_space c)) := by
  have hl := spec_tokens_rest_length h
  unfold spec_tokens
  cases hs : s.length with
  | zero => rw [hs] at hl; omega
  | succ n =>
    simp only [spec_tokens_fuel, h, if_false]
    rw [spec_tokens_fuel_enough n _ _ (by omega) (le_refl _)]

theorem spec_tokens_congr {s t : List Nat}
    (h : s.dropWhile (fun c => is_space c) = t.dropWhile (fun c => is_space c)) :
    spec_tokens s = spec_tokens t := by
  by_cases h1 : s.dropWhile (fun c => is_space c) = []
  · have h2 : t.dropWhile (fun c => is_space c) = [] := by rw [← h]; exact h1
    rw [spec_tokens_none h1, spec_tokens_none h2]
  · have h2 : t.dropWhile (fun c => is_space c) ≠ [] := by rw [← h]; exact h1
    have e1 := spec_tokens_step h1
    have e2 := spec_tokens_step h2
    rw [e1, e2, h]

theorem spec_tokens_drop_blank {s : List Nat}
    (h : s = [] ∨ ∃ c r, s = c :: r ∧ is_space c = true) :
    spec_tokens (s.drop 1) = spec_tokens s := by
  rcases h with h | ⟨c, r, h, hc⟩
  · subst h; rfl
  · subst h
    apply spec_tokens_congr
    simp [List.dropWhile_cons, hc]

theorem takeWhile_append_stop (p : Nat → Bool) (l1 l2 : List Nat) (x : Nat) (hx : p x = false) :
    (l1 ++ x :: l2).takeWhile p = l1.takeWhile p := by
  induction l1 with
  | nil => simp [List.takeWhile_cons, hx]
  | cons a l ih =>
    simp only [List.cons_append, List.takeWhile_cons]
    split_ifs
    · rw [ih]
    · rfl

theorem trailing_blanks_after (pre r : List Nat) (x : Nat) (hx : is_space x = false) :
    spec_trailing_blanks (pre ++ x :: r) = spec_trailing_blanks r := by
  unfold spec_trailing_blanks
  rw [List.reverse_append, List.reverse_cons, List.append_assoc, List.singleton_append,
    takeWhile_append_stop _ _ _ _ hx]

theorem trailing_blanks_dropWhile (s : List Nat) :
    spec_trailing_blanks (s.dropWhile (fun c => !is_space c)) = spec_trailing_blanks s := by
  induction s with
  | nil => rfl
  | cons a s ih =>
    rw [List.dropWhile_cons]
    split_ifs with h
    · rw [ih]
      exact (trailing_blanks_after [] s a (by simpa using h)).symm
    · rfl

theorem trailing_blanks_all {s : List Nat} (h : s.dropWhile (fun c => is_space c) = []) :
    spec_trailing_blanks s = s.length := by
  unfold spec_trailing_blanks
  have h1 : ∀ c ∈ s, is_space c = true := by
    intro c hc
    have := List.dropWhile_eq_nil_iff.mp h c hc
    simpa using this
  have h2 : s.reverse.takeWhile (fun c => is_space c) = s.reverse := by
    rw [List.takeWhile_eq_self_iff]
    intro c hc
    exact h1 c (List.mem_reverse.mp hc)
  rw [h2, List.length_reverse]

theorem trailing_blanks_le (s : List Nat) : spec_trailing_blanks s ≤ s.length := by
  unfold spec_trailing_blanks
  have := length_takeWhile_le (fun c => is_space c) s.reverse
  simpa using this

/-- One round of the loop on a token that is not empty does what the specification
says of a token. -/
theorem hosts_token_round (k : Nat) (now : Int) (al : Nat) (ans rear2 tok : List Nat)
    (g : g_cache) (hlen : tok.length < 65536) :
    (match strchr (tok.map tolower) 42 with
      | some w =>
        hosts_domains k now al ans rear2
          (wname_append g ((tok.map tolower).take ((tok.map tolower).length - w.length))
            (((tok.map tolower).length : Int) - (w.drop 1).length - 1) (w.drop 1)
            (w.drop 1).length al ans)
      | none =>
        hosts_domains k now al ans rear2
          (name_append now g (tok.map tolower)
            (((tok.map tolower).length % 65536 : Nat) : Int) al ans)) =
      hosts_domains k now al ans rear2 (spec_token_append now al ans g tok) := by
  cases h : strchr (tok.map tolower) 42 with
  | none =>
    have h1 := strchr_none.mp h
    simp only [spec_token_append, h1, if_false]
    have : (tok.map tolower).length % 65536 = (tok.map tolower).length := by
      rw [List.length_map]; exact Nat.mod_eq_of_lt hlen
    rw [this]
  | some w =>
    obtain ⟨h1, h2⟩ := strchr_some h
    simp only [spec_token_append, h1, if_true]
    subst h2
    have e1 := take_length_sub_dropWhile (fun x => decide (x ≠ 42)) (tok.map tolower)
    have e2 := List.takeWhile_append_dropWhile (fun x => decide (x ≠ 42)) (tok.map tolower)
    have e3 : ((tok.map tolower).dropWhile (fun x => decide (x ≠ 42))).length ≠ 0 := by
      intro h0
      have h3 := List.length_eq_zero.mp h0
      have h4 := List.dropWhile_eq_nil_iff.mp h3 42 h1
      simp at h4
    have e4 : (tok.map tolower).length =
        ((tok.map tolower).takeWhile (fun x => decide (x ≠ 42))).length +
          ((tok.map tolower).dropWhile (fun x => decide (x ≠ 42))).length := by
      rw [← List.length_append, e2]
    rw [e1]
    have e5 : (((tok.map tolower).length : Int) -
        ((((tok.map tolower).dropWhile (fun x => decide (x ≠ 42))).drop 1).length : Nat) - 1) =
        ((((tok.map tolower).takeWhile (fun x => decide (x ≠ 42))).length : Nat) : Int) := by
      rw [List.length_drop]
      omega
    rw [e5]

theorem hosts_domains_short (k : Nat) (now : Int) (al : Nat) (ans rear : List Nat) (g : g_cache)
    (h : ¬ 1 < rear.length) : hosts_domains k now al ans rear g = g := by
  cases k with
  | zero => rfl
  | succ k => simp only [hosts_domains, h, if_false]

/-- The loop over the domains of a line is the walk over the tokens after the
separator at which it starts, followed by one more call with the empty name when the
line ends in two or more blanks. -/
theorem hosts_domains_tokens (k : Nat) (now : Int) (al : Nat) (ans rear : List Nat)
    (g : g_cache) (hk : rear.length ≤ k)
    (hhead : rear = [] ∨ ∃ c r, rear = c :: r ∧ is_space c = true)
    (hlen : rear.length < 65536) :
    hosts_domains k now al ans rear g =
      (spec_tokens (rear.drop 1) ++
        (if 2 ≤ spec_trailing_blanks rear then [[]] else [])).foldl
        (spec_token_append now al ans) g := by
  induction k generalizing rear g with
  | zero =>
    have : rear = [] := List.length_eq_zero.mp (by omega)
    subst this
    rfl
  | succ k ih =>
    by_cases h1 : 1 < rear.length
    · rcases hhead with h0 | ⟨c, r, h0, hc⟩
      · subst h0; simp at h1
      subst h0
      simp only [hosts_domains, h1, if_true, skip_space_eq, skip_to_space_eq,
        deref_dropWhile_space, take_length_sub_dropWhile, List.drop_succ_cons, List.drop_zero]
      by_cases h2 : r.dropWhile (fun c => is_space c) = []
      · have h3 : (c :: r).dropWhile (fun c => is_space c) = [] := by
          rw [List.dropWhile_cons]; simp [hc, h2]
        have h4 := trailing_blanks_all h3
        rw [spec_tokens_none h2, h4, h2]
        simp only [h1, show 2 ≤ (c :: r).length from h1, if_true]
        simp [strchr, hosts_domains_short, spec_token_append]
      · have hr := hosts_token_round k now al ans
          ((r.dropWhile (fun c => is_space c)).dropWhile (fun c => !is_space c))
          ((r.dropWhile (fun c => is_space c)).takeWhile (fun c => !is_space c)) g
          (by
            have a1 := length_takeWhile_le (fun c => !is_space c)
              (r.dropWhile (fun c => is_space c))
            have a2 := length_dropWhile_le (fun c => is_space c) r
            simp only [List.length_cons] at hlen
            omega)
        have hl := spec_tokens_rest_length h2
        have hi := ih ((r.dropWhile (fun c => is_space c)).dropWhile (fun c => !is_space c))
          (spec_token_append now al ans g
            ((r.dropWhile (fun c => is_space c)).takeWhile (fun c => !is_space c)))
          (by simp only [List.length_cons] at hk; omega)
          (dropWhile_nonspace_head _)
          (by simp only [List.length_cons] at hlen; omega)
        rw [spec_tokens_drop_blank (dropWhile_nonspace_head _)] at hi
        obtain ⟨x, t, hx, hxs⟩ := dropWhile_space_head h2
        have ht : spec_trailing_blanks (c :: r) =
            spec_trailing_blanks
              ((r.dropWhile (fun c => is_space c)).dropWhile (fun c => !is_space c)) := by
          rw [trailing_blanks_dropWhile, hx]
          have e := List.takeWhile_append_dropWhile (fun c => is_space c) r
          rw [hx] at e
          have e2 : c :: r = (c :: r.takeWhile (fun c => is_space c)) ++ x :: t := by
            rw [List.cons_append, e]
          rw [e2, trailing_blanks_after _ _ _ hxs]
          exact (trailing_blanks_after [] t x hxs).symm
        rw [spec_tokens_step h2, ht, List.cons_append, List.foldl_cons, ← hi]
        simpa using hr
    · rw [hosts_domains_short _ _ _ _ _ _ h1]
      have h2 : rear.drop 1 = [] := by
        apply List.drop_eq_nil_of_le; omega
      have h3 := trailing_blanks_le rear
      have h4 : ¬ 2 ≤ spec_trailing_blanks rear := by omega
      rw [h2, if_neg h4]
      rfl

theorem dropWhile_space_append (blanks s : List Nat) (h : ∀ c ∈ blanks, is_space c = true) :
    (blanks ++ s).dropWhile (fun c => is_space c) = s.dropWhile (fun c => is_space c) := by
  induction blanks with
  | nil => rfl
  | cons a l ih =>
    rw [List.cons_append, List.dropWhile_cons]
    simp only [h a (List.mem_cons_self _ _), if_true]
    exact ih (fun c hc => h c (List.mem_cons_of_mem _ hc))

theorem dropWhile_nonspace_append (ip s : List Nat) (h : ∀ c ∈ ip, is_space c = false) :
    (ip ++ s).dropWhile (fun c => !is_space c) = s.dropWhile (fun c => !is_space c) := by
  induction ip with
  | nil => rfl
  | cons a l ih =>
    rw [List.cons_append, List.dropWhile_cons]
    simp only [h a (List.mem_cons_self _ _), Bool.not_false, if_true]
    exact ih (fun c hc => h c (List.mem_cons_of_mem _ hc))

theorem hosts_answer_length (MAX_TTL addr : Nat) : (hosts_answer MAX_TTL addr).length = 16 := rfl


/-! ## The claims -/

/-- C1 (as amended): in every reachable store whose Exact-Name Index holds no entry
named `d`, right after `domain_cache_append` of `d` the lookup of `d` returns the
entry just appended, with the name, the answer bytes, the answer count and the
expiry `now + ttl` that were passed in, and it still does after any number of
`domain_cache_clean` calls whose time is before that expiry. -/
theorem append_search_roundtrip (g : g_cache) (now : Int) (d : List Nat)
    (ttl an_count an_length : Nat) (answer : List Nat) (times : List Int)
    (hg : Reachable g) (hfresh : ∀ x ∈ g.rb_name.toList, x.domain ≠ d)
    (htimes : ∀ c ∈ times, c < now + ttl) :
    ∃ e : DOMAIN_CACHE,
      e = dynamic_entry now d d.length ttl an_count an_length answer ∧
      e.domain = d ∧ e.answer = answer.take an_length ∧ e.an_count = an_count ∧
      e.expire = now + ttl ∧
      domain_cache_search
        (times.foldl (fun s c => domain_cache_clean c s)
          (domain_cache_append now g d d.length ttl an_count an_length answer)) d = some e := by
  refine ⟨_, rfl, by simp [dynamic_entry], rfl, rfl, rfl, ?_⟩
  have hdom : (dynamic_entry now d d.length ttl an_count an_length answer).domain = d := by
    simp [dynamic_entry]
  obtain ⟨h1, h2⟩ := cleans_keep times _ _
    (domain_cache_append_ordered now g d d.length ttl an_count an_length answer
      (reachable_name_ordered hg))
    (domain_cache_append_fresh hfresh now ttl an_count an_length answer) htimes
  have := search_exact h1 h2
  rw [hdom] at this
  exact this

/-- Witness of C1 as amended: `b` is learned by the store that holds `a`, and two
sweeps at times 10 and 30 come before its expiry at 45. -/
theorem append_search_roundtrip_witness :
    Reachable store_a ∧ (∀ x ∈ store_a.rb_name.toList, x.domain ≠ bytes "b") ∧
    (∀ c ∈ [10, 30], c < (5 : Int) + (40 : Nat)) ∧
    ∃ e : DOMAIN_CACHE,
      e = dynamic_entry 5 (bytes "b") (bytes "b").length 40 1 2 [8, 9] ∧
      e.domain = bytes "b" ∧ e.answer = [8, 9].take 2 ∧ e.an_count = 1 ∧
      e.expire = (5 : Int) + (40 : Nat) ∧
      domain_cache_search
        ([10, 30].foldl (fun s c => domain_cache_clean c s)
          (domain_cache_append 5 store_a (bytes "b") (bytes "b").length 40 1 2 [8, 9]))
        (bytes "b") = some e :=
  ⟨reachable_store_a, by decide, by decide,
    append_search_roundtrip store_a 5 (bytes "b") 40 1 2 [8, 9] [10, 30] reachable_store_a
      (by decide) (by decide)⟩

/-- Counterexample to C1 as stated: the store already holds `a` with answer byte 7;
after `domain_cache_append` of `a` with answer byte 9 the lookup of `a` returns the
old entry, whose answer is not the one passed in. -/
theorem append_search_roundtrip_counterexample :
    Reachable store_a ∧
    ∃ e : DOMAIN_CACHE,
      domain_cache_search (domain_cache_append 100 store_a (bytes "a") 1 60 1 1 [9]) (bytes "a")
        = some e ∧
      e.answer = [7] ∧ e.answer ≠ [9] ∧ e.timestamp = 0 :=
  ⟨reachable_store_a, dynamic_entry 0 (bytes "a") 1 60 1 1 [7], by decide, by decide, by decide,
    by decide⟩

/-- C2, the failing input: `b` was learned with a TTL of 3000000000 seconds and `a`
with a TTL of one second; `expire_compare` orders `a` after `b`, the sweep at time
10 stops at `b`, and the lookup of `a` still returns the entry that expired at
time 1. -/
theorem clean_leaves_expired_entry :
    Reachable store_long_ttl ∧
    ∃ e : DOMAIN_CACHE,
      domain_cache_search (domain_cache_clean 10 store_long_ttl) (bytes "a") = some e ∧
      e.expire = 1 ∧ e.expire ≤ 10 ∧
      expire_compare (dynamic_entry 0 (bytes "a") 1 1 1 2 [3, 4])
        (dynamic_entry 0 (bytes "b") 1 3000000000 1 2 [1, 2]) = 1294967297 :=
  ⟨reachable_store_long_ttl,
    dynamic_entry 0 (bytes "a") 1 1 1 2 [3, 4], by decide, by decide, by decide, by decide⟩

/-- C3: when the Exact-Name Index of a reachable store holds an entry named `d`,
`name_append` and `domain_cache_append` of `d` with any answer leave the whole
store as it was, and the lookup of `d` returns the entry that was there first. -/
theorem first_wins_dedup (g : g_cache) (e : DOMAIN_CACHE) (d : List Nat) (now : Int)
    (ttl an_count an_length : Nat) (answer : List Nat)
    (hg : Reachable g) (he : e ∈ g.rb_name.toList) (hd : e.domain = d) :
    name_append now g d d.length an_length answer = g ∧
    domain_cache_append now g d d.length ttl an_count an_length answer = g ∧
    domain_cache_search (name_append now g d d.length an_length answer) d = some e ∧
    domain_cache_search (domain_cache_append now g d d.length ttl an_count an_length answer) d
      = some e := by
  have ho := reachable_name_ordered hg
  have h1 : name_append now g d d.length an_length answer = g := by
    unfold name_append
    simp [name_insert_found (n := name_entry now d d.length an_length answer) ho he
      (by simp [name_entry, hd])]
  have h2 : domain_cache_append now g d d.length ttl an_count an_length answer = g := by
    unfold domain_cache_append
    simp [name_insert_found (n := dynamic_entry now d d.length ttl an_count an_length answer)
      ho he (by simp [dynamic_entry, hd])]
  have h3 := search_exact ho he
  rw [hd] at h3
  rw [h1, h2]
  exact ⟨rfl, rfl, h3, h3⟩

/-- Witness of C3: the store holds `a` with answer byte 7, and `a` comes again with
answer byte 9. -/
theorem first_wins_dedup_witness :
    Reachable store_a ∧
    dynamic_entry 0 (bytes "a") 1 60 1 1 [7] ∈ store_a.rb_name.toList ∧
    name_append 100 store_a (bytes "a") (bytes "a").length 1 [9] = store_a ∧
    domain_cache_append 100 store_a (bytes "a") (bytes "a").length 30 1 1 [9] = store_a ∧
    domain_cache_search (name_append 100 store_a (bytes "a") (bytes "a").length 1 [9])
      (bytes "a") = some (dynamic_entry 0 (bytes "a") 1 60 1 1 [7]) ∧
    domain_cache_search
      (domain_cache_append 100 store_a (bytes "a") (bytes "a").length 30 1 1 [9]) (bytes "a")
      = some (dynamic_entry 0 (bytes "a") 1 60 1 1 [7]) :=
  ⟨reachable_store_a, by decide,
    first_wins_dedup store_a (dynamic_entry 0 (bytes "a") 1 60 1 1 [7]) (bytes "a") 100 30 1 1
      [9] reachable_store_a (by decide) (by decide)⟩

/-- C4: when the Exact-Name Index of a reachable store holds an entry named `Q`,
the lookup of `Q` returns that entry, whatever the Wildcard-Name Index `w` and its
counter hold. -/
theorem exact_over_wildcard (g : g_cache) (e : DOMAIN_CACHE) (Q : List Nat) (w : rbnode)
    (wcount : Nat) (hg : Reachable g) (he : e ∈ g.rb_name.toList) (hq : e.domain = Q) :
    domain_cache_search g Q = some e ∧
    domain_cache_search { g with rb_wname := w, wcount := wcount } Q = some e := by
  have ho := reachable_name_ordered hg
  have h1 := search_exact ho he
  have h2 := search_exact (g := { g with rb_wname := w, wcount := wcount }) ho he
  rw [hq] at h1 h2
  exact ⟨h1, h2⟩

/-- Witness of C4: the wildcard `*.example.com` matches `foo.example.com`, and the
lookup returns the exact entry, whose answer is the byte 7. -/
theorem exact_over_wildcard_witness :
    Reachable store_wild_exact ∧
    dynamic_entry 50 (bytes "foo.example.com") 15 60 1 1 [7] ∈ store_wild_exact.rb_name.toList ∧
    spec_wildcard_match [] (bytes ".example.com") (bytes "foo.example.com") ∧
    (domain_cache_search store_wild_exact (bytes "foo.example.com") =
        some (dynamic_entry 50 (bytes "foo.example.com") 15 60 1 1 [7]) ∧
      domain_cache_search
        { store_wild_exact with rb_wname := store_wild_exact.rb_wname, wcount := 1 }
        (bytes "foo.example.com") =
        some (dynamic_entry 50 (bytes "foo.example.com") 15 60 1 1 [7])) :=
  ⟨reachable_store_wild_exact, by decide, by decide,
    exact_over_wildcard store_wild_exact (dynamic_entry 50 (bytes "foo.example.com") 15 60 1 1 [7])
      (bytes "foo.example.com") store_wild_exact.rb_wname 1 reachable_store_wild_exact
      (by decide) (by decide)⟩

/-- C5, the failing input: the hosts line `10.0.0.1 b*.a *.a` puts `b*.a` and then
`*.a` into the Wildcard-Name Index. The query `x.a` meets the matching rule for
`*.a`, yet the descent turns right at `b*.a` and the lookup returns nothing; after
the line `10.0.0.1 *.a b*.a`, which holds the same two entries, the lookup returns
`*.a`. -/
theorem wildcard_lookup_misses_match :
    Reachable store_prefixed_first ∧
    store_prefixed_first.rb_wname.toList =
      [wname_entry [] 0 (bytes ".a") 2 16 (hosts_answer 604800 167772161),
        wname_entry (bytes "b") 1 (bytes ".a") 2 16 (hosts_answer 604800 167772161)] ∧
    store_unrestricted_first.rb_wname.toList = store_prefixed_first.rb_wname.toList ∧
    store_prefixed_first.rb_name.toList = [] ∧
    spec_wildcard_match [] (bytes ".a") (bytes "x.a") ∧
    domain_cache_search store_prefixed_first (bytes "x.a") = none ∧
    domain_cache_search store_unrestricted_first (bytes "x.a") =
      some (wname_entry [] 0 (bytes ".a") 2 16 (hosts_answer 604800 167772161)) :=
  ⟨reachable_store_prefixed_first, by decide, by decide, by decide, by decide, by decide,
    by decide⟩

/-- C6: in a store whose Wildcard-Name Index holds the one entry with prefix `P` and
suffix `S`, and whose Exact-Name Index has no entry named `Q`, the lookup of `Q`
returns that entry when `Q` meets the matching rule and nothing otherwise. -/
theorem single_wildcard_rule (g : g_cache) (P S Q : List Nat) (an_length : Nat)
    (answer : List Nat) (hw : g.rb_wname = rbnode.RBNODE_NULL) (hc : g.wcount = 0)
    (hq : ∀ x ∈ g.rb_name.toList, x.domain ≠ Q) :
    (wname_append g P P.length S S.length an_length answer).rb_wname.toList =
      [wname_entry P P.length S S.length an_length answer] ∧
    domain_cache_search (wname_append g P P.length S S.length an_length answer) Q =
      if S.length ≤ Q.length ∧ Q.drop (Q.length - S.length) = S ∧
          (Q.length - S.length = 0 ∨ P.length = 0 ∨ Q.take P.length = P)
      then some (wname_entry P P.length S S.length an_length answer) else none := by
  rw [wname_append_first _ _ _ _ _ _ _ hw]
  refine ⟨by simp [rbnode.toList], ?_⟩
  rw [search_wildcard_only (by exact hq) (by simp [hc])]
  have key := wname_search_consistent ⟨Q, Q.length, none⟩
    (wname_entry P P.length S S.length an_length answer) rfl
    (wname_entry_d_length _ _ _ _) (wname_entry_p_length _ _ _ _)
  rw [wname_entry_pfx, wname_entry_domain] at key
  unfold spec_wildcard_match at key
  dsimp only at key ⊢
  simp only [rbtree_search]
  generalize wname_search ⟨Q, Q.length, none⟩
    (wname_entry P P.length S S.length an_length answer) = c at key ⊢
  by_cases hm : S.length ≤ Q.length ∧ Q.drop (Q.length - S.length) = S ∧
      (Q.length - S.length = 0 ∨ P.length = 0 ∨ Q.take P.length = P)
  · rw [if_pos hm]
    rcases key.1 hm with h | ⟨h, h2⟩
    · simp [h]
    · have hne : ¬ c.1 = 0 := by omega
      have hnl : ¬ c.1 < 0 := by omega
      simp [hne, hnl, h2]
  · rw [if_neg hm]
    obtain ⟨h, h2⟩ := key.2 hm
    by_cases h3 : c.1 < 0 <;> simp [h, h3, h2]

/-- Witness of C6: with only `dev*.example.com` stored, `dev1.example.com` and
`devops.example.com` hit and `other.example.com` misses. -/
theorem single_wildcard_rule_witness :
    store_empty.rb_wname = rbnode.RBNODE_NULL ∧ store_empty.wcount = 0 ∧
    (∀ x ∈ store_empty.rb_name.toList, x.domain ≠ bytes "dev1.example.com") ∧
    domain_cache_search
      (wname_append store_empty (bytes "dev") (bytes "dev").length (bytes ".example.com")
        (bytes ".example.com").length 1 [1]) (bytes "dev1.example.com") =
      some (wname_entry (bytes "dev") (bytes "dev").length (bytes ".example.com")
        (bytes ".example.com").length 1 [1]) ∧
    domain_cache_search
      (wname_append store_empty (bytes "dev") (bytes "dev").length (bytes ".example.com")
        (bytes ".example.com").length 1 [1]) (bytes "devops.example.com") =
      some (wname_entry (bytes "dev") (bytes "dev").length (bytes ".example.com")
        (bytes ".example.com").length 1 [1]) ∧
    domain_cache_search
      (wname_append store_empty (bytes "dev") (bytes "dev").length (bytes ".example.com")
        (bytes ".example.com").length 1 [1]) (bytes "other.example.com") = none :=
  ⟨rfl, rfl, by decide,
    ((single_wildcard_rule store_empty (bytes "dev") (bytes ".example.com")
      (bytes "dev1.example.com") 1 [1] rfl rfl (by decide)).2).trans (if_pos (by decide)),
    ((single_wildcard_rule store_empty (bytes "dev") (bytes ".example.com")
      (bytes "devops.example.com") 1 [1] rfl rfl (by decide)).2).trans (if_pos (by decide)),
    ((single_wildcard_rule store_empty (bytes "dev") (bytes ".example.com")
      (bytes "other.example.com") 1 [1] rfl rfl (by decide)).2).trans (if_neg (by decide))⟩

/-- C7 (as amended): when the Wildcard-Name Index holds the two entries with suffix `S` and the
prefixes empty and `P`, appended in either order to a store without wildcard
entries, and no exact entry is named `P ++ x ++ S`, the lookup of `P ++ x ++ S` for
non-empty `P` and `x` returns the entry with prefix `P`, not the unrestricted one. -/
theorem wildcard_specificity (g : g_cache) (P x S : List Nat) (al1 al2 : Nat)
    (a1 a2 : List Nat) (hP : P ≠ []) (hx : x ≠ [])
    (hw : g.rb_wname = rbnode.RBNODE_NULL) (hc : g.wcount = 0)
    (hq : ∀ y ∈ g.rb_name.toList, y.domain ≠ P ++ x ++ S) :
    domain_cache_search
      (wname_append (wname_append g [] 0 S S.length al1 a1) P P.length S S.length al2 a2)
      (P ++ x ++ S) = some (wname_entry P P.length S S.length al2 a2) ∧
    domain_cache_search
      (wname_append (wname_append g P P.length S S.length al2 a2) [] 0 S S.length al1 a1)
      (P ++ x ++ S) = some (wname_entry P P.length S S.length al2 a2) ∧
    wname_entry P P.length S S.length al2 a2 ≠ wname_entry [] 0 S S.length al1 a1 := by
  have hlt : strcmp [] P < 0 := by cases P <;> simp [strcmp] at hP ⊢
  obtain ⟨e1, e2⟩ := wname_append_two g [] P S al1 al2 a1 a2 hw hc hlt
  have hxl : 0 < x.length := List.length_pos.2 hx
  have hPl : 0 < P.length := List.length_pos.2 hP
  have hdrop : (P ++ x ++ S).drop ((P ++ x ++ S).length - S.length) = S := by
    have : (P ++ x ++ S).length - S.length = (P ++ x).length := by
      simp only [List.length_append]; omega
    rw [this, List.drop_left]
  have htake : (P ++ x ++ S).take P.length = P := by
    rw [List.append_assoc, List.take_left]
  have s1 := wname_search_descend ⟨P ++ x ++ S, (P ++ x ++ S).length, none⟩
    (wname_entry [] ([] : List Nat).length S S.length al1 a1) rfl (wname_entry_d_length _ _ _ _)
    (wname_entry_p_length _ _ _ _)
    (by rw [wname_entry_domain]; simp; omega)
    (by rw [wname_entry_domain]; exact hdrop)
    (Or.inl (by rw [wname_entry_pfx]; rfl))
  dsimp only at s1
  have s2 : ∀ c, wname_search ⟨P ++ x ++ S, (P ++ x ++ S).length, c⟩
      (wname_entry P P.length S S.length al2 a2) =
      (1, ⟨P ++ x ++ S, (P ++ x ++ S).length, some (wname_entry P P.length S S.length al2 a2)⟩) :=
    fun c => wname_search_descend ⟨P ++ x ++ S, (P ++ x ++ S).length, c⟩
      (wname_entry P P.length S S.length al2 a2) rfl (wname_entry_d_length _ _ _ _)
      (wname_entry_p_length _ _ _ _)
      (by rw [wname_entry_domain]; simp; omega)
      (by rw [wname_entry_domain]; exact hdrop)
      (Or.inr (by
        rw [wname_entry_pfx, wname_entry_domain]
        refine ⟨htake, ?_⟩
        simp; omega))
  refine ⟨?_, ?_, ?_⟩
  · change domain_cache_search (wname_append (wname_append g [] ([] : List Nat).length S S.length
      al1 a1) P P.length S S.length al2 a2) (P ++ x ++ S) = _
    rw [e1, search_wildcard_only (by exact hq) (by simp)]
    simp only [rbtree_search, s1, s2]
    simp
  · change domain_cache_search (wname_append (wname_append g P P.length S S.length al2 a2)
      [] ([] : List Nat).length S S.length al1 a1) (P ++ x ++ S) = _
    rw [e2, search_wildcard_only (by exact hq) (by simp)]
    simp only [rbtree_search, s2]
    simp
  · intro h
    have := congrArg DOMAIN_CACHE.prefix_ h
    rw [wname_entry_pfx] at this
    simp [wname_entry] at this
    exact hP this

/-- Witness of C7: prefixes empty and `dev`, suffix `.example.com`, query
`dev1.example.com`. -/
theorem wildcard_specificity_witness :
    bytes "dev" ≠ [] ∧ bytes "1" ≠ [] ∧
    bytes "dev" ++ bytes "1" ++ bytes ".example.com" = bytes "dev1.example.com" ∧
    (domain_cache_search
      (wname_append (wname_append store_empty [] 0 (bytes ".example.com")
        (bytes ".example.com").length 1 [1]) (bytes "dev") (bytes "dev").length
        (bytes ".example.com") (bytes ".example.com").length 1 [2])
      (bytes "dev" ++ bytes "1" ++ bytes ".example.com") =
      some (wname_entry (bytes "dev") (bytes "dev").length (bytes ".example.com")
        (bytes ".example.com").length 1 [2]) ∧
    domain_cache_search
      (wname_append (wname_append store_empty (bytes "dev") (bytes "dev").length
        (bytes ".example.com") (bytes ".example.com").length 1 [2]) [] 0 (bytes ".example.com")
        (bytes ".example.com").length 1 [1])
      (bytes "dev" ++ bytes "1" ++ bytes ".example.com") =
      some (wname_entry (bytes "dev") (bytes "dev").length (bytes ".example.com")
        (bytes ".example.com").length 1 [2]) ∧
    wname_entry (bytes "dev") (bytes "dev").length (bytes ".example.com")
        (bytes ".example.com").length 1 [2] ≠
      wname_entry [] 0 (bytes ".example.com") (bytes ".example.com").length 1 [1]) :=
  ⟨by decide, by decide, by decide,
    wildcard_specificity store_empty (bytes "dev") (bytes "1") (bytes ".example.com") 1 1 [1] [2]
      (by decide) (by decide) rfl rfl (by decide)⟩

/-- Counterexample to C7 as stated: the store has learned the name
`dev1.example.com`; its Wildcard-Name Index is empty and then holds exactly the
entries of `*.example.com` and `dev*.example.com`, appended in either order. The
lookup of `dev1.example.com` returns the learned exact entry in both orders, not
the entry with prefix `dev`. -/
theorem wildcard_specificity_counterexample :
    Reachable store_dev1_exact ∧
    bytes "dev" ≠ [] ∧ bytes "1" ≠ [] ∧
    store_dev1_exact.rb_wname = rbnode.RBNODE_NULL ∧ store_dev1_exact.wcount = 0 ∧
    (wname_append (wname_append store_dev1_exact [] 0 (bytes ".example.com")
        (bytes ".example.com").length 1 [1]) (bytes "dev") (bytes "dev").length
        (bytes ".example.com") (bytes ".example.com").length 1 [2]).rb_wname.toList =
      [wname_entry [] 0 (bytes ".example.com") (bytes ".example.com").length 1 [1],
        wname_entry (bytes "dev") (bytes "dev").length (bytes ".example.com")
          (bytes ".example.com").length 1 [2]] ∧
    (wname_append (wname_append store_dev1_exact (bytes "dev") (bytes "dev").length
        (bytes ".example.com") (bytes ".example.com").length 1 [2]) [] 0
        (bytes ".example.com") (bytes ".example.com").length 1 [1]).rb_wname.toList =
      [wname_entry [] 0 (bytes ".example.com") (bytes ".example.com").length 1 [1],
        wname_entry (bytes "dev") (bytes "dev").length (bytes ".example.com")
          (bytes ".example.com").length 1 [2]] ∧
    domain_cache_search
      (wname_append (wname_append store_dev1_exact [] 0 (bytes ".example.com")
        (bytes ".example.com").length 1 [1]) (bytes "dev") (bytes "dev").length
        (bytes ".example.com") (bytes ".example.com").length 1 [2])
      (bytes "dev" ++ bytes "1" ++ bytes ".example.com") =
      some (dynamic_entry 50 (bytes "dev1.example.com") 16 60 1 1 [9]) ∧
    domain_cache_search
      (wname_append (wname_append store_dev1_exact (bytes "dev") (bytes "dev").length
        (bytes ".example.com") (bytes ".example.com").length 1 [2]) [] 0
        (bytes ".example.com") (bytes ".example.com").length 1 [1])
      (bytes "dev" ++ bytes "1" ++ bytes ".example.com") =
      some (dynamic_entry 50 (bytes "dev1.example.com") 16 60 1 1 [9]) ∧
    dynamic_entry 50 (bytes "dev1.example.com") 16 60 1 1 [9] ≠
      wname_entry (bytes "dev") (bytes "dev").length (bytes ".example.com")
        (bytes ".example.com").length 1 [2] :=
  ⟨reachable_store_dev1_exact, by decide, by decide, by decide, by decide, by decide,
    by decide, by decide, by decide, by decide⟩

/-- C8 (as amended): the lookup compares bytes and folds no case. When the
Exact-Name Index of a reachable store holds an entry under the lower-case name `n`
and `Q` equals `n` after ASCII lower-casing, the lookup of the lower-cased `Q`
returns that entry, as the lookup of `n` does; the lookup of a `Q` that differs
from `n` does not return it, unless the Wildcard-Name Index holds an equal entry. -/
theorem search_after_lowercase (g : g_cache) (e : DOMAIN_CACHE) (n Q : List Nat)
    (hg : Reachable g) (he : e ∈ g.rb_name.toList) (hn : e.domain = n)
    (hQ : Q.map tolower = n) :
    domain_cache_search g (Q.map tolower) = some e ∧ domain_cache_search g n = some e ∧
    (Q ≠ n → e ∉ g.rb_wname.toList → domain_cache_search g Q ≠ some e) := by
  have h := search_exact (reachable_name_ordered hg) he
  rw [hn] at h
  refine ⟨by rw [hQ]; exact h, h, ?_⟩
  intro hne hw hs
  rcases search_result_mem hs with ⟨_, h2⟩ | h2
  · exact hne (h2.symm.trans hn)
  · exact hw h2

/-- Witness of C8 as amended: `FOO.example.com` against the entry inserted as
`foo.example.com`. -/
theorem search_after_lowercase_witness :
    Reachable store_foo ∧
    dynamic_entry 0 (bytes "foo.example.com") 15 60 1 1 [7] ∈ store_foo.rb_name.toList ∧
    (bytes "FOO.example.com").map tolower = bytes "foo.example.com" ∧
    (domain_cache_search store_foo ((bytes "FOO.example.com").map tolower) =
        some (dynamic_entry 0 (bytes "foo.example.com") 15 60 1 1 [7]) ∧
      domain_cache_search store_foo (bytes "foo.example.com") =
        some (dynamic_entry 0 (bytes "foo.example.com") 15 60 1 1 [7]) ∧
      (bytes "FOO.example.com" ≠ bytes "foo.example.com" →
        dynamic_entry 0 (bytes "foo.example.com") 15 60 1 1 [7] ∉ store_foo.rb_wname.toList →
        domain_cache_search store_foo (bytes "FOO.example.com") ≠
          some (dynamic_entry 0 (bytes "foo.example.com") 15 60 1 1 [7]))) :=
  ⟨reachable_store_foo, by decide, by decide,
    search_after_lowercase store_foo (dynamic_entry 0 (bytes "foo.example.com") 15 60 1 1 [7])
      (bytes "foo.example.com") (bytes "FOO.example.com") reachable_store_foo (by decide)
      (by decide) (by decide)⟩

/-- Counterexample to C8 as stated: the store holds the entry inserted as
`foo.example.com`; `FOO.example.com` equals that name after lower-casing, yet its
lookup returns nothing while the lookup of `foo.example.com` returns the entry. -/
theorem case_insensitivity_counterexample :
    Reachable store_foo ∧
    (bytes "FOO.example.com").map tolower = bytes "foo.example.com" ∧
    domain_cache_search store_foo (bytes "FOO.example.com") = none ∧
    domain_cache_search store_foo (bytes "foo.example.com") =
      some (dynamic_entry 0 (bytes "foo.example.com") 15 60 1 1 [7]) ∧
    domain_cache_search store_foo (bytes "FOO.example.com") ≠
      domain_cache_search store_foo (bytes "foo.example.com") :=
  ⟨reachable_store_foo, by decide, by decide, by decide, by decide⟩

/-- C9: after `domain_cache_init` has processed the one hosts line
`10.0.0.1 host.local *.wild.local` (with or without its newline, `inet_addr` giving
10.0.0.1 for the text `10.0.0.1`), the lookup of `host.local` returns the exact
entry, whose answer is one A record with the address bytes 10, 0, 0, 1; the lookup
of `a.wild.local` returns the wildcard entry with empty prefix and suffix
`.wild.local`, with the same answer bytes; and the lookup of `wild.local` returns
nothing. -/
theorem hosts_scenario (MAX_TTL : Nat) (inet_addr : List Nat → Nat) (now : Int)
    (eol : List Nat) (heol : eol = [] ∨ eol = [10])
    (h : inet_addr (bytes "10.0.0.1") = 167772161) :
    (∃ e : DOMAIN_CACHE,
      domain_cache_search
        (domain_cache_init MAX_TTL inet_addr now g_cache_zero
          (some [bytes "10.0.0.1 host.local *.wild.local" ++ eol])) (bytes "host.local") = some e ∧
      e.domain = bytes "host.local" ∧ e.an_count = 1 ∧
      e.answer = [192, 12, 0, 1, 0, 1] ++ htonl MAX_TTL ++ [0, 4, 10, 0, 0, 1]) ∧
    (∃ e : DOMAIN_CACHE,
      domain_cache_search
        (domain_cache_init MAX_TTL inet_addr now g_cache_zero
          (some [bytes "10.0.0.1 host.local *.wild.local" ++ eol])) (bytes "a.wild.local") = some e ∧
      e ∈ (domain_cache_init MAX_TTL inet_addr now g_cache_zero
          (some [bytes "10.0.0.1 host.local *.wild.local" ++ eol])).rb_wname.toList ∧
      e.prefix_ = [] ∧ e.domain = bytes ".wild.local" ∧ e.an_count = 1 ∧
      e.answer = [192, 12, 0, 1, 0, 1] ++ htonl MAX_TTL ++ [0, 4, 10, 0, 0, 1]) ∧
    domain_cache_search
      (domain_cache_init MAX_TTL inet_addr now g_cache_zero
        (some [bytes "10.0.0.1 host.local *.wild.local" ++ eol])) (bytes "wild.local") = none := by
  rw [hosts_line_scenario MAX_TTL inet_addr now eol heol h]
  refine ⟨⟨name_entry now (bytes "host.local") 10 16 (hosts_answer MAX_TTL 167772161),
      rfl, rfl, rfl, rfl⟩,
    ⟨wname_entry [] 0 (bytes ".wild.local") 11 16 (hosts_answer MAX_TTL 167772161),
      rfl, ?_, rfl, rfl, rfl, rfl⟩, rfl⟩
  simp [rbnode.toList]

/-- Witness of C9: the line with its newline, a `MAX_TTL` of 604800 and an
`inet_addr` that knows the address. -/
theorem hosts_scenario_witness :
    ([10] = ([] : List Nat) ∨ [10] = [10]) ∧
    inet_addr_example (bytes "10.0.0.1") = 167772161 ∧
    (∃ e : DOMAIN_CACHE,
      domain_cache_search
        (domain_cache_init 604800 inet_addr_example 1000 g_cache_zero
          (some [bytes "10.0.0.1 host.local *.wild.local" ++ [10]])) (bytes "host.local") = some e ∧
      e.domain = bytes "host.local" ∧ e.an_count = 1 ∧
      e.answer = [192, 12, 0, 1, 0, 1] ++ htonl 604800 ++ [0, 4, 10, 0, 0, 1]) ∧
    (∃ e : DOMAIN_CACHE,
      domain_cache_search
        (domain_cache_init 604800 inet_addr_example 1000 g_cache_zero
          (some [bytes "10.0.0.1 host.local *.wild.local" ++ [10]])) (bytes "a.wild.local") = some e ∧
      e ∈ (domain_cache_init 604800 inet_addr_example 1000 g_cache_zero
          (some [bytes "10.0.0.1 host.local *.wild.local" ++ [10]])).rb_wname.toList ∧
      e.prefix_ = [] ∧ e.domain = bytes ".wild.local" ∧ e.an_count = 1 ∧
      e.answer = [192, 12, 0, 1, 0, 1] ++ htonl 604800 ++ [0, 4, 10, 0, 0, 1]) ∧
    domain_cache_search
      (domain_cache_init 604800 inet_addr_example 1000 g_cache_zero
        (some [bytes "10.0.0.1 host.local *.wild.local" ++ [10]])) (bytes "wild.local") = none :=
  ⟨Or.inr rfl, by decide,
    hosts_scenario 604800 inet_addr_example 1000 [10] (Or.inr rfl) (by decide)⟩

/-- C10: every entry that the loader adds to the Exact-Name Index or to the
Wildcard-Name Index for a hosts line comes from a line whose address `a` is valid
(neither `INADDR_NONE` nor `INADDR_ANY`), has one answer record and the 16-byte
answer `C0 0C`, `00 01`, `00 01`, `MAX_TTL` in four bytes big-endian, `00 04` and
the four bytes of `a` in network order. -/
theorem static_answer_layout (MAX_TTL : Nat) (inet_addr : List Nat → Nat) (now : Int)
    (g : g_cache) (line : List Nat) (e : DOMAIN_CACHE) (a : Nat)
    (ha : a = inet_addr ((skip_space line).take
      ((skip_space line).length - (skip_to_space (skip_space line)).length)))
    (he : e ∈ (hosts_line MAX_TTL inet_addr now g line).rb_name.toList ∨
      e ∈ (hosts_line MAX_TTL inet_addr now g line).rb_wname.toList)
    (hnew : e ∉ g.rb_name.toList ∧ e ∉ g.rb_wname.toList) :
    a ≠ INADDR_NONE ∧ a ≠ INADDR_ANY ∧ e.an_count = 1 ∧ e.an_length = 16 ∧
    e.answer =
      [192, 12, 0, 1, 0, 1,
        MAX_TTL / 16777216 % 256, MAX_TTL / 65536 % 256, MAX_TTL / 256 % 256, MAX_TTL % 256,
        0, 4, a / 16777216 % 256, a / 65536 % 256, a / 256 % 256, a % 256] := by
  unfold hosts_line at he
  dsimp only at he
  rw [← ha] at he
  split_ifs at he with h1 h2 h3
  · exact absurd he (by simp [hnew.1, hnew.2])
  · exact absurd he (by simp [hnew.1, hnew.2])
  · exact absurd he (by simp [hnew.1, hnew.2])
  · rcases hosts_domains_layout _ _ _ _ _ _ _ he with h4 | ⟨h4, h5, h6⟩
    · exact absurd h4 (by simp [hnew.1, hnew.2])
    · simp only [Bool.or_eq_true, decide_eq_true_eq, not_or] at h3
      refine ⟨h3.1, h3.2, h4, h5, ?_⟩
      rw [h6]
      rfl

/-- Witness of C10: the entry for `host.local` that the loader adds to the empty
store from the line `10.0.0.1 host.local *.wild.local`. -/
theorem static_answer_layout_witness :
    167772161 = inet_addr_example
      ((skip_space (bytes "10.0.0.1 host.local *.wild.local\n")).take
        ((skip_space (bytes "10.0.0.1 host.local *.wild.local\n")).length -
          (skip_to_space (skip_space (bytes "10.0.0.1 host.local *.wild.local\n"))).length)) ∧
    name_entry 1000 (bytes "host.local") 10 16 (hosts_answer 604800 167772161) ∈
      (hosts_line 604800 inet_addr_example 1000 store_empty
        (bytes "10.0.0.1 host.local *.wild.local\n")).rb_name.toList ∧
    (name_entry 1000 (bytes "host.local") 10 16 (hosts_answer 604800 167772161) ∉
        store_empty.rb_name.toList ∧
      name_entry 1000 (bytes "host.local") 10 16 (hosts_answer 604800 167772161) ∉
        store_empty.rb_wname.toList) ∧
    (167772161 ≠ INADDR_NONE ∧ 167772161 ≠ INADDR_ANY ∧
      (name_entry 1000 (bytes "host.local") 10 16 (hosts_answer 604800 167772161)).an_count = 1 ∧
      (name_entry 1000 (bytes "host.local") 10 16 (hosts_answer 604800 167772161)).an_length = 16 ∧
      (name_entry 1000 (bytes "host.local") 10 16 (hosts_answer 604800 167772161)).answer =
        [192, 12, 0, 1, 0, 1,
          604800 / 16777216 % 256, 604800 / 65536 % 256, 604800 / 256 % 256, 604800 % 256,
          0, 4, 167772161 / 16777216 % 256, 167772161 / 65536 % 256, 167772161 / 256 % 256,
          167772161 % 256]) :=
  ⟨by decide, by decide, by decide,
    static_answer_layout 604800 inet_addr_example 1000 store_empty
      (bytes "10.0.0.1 host.local *.wild.local\n")
      (name_entry 1000 (bytes "host.local") 10 16 (hosts_answer 604800 167772161)) 167772161
      (by decide) (Or.inl (by decide)) (by decide)⟩

/-- C11 (loader token handling): a hosts line made of blanks, an address text `ip`
that `inet_addr` accepts, a blank `sep` and the rest `rest`, no longer than the
8190 bytes that `fgets` hands over, is loaded as one call per whitespace-separated
token of `rest`, in order: the token is lower-cased; with a `*` in it the call is
`wname_append` of the bytes before the first `*` and the bytes after it with their
lengths, otherwise `name_append` of the whole lower-cased token with its length
(`spec_token_append`). The only other call the loop makes is one `name_append` of
the empty name when the line ends in two or more blanks. -/
theorem loader_token_handling (MAX_TTL : Nat) (inet_addr : List Nat → Nat) (now : Int)
    (g : g_cache) (blanks ip rest : List Nat) (sep : Nat)
    (hblanks : ∀ c ∈ blanks, is_space c = true)
    (hip : ip ≠ []) (hipc : ∀ c ∈ ip, is_space c = false) (hcomment : deref ip ≠ 35)
    (hsep : is_space sep = true)
    (hnone : inet_addr ip ≠ INADDR_NONE) (hany : inet_addr ip ≠ INADDR_ANY)
    (hlen : (blanks ++ ip ++ sep :: rest).length ≤ 8190) :
    hosts_line MAX_TTL inet_addr now g (blanks ++ ip ++ sep :: rest) =
      (spec_tokens rest ++
        (if 2 ≤ spec_trailing_blanks (sep :: rest) then [[]] else [])).foldl
        (spec_token_append now 16 (hosts_answer MAX_TTL (inet_addr ip))) g := by
  obtain ⟨a, l, rfl⟩ := List.exists_cons_of_ne_nil hip
  have ha : is_space a = false := hipc a (List.mem_cons_self _ _)
  have e1 : skip_space (blanks ++ (a :: l) ++ sep :: rest) = (a :: l) ++ sep :: rest := by
    rw [skip_space_eq, List.append_assoc, dropWhile_space_append _ _ hblanks,
      List.cons_append, List.dropWhile_cons]
    simp [ha]
  have e2 : skip_to_space ((a :: l) ++ sep :: rest) = sep :: rest := by
    rw [skip_to_space_eq, dropWhile_nonspace_append _ _ hipc, List.dropWhile_cons]
    simp [hsep]
  have e3 : ((a :: l) ++ sep :: rest).take
      (((a :: l) ++ sep :: rest).length - (sep :: rest).length) = a :: l := by
    have : ((a :: l) ++ sep :: rest).length - (sep :: rest).length = (a :: l).length := by
      rw [List.length_append]; omega
    rw [this, List.take_left]
  have e4 : deref ((a :: l) ++ sep :: rest) = a := rfl
  have e5 : deref (a :: l) = a := rfl
  rw [e5] at hcomment
  have hl : (sep :: rest).length < 65536 := by
    simp only [List.length_append, List.length_cons] at hlen ⊢
    omega
  have hd := hosts_domains_tokens (sep :: rest).length now 16
    (hosts_answer MAX_TTL (inet_addr (a :: l))) (sep :: rest) g (le_refl _)
    (Or.inr ⟨sep, rest, rfl, hsep⟩) hl
  simp only [hosts_line, e1, e2, e3, e4, ha, hcomment, hsep, hnone, hany, hosts_answer_length,
    deref, List.headD_cons]
  have hc : ¬ (is_space a = true ∨ a = 35) := by
    intro h
    rcases h with h | h
    · rw [ha] at h; exact Bool.noConfusion h
    · exact hcomment h
  simpa [hc] using hd

/-- Witness of C11: the line `10.0.0.1 Host.Local a*.Wild.local` is loaded as
`name_append` of `host.local` and then `wname_append` of `a` and `.wild.local`. -/
theorem loader_token_handling_witness :
    (∀ c ∈ ([] : List Nat), is_space c = true) ∧
    bytes "10.0.0.1" ≠ [] ∧
    (∀ c ∈ bytes "10.0.0.1", is_space c = false) ∧
    deref (bytes "10.0.0.1") ≠ 35 ∧
    is_space 32 = true ∧
    inet_addr_example (bytes "10.0.0.1") ≠ INADDR_NONE ∧
    inet_addr_example (bytes "10.0.0.1") ≠ INADDR_ANY ∧
    ([] ++ bytes "10.0.0.1" ++ 32 :: bytes "Host.Local a*.Wild.local\n").length ≤ 8190 ∧
    spec_tokens (bytes "Host.Local a*.Wild.local\n") =
      [bytes "Host.Local", bytes "a*.Wild.local"] ∧
    spec_trailing_blanks (32 :: bytes "Host.Local a*.Wild.local\n") = 1 ∧
    spec_token_append 1000 16 (hosts_answer 604800 167772161) g_cache_zero
        (bytes "Host.Local") =
      name_append 1000 g_cache_zero (bytes "host.local") 10 16
        (hosts_answer 604800 167772161) ∧
    hosts_line 604800 inet_addr_example 1000 g_cache_zero
        ([] ++ bytes "10.0.0.1" ++ 32 :: bytes "Host.Local a*.Wild.local\n") =
      (spec_tokens (bytes "Host.Local a*.Wild.local\n") ++
        (if 2 ≤ spec_trailing_blanks (32 :: bytes "Host.Local a*.Wild.local\n") then [[]]
          else [])).foldl
        (spec_token_append 1000 16
          (hosts_answer 604800 (inet_addr_example (bytes "10.0.0.1")))) g_cache_zero :=
  ⟨by decide, by decide, by decide, by decide, by decide, by decide, by decide, by decide,
    by decide, by decide, by decide,
    loader_token_handling 604800 inet_addr_example 1000 g_cache_zero [] (bytes "10.0.0.1")
      (bytes "Host.Local a*.Wild.local\n") 32 (by decide) (by decide) (by decide) (by decide)
      (by decide) (by decide) (by decide) (by decide)⟩

/-- C12, the failing input: the hosts line `10.0.0.1`, a blank and a newline has an
address and only whitespace after it. `skip_space` runs to the end of the line, the
test `is_space(*domain)` does not stop the loop there, and `name_append` is called
with the empty name: the Exact-Name Index gets an entry and `count` becomes 1. The
same line without the blank adds nothing. -/
theorem blank_tail_adds_empty_name :
    store_blank_tail.rb_name.toList =
      [name_entry 1000 [] 0 16 (hosts_answer 604800 167772161)] ∧
    store_blank_tail.count = 1 ∧
    domain_cache_init 604800 inet_addr_example 1000 g_cache_zero (some [bytes "10.0.0.1\n"]) =
      domain_cache_init 604800 inet_addr_example 1000 g_cache_zero none :=
  ⟨by decide, by decide, by decide⟩

/-- C13, the failing input: the Wildcard-Name Index holds `*.example.com` only;
`wname_append` of `*.a.example.com`, whose suffix is longer, is discarded and
`wcount` stays 1, because `wname_compare` returns 0 for the two. Loaded from one
hosts line in this order the index holds one entry, in the other order two. -/
theorem longer_suffix_is_discarded :
    store_example_com.rb_wname.toList =
      [wname_entry [] 0 (bytes ".example.com") 12 16 (hosts_answer 604800 167772161)] ∧
    store_example_com.wcount = 1 ∧
    wname_append store_example_com [] 0 (bytes ".a.example.com") 14 16
      (hosts_answer 604800 167772161) = store_example_com ∧
    (domain_cache_init 604800 inet_addr_example 1000 g_cache_zero
      (some [bytes "10.0.0.1 *.example.com *.a.example.com\n"])).wcount = 1 ∧
    (domain_cache_init 604800 inet_addr_example 1000 g_cache_zero
      (some [bytes "10.0.0.1 *.a.example.com *.example.com\n"])).wcount = 2 :=
  ⟨by decide, by decide, by decide, by decide, by decide⟩

/-- C14: in every store reachable with a positive clock, `domain_cache_clean` leaves
the Wildcard-Name Index and `wcount` as they were and leaves every static entry of
the Exact-Name Index (an entry whose `expire` is the zero that `name_append`
leaves) in place, and a lookup that returned a static entry, exact or wildcard,
returns the same entry after the sweep. -/
theorem static_entries_stay (g : g_cache) (current : Int) (e r : DOMAIN_CACHE)
    (Q : List Nat) (hg : ReachableClock g) :
    (domain_cache_clean current g).rb_wname = g.rb_wname ∧
    (domain_cache_clean current g).wcount = g.wcount ∧
    (e ∈ g.rb_name.toList → e.expire = 0 →
      e ∈ (domain_cache_clean current g).rb_name.toList) ∧
    (domain_cache_search g Q = some r → r.expire = 0 →
      domain_cache_search (domain_cache_clean current g) Q = some r) := by
  have hfr := clean_loop_frame g.rb_expire.size current g
  have hdyn := clock_expire_is_dynamic hg
  have hstat : ∀ x ∈ g.rb_name.toList, x.expire = 0 →
      x ∈ (domain_cache_clean current g).rb_name.toList := by
    intro x hx h0
    refine clean_loop_keeps_static _ _ _ _ hx ?_
    intro hm
    have := (hdyn.mem_iff.1 hm)
    simp [is_dynamic, h0] at this
  refine ⟨hfr.1, hfr.2.1, hstat e, ?_⟩
  intro hs h0
  have ho := reachable_name_ordered (reachable_of_clock hg)
  exact search_in_part ho (clean_loop_ordered _ _ _ ho) hfr.1 hfr.2.1
    (fun x hx => hfr.2.2.1.subset hx) (fun hr => hstat r hr h0) hs

/-- Witness of C14: the sweep at time 2030 takes `bar` out of the store and leaves
the static `host.local` and the wildcard `*.wild.local` where they were. -/
theorem static_entries_stay_witness :
    ReachableClock store_mixed ∧
    domain_cache_search (domain_cache_clean 2030 store_mixed) (bytes "bar") = none ∧
    (domain_cache_clean 2030 store_mixed).rb_wname = store_mixed.rb_wname ∧
    (domain_cache_clean 2030 store_mixed).wcount = store_mixed.wcount ∧
    name_entry 1000 (bytes "host.local") 10 16 (hosts_answer 604800 167772161) ∈
      (domain_cache_clean 2030 store_mixed).rb_name.toList ∧
    domain_cache_search (domain_cache_clean 2030 store_mixed) (bytes "a.wild.local") =
      some (wname_entry [] 0 (bytes ".wild.local") 11 16 (hosts_answer 604800 167772161)) :=
  ⟨clock_store_mixed, by decide,
    (static_entries_stay store_mixed 2030
      (name_entry 1000 (bytes "host.local") 10 16 (hosts_answer 604800 167772161))
      (wname_entry [] 0 (bytes ".wild.local") 11 16 (hosts_answer 604800 167772161))
      (bytes "a.wild.local") clock_store_mixed).1,
    (static_entries_stay store_mixed 2030
      (name_entry 1000 (bytes "host.local") 10 16 (hosts_answer 604800 167772161))
      (wname_entry [] 0 (bytes ".wild.local") 11 16 (hosts_answer 604800 167772161))
      (bytes "a.wild.local") clock_store_mixed).2.1,
    (static_entries_stay store_mixed 2030
      (name_entry 1000 (bytes "host.local") 10 16 (hosts_answer 604800 167772161))
      (wname_entry [] 0 (bytes ".wild.local") 11 16 (hosts_answer 604800 167772161))
      (bytes "a.wild.local") clock_store_mixed).2.2.1 (by decide) (by decide),
    (static_entries_stay store_mixed 2030
      (name_entry 1000 (bytes "host.local") 10 16 (hosts_answer 604800 167772161))
      (wname_entry [] 0 (bytes ".wild.local") 11 16 (hosts_answer 604800 167772161))
      (bytes "a.wild.local") clock_store_mixed).2.2.2 (by decide) (by decide)⟩

/-- C15, the failing input: for the entries of `*.a.example.com` and
`*.example.com`, whose suffix lengths are 14 and 12, `wname_compare` returns 0 one
way round and -1 the other way round: it is neither the order of the keys nor
antisymmetric. -/
theorem wname_compare_not_key_order :
    (wname_entry [] 0 (bytes ".a.example.com") 14 1 [1]).d_length = 14 ∧
    (wname_entry [] 0 (bytes ".example.com") 12 1 [1]).d_length = 12 ∧
    wname_compare (wname_entry [] 0 (bytes ".a.example.com") 14 1 [1])
      (wname_entry [] 0 (bytes ".example.com") 12 1 [1]) = 0 ∧
    wname_compare (wname_entry [] 0 (bytes ".example.com") 12 1 [1])
      (wname_entry [] 0 (bytes ".a.example.com") 14 1 [1]) = -1 :=
  ⟨by decide, by decide, by decide, by decide⟩

/-- C16, the failing input: two entries created at time 1700000000 with the TTLs 1
and 3000000000. The first expires before the second, and `expire_compare` of the
first against the second is positive: the difference -2999999999 loses its sign in
the cast to `int`. -/
theorem expire_compare_wraps :
    (dynamic_entry 1700000000 (bytes "a") 1 1 1 2 [3, 4]).expire = 1700000001 ∧
    (dynamic_entry 1700000000 (bytes "b") 1 3000000000 1 2 [1, 2]).expire = 4700000000 ∧
    expire_compare (dynamic_entry 1700000000 (bytes "a") 1 1 1 2 [3, 4])
      (dynamic_entry 1700000000 (bytes "b") 1 3000000000 1 2 [1, 2]) = 1294967297 ∧
    expire_compare (dynamic_entry 1700000000 (bytes "b") 1 3000000000 1 2 [1, 2])
      (dynamic_entry 1700000000 (bytes "a") 1 1 1 2 [3, 4]) = -1294967297 :=
  ⟨by decide, by decide, by decide, by decide⟩

/-- C17: in every store reachable with a positive clock, the Expiration Index holds
exactly the dynamic entries of the Exact-Name Index, each once; every entry of the
Exact-Name Index is static (built by `name_append`, `expire` zero) or dynamic
(built by `domain_cache_append`, `expire` not zero); no static entry and no
wildcard entry is in the Expiration Index; and no entry is in both the Exact-Name
Index and the Wildcard-Name Index. -/
theorem index_membership (g : g_cache) (hg : ReachableClock g) :
    g.rb_expire.toList.Perm (g.rb_name.toList.filter is_dynamic) ∧
    (∀ e ∈ g.rb_expire.toList, e ∈ g.rb_name.toList ∧ e.expire ≠ 0) ∧
    (∀ e ∈ g.rb_name.toList,
      (e.expire = 0 ∧ e ∉ g.rb_expire.toList ∧
        ∃ now d dl al ans, 0 < now ∧ e = name_entry now d dl al ans) ∨
      (e.expire ≠ 0 ∧ e ∈ g.rb_expire.toList ∧
        ∃ now d dl ttl ac al ans, 0 < now ∧ e = dynamic_entry now d dl ttl ac al ans)) ∧
    (∀ e ∈ g.rb_wname.toList, e ∉ g.rb_expire.toList ∧ e ∉ g.rb_name.toList ∧
      ∃ p pl d dl al ans, e = wname_entry p pl d dl al ans) := by
  have hdyn : g.rb_expire.toList.Perm (g.rb_name.toList.filter is_dynamic) :=
    clock_expire_is_dynamic hg
  have hmem : ∀ e, e ∈ g.rb_expire.toList ↔ e ∈ g.rb_name.toList ∧ e.expire ≠ 0 := by
    intro e
    rw [hdyn.mem_iff, List.mem_filter]
    simp [is_dynamic]
  obtain ⟨hN, hW⟩ := clock_entries
    (fun e => 0 < e.timestamp ∧
      ((e.expire = 0 ∧ ∃ now d dl al ans, 0 < now ∧ e = name_entry now d dl al ans) ∨
        (e.expire ≠ 0 ∧
          ∃ now d dl ttl ac al ans, 0 < now ∧ e = dynamic_entry now d dl ttl ac al ans)))
    (fun e => e.timestamp = 0 ∧ ∃ p pl d dl al ans, e = wname_entry p pl d dl al ans)
    (fun now hnow d dl al ans => ⟨hnow, Or.inl ⟨rfl, now, d, dl, al, ans, hnow, rfl⟩⟩)
    (fun now hnow d dl ttl ac al ans => ⟨hnow, Or.inr ⟨by
      simp only [dynamic_entry]; omega, now, d, dl, ttl, ac, al, ans, hnow, rfl⟩⟩)
    (fun p pl d dl al ans => ⟨rfl, p, pl, d, dl, al, ans, rfl⟩) hg
  refine ⟨hdyn, fun e he => (hmem e).1 he, ?_, ?_⟩
  · intro e he
    rcases (hN e he).2 with ⟨h0, hx⟩ | ⟨h0, hx⟩
    · exact Or.inl ⟨h0, fun hm => ((hmem e).1 hm).2 h0, hx⟩
    · exact Or.inr ⟨h0, (hmem e).2 ⟨he, h0⟩, hx⟩
  · intro e he
    have ht := (hW e he).1
    have hn : e ∉ g.rb_name.toList := by
      intro hm
      have := (hN e hm).1
      omega
    exact ⟨fun hm => hn ((hmem e).1 hm).1, hn, (hW e he).2⟩

/-- Witness of C17: the store with one static, one wildcard and two dynamic
entries. -/
theorem index_membership_witness :
    ReachableClock store_mixed ∧
    store_mixed.rb_expire.toList.Perm (store_mixed.rb_name.toList.filter is_dynamic) ∧
    (∀ e ∈ store_mixed.rb_expire.toList, e ∈ store_mixed.rb_name.toList ∧ e.expire ≠ 0) ∧
    (∀ e ∈ store_mixed.rb_name.toList,
      (e.expire = 0 ∧ e ∉ store_mixed.rb_expire.toList ∧
        ∃ now d dl al ans, 0 < now ∧ e = name_entry now d dl al ans) ∨
      (e.expire ≠ 0 ∧ e ∈ store_mixed.rb_expire.toList ∧
        ∃ now d dl ttl ac al ans, 0 < now ∧ e = dynamic_entry now d dl ttl ac al ans)) ∧
    (∀ e ∈ store_mixed.rb_wname.toList, e ∉ store_mixed.rb_expire.toList ∧
      e ∉ store_mixed.rb_name.toList ∧
      ∃ p pl d dl al ans, e = wname_entry p pl d dl al ans) :=
  ⟨clock_store_mixed, index_membership store_mixed clock_store_mixed⟩

/-- C18 (as amended): when the Wildcard-Name Index holds the two entries with suffix `S` and the
prefixes `P1` and `P1 ++ y`, both non-empty and the first a proper prefix of the
second, appended in either order to a store without wildcard entries, and no exact
entry is named `P1 ++ y ++ x ++ S`, the lookup of `P1 ++ y ++ x ++ S` returns the
entry with the longer prefix, for every text `x`. -/
theorem longest_prefix_tiebreak (g : g_cache) (P1 y x S : List Nat) (al1 al2 : Nat)
    (a1 a2 : List Nat) (hP : P1 ≠ []) (hy : y ≠ [])
    (hw : g.rb_wname = rbnode.RBNODE_NULL) (hc : g.wcount = 0)
    (hq : ∀ z ∈ g.rb_name.toList, z.domain ≠ P1 ++ y ++ x ++ S) :
    domain_cache_search
      (wname_append (wname_append g P1 P1.length S S.length al1 a1) (P1 ++ y) (P1 ++ y).length
        S S.length al2 a2)
      (P1 ++ y ++ x ++ S) = some (wname_entry (P1 ++ y) (P1 ++ y).length S S.length al2 a2) ∧
    domain_cache_search
      (wname_append (wname_append g (P1 ++ y) (P1 ++ y).length S S.length al2 a2) P1 P1.length
        S S.length al1 a1)
      (P1 ++ y ++ x ++ S) = some (wname_entry (P1 ++ y) (P1 ++ y).length S S.length al2 a2) := by
  obtain ⟨e1, e2⟩ := wname_append_two g P1 (P1 ++ y) S al1 al2 a1 a2 hw hc
    (strcmp_append_neg P1 y hy)
  have hyl : 0 < y.length := List.length_pos.2 hy
  have hPl : 0 < P1.length := List.length_pos.2 hP
  have hlen : (P1 ++ y ++ x ++ S).length = P1.length + y.length + x.length + S.length := by
    simp only [List.length_append]
  have hdrop : (P1 ++ y ++ x ++ S).drop ((P1 ++ y ++ x ++ S).length - S.length) = S := by
    have : (P1 ++ y ++ x ++ S).length - S.length = (P1 ++ y ++ x).length := by
      simp only [List.length_append]; omega
    rw [this, List.drop_left]
  have htake1 : (P1 ++ y ++ x ++ S).take P1.length = P1 := by
    rw [List.append_assoc, List.append_assoc, List.take_left]
  have htake2 : (P1 ++ y ++ x ++ S).take (P1 ++ y).length = P1 ++ y := by
    rw [List.append_assoc, List.take_left]
  have s1 := wname_search_descend ⟨P1 ++ y ++ x ++ S, (P1 ++ y ++ x ++ S).length, none⟩
    (wname_entry P1 P1.length S S.length al1 a1) rfl (wname_entry_d_length _ _ _ _)
    (wname_entry_p_length _ _ _ _)
    (by rw [wname_entry_domain]; dsimp only; omega)
    (by rw [wname_entry_domain]; exact hdrop)
    (Or.inr (by
      rw [wname_entry_pfx, wname_entry_domain]
      refine ⟨htake1, ?_⟩
      dsimp only; omega))
  dsimp only at s1
  have s2 : ∀ c,
      wname_search ⟨P1 ++ y ++ x ++ S, (P1 ++ y ++ x ++ S).length, c⟩
          (wname_entry (P1 ++ y) (P1 ++ y).length S S.length al2 a2) =
        (0, ⟨P1 ++ y ++ x ++ S, (P1 ++ y ++ x ++ S).length,
          some (wname_entry (P1 ++ y) (P1 ++ y).length S S.length al2 a2)⟩) ∨
      wname_search ⟨P1 ++ y ++ x ++ S, (P1 ++ y ++ x ++ S).length, c⟩
          (wname_entry (P1 ++ y) (P1 ++ y).length S S.length al2 a2) =
        (1, ⟨P1 ++ y ++ x ++ S, (P1 ++ y ++ x ++ S).length,
          some (wname_entry (P1 ++ y) (P1 ++ y).length S S.length al2 a2)⟩) := by
    intro c
    by_cases hx : x = []
    · left
      exact wname_search_hit ⟨P1 ++ y ++ x ++ S, (P1 ++ y ++ x ++ S).length, c⟩
        (wname_entry (P1 ++ y) (P1 ++ y).length S S.length al2 a2) rfl
        (wname_entry_d_length _ _ _ _) (wname_entry_p_length _ _ _ _)
        (by rw [wname_entry_domain]; dsimp only; simp only [List.length_append]; omega)
        (by rw [wname_entry_domain]; exact hdrop)
        (by rw [wname_entry_pfx]; simp only [List.length_append]; omega)
        (by rw [wname_entry_pfx]; exact htake2)
        (by
          rw [wname_entry_pfx, wname_entry_domain]
          subst hx
          dsimp only
          simp only [List.length_append, List.length_nil]
          omega)
    · right
      have hxl : 0 < x.length := List.length_pos.2 hx
      exact wname_search_descend ⟨P1 ++ y ++ x ++ S, (P1 ++ y ++ x ++ S).length, c⟩
        (wname_entry (P1 ++ y) (P1 ++ y).length S S.length al2 a2) rfl
        (wname_entry_d_length _ _ _ _) (wname_entry_p_length _ _ _ _)
        (by rw [wname_entry_domain]; dsimp only; simp only [List.length_append]; omega)
        (by rw [wname_entry_domain]; exact hdrop)
        (Or.inr (by
          rw [wname_entry_pfx, wname_entry_domain]
          refine ⟨htake2, ?_⟩
          dsimp only
          simp only [List.length_append]
          omega))
  constructor
  · rw [e1, search_wildcard_only (by exact hq) (by simp)]
    simp only [rbtree_search, s1]
    rcases s2 (some (wname_entry P1 P1.length S S.length al1 a1)) with h | h
    · simp only [h]; simp
    · simp only [h]; simp
  · rw [e2, search_wildcard_only (by exact hq) (by simp)]
    simp only [rbtree_search]
    rcases s2 none with h | h
    · simp only [h]; simp
    · simp only [h]; simp

/-- Witness of C18: prefixes `dev` and `dev1`, suffix `.example.com`, query
`dev1x.example.com`. -/
theorem longest_prefix_tiebreak_witness :
    bytes "dev" ≠ [] ∧ bytes "1" ≠ [] ∧
    bytes "dev" ++ bytes "1" ++ bytes "x" ++ bytes ".example.com" = bytes "dev1x.example.com" ∧
    (domain_cache_search
      (wname_append (wname_append store_empty (bytes "dev") (bytes "dev").length
        (bytes ".example.com") (bytes ".example.com").length 1 [1]) (bytes "dev" ++ bytes "1")
        (bytes "dev" ++ bytes "1").length (bytes ".example.com") (bytes ".example.com").length
        1 [2])
      (bytes "dev" ++ bytes "1" ++ bytes "x" ++ bytes ".example.com") =
      some (wname_entry (bytes "dev" ++ bytes "1") (bytes "dev" ++ bytes "1").length
        (bytes ".example.com") (bytes ".example.com").length 1 [2]) ∧
    domain_cache_search
      (wname_append (wname_append store_empty (bytes "dev" ++ bytes "1")
        (bytes "dev" ++ bytes "1").length (bytes ".example.com") (bytes ".example.com").length
        1 [2]) (bytes "dev") (bytes "dev").length (bytes ".example.com")
        (bytes ".example.com").length 1 [1])
      (bytes "dev" ++ bytes "1" ++ bytes "x" ++ bytes ".example.com") =
      some (wname_entry (bytes "dev" ++ bytes "1") (bytes "dev" ++ bytes "1").length
        (bytes ".example.com") (bytes ".example.com").length 1 [2])) :=
  ⟨by decide, by decide, by decide,
    longest_prefix_tiebreak store_empty (bytes "dev") (bytes "1") (bytes "x")
      (bytes ".example.com") 1 1 [1] [2] (by decide) (by decide) rfl rfl (by decide)⟩

/-- Counterexample to C18 as stated: the store has learned the name
`dev1x.example.com`; its Wildcard-Name Index is empty and then holds exactly the
entries of `dev*.example.com` and `dev1*.example.com`, appended in either order.
The lookup of `dev1x.example.com` returns the learned exact entry in both orders,
not the entry with prefix `dev1`. -/
theorem longest_prefix_tiebreak_counterexample :
    Reachable store_dev1x_exact ∧
    bytes "dev" ≠ [] ∧ bytes "1" ≠ [] ∧
    store_dev1x_exact.rb_wname = rbnode.RBNODE_NULL ∧ store_dev1x_exact.wcount = 0 ∧
    (wname_append (wname_append store_dev1x_exact (bytes "dev") (bytes "dev").length
        (bytes ".example.com") (bytes ".example.com").length 1 [1]) (bytes "dev" ++ bytes "1")
        (bytes "dev" ++ bytes "1").length (bytes ".example.com") (bytes ".example.com").length
        1 [2]).rb_wname.toList =
      [wname_entry (bytes "dev") (bytes "dev").length (bytes ".example.com")
          (bytes ".example.com").length 1 [1],
        wname_entry (bytes "dev" ++ bytes "1") (bytes "dev" ++ bytes "1").length
          (bytes ".example.com") (bytes ".example.com").length 1 [2]] ∧
    (wname_append (wname_append store_dev1x_exact (bytes "dev" ++ bytes "1")
        (bytes "dev" ++ bytes "1").length (bytes ".example.com") (bytes ".example.com").length
        1 [2]) (bytes "dev") (bytes "dev").length (bytes ".example.com")
        (bytes ".example.com").length 1 [1]).rb_wname.toList =
      [wname_entry (bytes "dev") (bytes "dev").length (bytes ".example.com")
          (bytes ".example.com").length 1 [1],
        wname_entry (bytes "dev" ++ bytes "1") (bytes "dev" ++ bytes "1").length
          (bytes ".example.com") (bytes ".example.com").length 1 [2]] ∧
    domain_cache_search
      (wname_append (wname_append store_dev1x_exact (bytes "dev") (bytes "dev").length
        (bytes ".example.com") (bytes ".example.com").length 1 [1]) (bytes "dev" ++ bytes "1")
        (bytes "dev" ++ bytes "1").length (bytes ".example.com") (bytes ".example.com").length
        1 [2])
      (bytes "dev" ++ bytes "1" ++ bytes "x" ++ bytes ".example.com") =
      some (dynamic_entry 50 (bytes "dev1x.example.com") 17 60 1 1 [9]) ∧
    domain_cache_search
      (wname_append (wname_append store_dev1x_exact (bytes "dev" ++ bytes "1")
        (bytes "dev" ++ bytes "1").length (bytes ".example.com") (bytes ".example.com").length
        1 [2]) (bytes "dev") (bytes "dev").length (bytes ".example.com")
        (bytes ".example.com").length 1 [1])
      (bytes "dev" ++ bytes "1" ++ bytes "x" ++ bytes ".example.com") =
      some (dynamic_entry 50 (bytes "dev1x.example.com") 17 60 1 1 [9]) ∧
    dynamic_entry 50 (bytes "dev1x.example.com") 17 60 1 1 [9] ≠
      wname_entry (bytes "dev" ++ bytes "1") (bytes "dev" ++ bytes "1").length
        (bytes ".example.com") (bytes ".example.com").length 1 [2] :=
  ⟨reachable_store_dev1x_exact, by decide, by decide, by decide, by decide, by decide,
    by decide, by decide, by decide, by decide⟩

/-- C19: in a store of any shape whose wildcard entries have a prefix no longer than
their `p_length` (as `wname_append` builds them, so in every reachable store), and
whose Exact-Name Index has no entry named `Q`, an entry that the lookup of `Q`
returns is an entry of the Wildcard-Name Index that `Q` matches: `Q` is at least as
long as its suffix, ends with its suffix, and equals the suffix, or the prefix is
empty, or `Q` starts with the prefix. -/
theorem wildcard_lookup_sound (g : g_cache) (Q : List Nat) (e : DOMAIN_CACHE)
    (hwf : ∀ z ∈ g.rb_wname.toList, z.prefix_.length ≤ z.p_length.toNat)
    (hq : ∀ z ∈ g.rb_name.toList, z.domain ≠ Q)
    (h : domain_cache_search g Q = some e) :
    e ∈ g.rb_wname.toList ∧ e.domain.length ≤ Q.length ∧
    Q.drop (Q.length - e.domain.length) = e.domain ∧
    (Q = e.domain ∨ e.prefix_ = [] ∨ Q.take e.prefix_.length = e.prefix_) := by
  have key : e ∈ g.rb_wname.toList ∧ spec_wildcard_match e.prefix_ e.domain Q := by
    by_cases hc : g.wcount < 1
    · unfold domain_cache_search at h
      simp [@name_search_none g.rb_name ⟨Q, Q.length, none⟩ hq, hc] at h
    · rw [search_wildcard_only (by exact hq) hc] at h
      obtain ⟨a, b⟩ := wname_descent_sound g.rb_wname ⟨Q, Q.length, none⟩ rfl hwf
      cases h2 : (rbtree_search wname_search g.rb_wname ⟨Q, Q.length, none⟩).1 with
      | some r =>
        rw [show rbtree_search wname_search g.rb_wname ⟨Q, Q.length, none⟩ =
          (some r, (rbtree_search wname_search g.rb_wname ⟨Q, Q.length, none⟩).2) from
          Prod.ext h2 rfl] at h
        simp at h
        subst h
        exact a _ h2
      | none =>
        rw [show rbtree_search wname_search g.rb_wname ⟨Q, Q.length, none⟩ =
          (none, (rbtree_search wname_search g.rb_wname ⟨Q, Q.length, none⟩).2) from
          Prod.ext h2 rfl] at h
        dsimp only at h
        rcases b with b | ⟨r, hr, b1, b2⟩
        · rw [b] at h; simp at h
        · rw [b1] at h
          simp at h
          subst h
          exact ⟨hr, b2⟩
  obtain ⟨hm, h1, h2, h3⟩ := key
  refine ⟨hm, h1, h2, ?_⟩
  rcases h3 with h3 | h3 | h3
  · left
    rw [h3] at h2
    simpa using h2
  · right; left
    exact List.length_eq_zero.1 h3
  · right; right
    exact h3

/-- Witness of C19: in the store loaded from `10.0.0.1 b*.a *.a` the lookup of
`bx.a` returns the entry of `b*.a`. -/
theorem wildcard_lookup_sound_witness :
    (∀ z ∈ store_prefixed_first.rb_wname.toList, z.prefix_.length ≤ z.p_length.toNat) ∧
    (∀ z ∈ store_prefixed_first.rb_name.toList, z.domain ≠ bytes "bx.a") ∧
    domain_cache_search store_prefixed_first (bytes "bx.a") =
      some (wname_entry (bytes "b") 1 (bytes ".a") 2 16 (hosts_answer 604800 167772161)) ∧
    (wname_entry (bytes "b") 1 (bytes ".a") 2 16 (hosts_answer 604800 167772161) ∈
        store_prefixed_first.rb_wname.toList ∧
      (wname_entry (bytes "b") 1 (bytes ".a") 2 16
        (hosts_answer 604800 167772161)).domain.length ≤ (bytes "bx.a").length ∧
      (bytes "bx.a").drop ((bytes "bx.a").length -
          (wname_entry (bytes "b") 1 (bytes ".a") 2 16
            (hosts_answer 604800 167772161)).domain.length) =
        (wname_entry (bytes "b") 1 (bytes ".a") 2 16 (hosts_answer 604800 167772161)).domain ∧
      (bytes "bx.a" =
          (wname_entry (bytes "b") 1 (bytes ".a") 2 16 (hosts_answer 604800 167772161)).domain ∨
        (wname_entry (bytes "b") 1 (bytes ".a") 2 16 (hosts_answer 604800 167772161)).prefix_ =
          [] ∨
        (bytes "bx.a").take
            (wname_entry (bytes "b") 1 (bytes ".a") 2 16
              (hosts_answer 604800 167772161)).prefix_.length =
          (wname_entry (bytes "b") 1 (bytes ".a") 2 16
            (hosts_answer 604800 167772161)).prefix_)) :=
  ⟨reachable_wname_wf reachable_store_prefixed_first, by decide, by decide,
    wildcard_lookup_sound store_prefixed_first (bytes "bx.a")
      (wname_entry (bytes "b") 1 (bytes ".a") 2 16 (hosts_answer 604800 167772161))
      (reachable_wname_wf reachable_store_prefixed_first) (by decide) (by decide)⟩

/-- C20 (as amended): in every reachable store `count` is the number of entries of
the Exact-Name Index and `wcount` the number of entries of the Wildcard-Name Index
modulo 2^32, so they are equal while the index holds fewer than 2^32 entries; an
append that `rbtree_insert_broken` rejects leaves the store, counters included, as
it was; and `domain_cache_clean` takes as many entries out of the Exact-Name Index
as out of the Expiration Index and lowers `count` by that number, modulo 2^32. -/
theorem counter_invariant (g : g_cache) (current now : Int) (d p : List Nat) (dl pl : Int)
    (ttl ac al : Nat) (ans : List Nat) (hg : Reachable g) :
    g.count = g.rb_name.size % 4294967296 ∧ g.wcount = g.rb_wname.size % 4294967296 ∧
    (g.rb_name.size < 4294967296 → g.count = g.rb_name.size) ∧
    (g.rb_wname.size < 4294967296 → g.wcount = g.rb_wname.size) ∧
    ((rbtree_insert_broken name_compare g.rb_name (name_entry now d dl al ans)).1 ≠ none →
      name_append now g d dl al ans = g) ∧
    ((rbtree_insert_broken wname_compare g.rb_wname (wname_entry p pl d dl al ans)).1 ≠ none →
      wname_append g p pl d dl al ans = g) ∧
    ((rbtree_insert_broken name_compare g.rb_name
        (dynamic_entry now d dl ttl ac al ans)).1 ≠ none →
      domain_cache_append now g d dl ttl ac al ans = g) ∧
    (domain_cache_clean current g).rb_name.size ≤ g.rb_name.size ∧
    g.rb_name.size - (domain_cache_clean current g).rb_name.size =
      g.rb_expire.size - (domain_cache_clean current g).rb_expire.size ∧
    ((domain_cache_clean current g).count +
        (g.rb_name.size - (domain_cache_clean current g).rb_name.size)) % 4294967296 =
      g.count := by
  obtain ⟨⟨h1, h2⟩, h3⟩ := reachable_counts hg
  obtain ⟨⟨⟨c1, _⟩, _⟩, c2, c3⟩ := clean_loop_counts g.rb_expire.size current g ⟨⟨h1, h2⟩, h3⟩
  have some_of_ne : ∀ o : Option DOMAIN_CACHE, o ≠ none → o.isSome = true := by
    intro o ho
    cases o with
    | none => exact absurd rfl ho
    | some v => rfl
  refine ⟨h1, h2, fun hb => by omega, fun hb => by omega, ?_, ?_, ?_, ?_, ?_, ?_⟩
  · intro hr
    unfold name_append
    simp only [some_of_ne _ hr, if_true]
  · intro hr
    unfold wname_append
    simp only [some_of_ne _ hr, if_true]
  · intro hr
    unfold domain_cache_append
    simp only [some_of_ne _ hr, if_true]
  · unfold domain_cache_clean; omega
  · unfold domain_cache_clean; omega
  · unfold domain_cache_clean
    omega

/-- Witness of C20 as amended: the store with three exact entries and one wildcard
entry, the sweep at time 2030 and the name `bar` that comes again. -/
theorem counter_invariant_witness :
    Reachable store_mixed ∧ store_mixed.count = 3 ∧ store_mixed.wcount = 1 ∧
    (domain_cache_clean 2030 store_mixed).count = 2 ∧
    (store_mixed.count = store_mixed.rb_name.size % 4294967296 ∧
      store_mixed.wcount = store_mixed.rb_wname.size % 4294967296 ∧
      (store_mixed.rb_name.size < 4294967296 → store_mixed.count = store_mixed.rb_name.size) ∧
      (store_mixed.rb_wname.size < 4294967296 →
        store_mixed.wcount = store_mixed.rb_wname.size) ∧
      ((rbtree_insert_broken name_compare store_mixed.rb_name
          (name_entry 2020 (bytes "bar") 3 1 [9])).1 ≠ none →
        name_append 2020 store_mixed (bytes "bar") 3 1 [9] = store_mixed) ∧
      ((rbtree_insert_broken wname_compare store_mixed.rb_wname
          (wname_entry [] 0 (bytes "bar") 3 1 [9])).1 ≠ none →
        wname_append store_mixed [] 0 (bytes "bar") 3 1 [9] = store_mixed) ∧
      ((rbtree_insert_broken name_compare store_mixed.rb_name
          (dynamic_entry 2020 (bytes "bar") 3 30 1 1 [9])).1 ≠ none →
        domain_cache_append 2020 store_mixed (bytes "bar") 3 30 1 1 [9] = store_mixed) ∧
      (domain_cache_clean 2030 store_mixed).rb_name.size ≤ store_mixed.rb_name.size ∧
      store_mixed.rb_name.size - (domain_cache_clean 2030 store_mixed).rb_name.size =
        store_mixed.rb_expire.size - (domain_cache_clean 2030 store_mixed).rb_expire.size ∧
      ((domain_cache_clean 2030 store_mixed).count +
          (store_mixed.rb_name.size - (domain_cache_clean 2030 store_mixed).rb_name.size)) %
          4294967296 =
        store_mixed.count) :=
  ⟨reachable_of_clock clock_store_mixed, by decide, by decide, by decide,
    counter_invariant store_mixed 2030 2020 (bytes "bar") [] 3 0 30 1 1 [9]
      (reachable_of_clock clock_store_mixed)⟩

/-- Counterexample to C20 as stated: the store that has learned 4294967296 names is
reachable, its Exact-Name Index holds 4294967296 entries, and `count`, an unsigned
32-bit number, is 0. -/
theorem counter_invariant_counterexample :
    Reachable (store_many 4294967296) ∧
    (store_many 4294967296).rb_name.size = 4294967296 ∧
    (store_many 4294967296).count = 0 ∧
    (store_many 4294967296).count ≠ (store_many 4294967296).rb_name.size := by
  obtain ⟨h1, h2, _⟩ := store_many_size 4294967296
  have h3 := (reachable_counts h1).1.1
  rw [h2] at h3
  have h4 : (store_many 4294967296).count = 0 := by rw [h3]
  exact ⟨h1, h2, h4, by rw [h4, h2]; decide⟩

end DomainCache
